import Mathlib

/-!
Verification of the batch serialization layer of the blaze native engine
(`src/native-engine/datafusion-ext-commons/src/io/batch_serde.rs`).

The Rust code is shallowly embedded: byte sinks become `List Nat` values
(each element one byte), fallible operations return `Except SerdeErr`, and
the arrow in-memory array representation is embedded as an explicit
physical-layout datatype (`PhysArray`) carrying buffers, base offsets and
validity bitmaps, mirroring the accessors the Rust code uses
(`offset()`, `len()`, `value_offsets()`, `to_data().nulls()`, `slice`).

Helpers of this repository that live outside the serialized sources
(`write_len`/`read_len`/`read_u8`/`write_u8`/`read_bytes_slice` from
`crate::io`) and the external collaborators (zstd, postcard,
`String::from_utf8_lossy`) are modelled from the specification, as marked
on each of their doc comments.
-/

namespace BatchSerde

/-- A byte stream: one `Nat` per byte (values kept below 256 by construction
at every write site). -/
abbrev Bytes := List Nat

/-- Error kinds of the codec, following the specification's error design.
`panicked` does not model a returned error but a Rust runtime panic
(out-of-bounds index / `unreachable!`) escaping the decoder; `arrowError`
is the `ArrowError` the `?` operator propagates out of the arrow
constructor validations (`ArrayData::try_new`,
`RecordBatch::try_new_with_options`), a kind outside the specification's
taxonomy. -/
inductive SerdeErr where
  | unsupportedType
  | malformedData
  | deserializeError
  | panicked
  | arrowError
deriving DecidableEq, Repr

/-- Modelled from the spec: `write_len` from `crate::io` (not under the
serialized sources), "a variable-width unsigned integer format" that is
self-terminating; we use the standard little-endian base-128 varint. -/
def write_len (n : Nat) : Bytes :=
  if h : n < 128 then [n] else (n % 128 + 128) :: write_len (n / 128)
decreasing_by exact Nat.div_lt_self (by omega) (by omega)

/-- Modelled from the spec: `read_len` from `crate::io`; inverse of
`write_len`, failing with `MalformedData` when the stream ends inside the
varint ("declared lengths inconsistent with available bytes"). -/
def read_len_aux : Bytes → Nat → Nat → Except SerdeErr (Nat × Bytes)
  | [], _, _ => .error .malformedData
  | b :: rest, shift, acc =>
    if b < 128 then .ok (acc + b * 2 ^ shift, rest)
    else read_len_aux rest (shift + 7) (acc + (b % 128) * 2 ^ shift)

def read_len (input : Bytes) : Except SerdeErr (Nat × Bytes) :=
  read_len_aux input 0 0

/-- Modelled from the spec: single-byte write helper from `crate::io`. -/
def write_u8 (b : Nat) : Bytes := [b]

/-- Modelled from the spec: single-byte read helper from `crate::io`. -/
def read_u8 : Bytes → Except SerdeErr (Nat × Bytes)
  | [] => .error .malformedData
  | b :: rest => .ok (b, rest)

/-- Modelled from the spec: exact-size byte-slice read from `crate::io`,
failing with `MalformedData` when fewer bytes are available. -/
def read_bytes_slice (n : Nat) (input : Bytes) : Except SerdeErr (Bytes × Bytes) :=
  if n ≤ input.length then .ok (input.take n, input.drop n) else .error .malformedData

theorem read_len_aux_round (n : Nat) : ∀ (shift acc : Nat) (rest : Bytes),
    read_len_aux (write_len n ++ rest) shift acc = .ok (acc + n * 2 ^ shift, rest) := by
  induction n using Nat.strong_induction_on with
  | _ n ih =>
    intro shift acc rest
    rw [write_len]
    by_cases h : n < 128
    · simp only [h, dif_pos, List.cons_append, List.nil_append, read_len_aux]
      simp
    · simp only [h, dif_neg, List.cons_append, read_len_aux]
      have h2 : ¬ (n % 128 + 128 < 128) := by omega
      rw [if_neg h2, List.append_eq, ih (n / 128) (Nat.div_lt_self (by omega) (by omega))]
      have hmod : (n % 128 + 128) % 128 = n % 128 := by omega
      rw [hmod]
      congr 2
      conv_rhs => rw [← Nat.div_add_mod n 128]
      ring

theorem read_len_round (n : Nat) (rest : Bytes) :
    read_len (write_len n ++ rest) = .ok (n, rest) := by
  simp [read_len, read_len_aux_round]

theorem read_bytes_slice_round (xs rest : Bytes) :
    read_bytes_slice xs.length (xs ++ rest) = .ok (xs, rest) := by
  simp [read_bytes_slice]

theorem read_u8_round (b : Nat) (rest : Bytes) :
    read_u8 (b :: rest) = .ok (b, rest) := rfl

/-! ## Bitmap transcoder (`write_bits_buffer` / `read_bits_buffer`) -/

/-- Bit `i` of a byte buffer, least-significant bit first inside each byte;
this is `arrow::util::bit_util::get_bit_raw`. -/
def getBit (buf : Bytes) (i : Nat) : Bool :=
  buf.getD (i / 8) 0 / 2 ^ (i % 8) % 2 = 1

/-- Byte `j` of the repacked bitmap: bit `k` is source bit `off + 8*j + k`
when `8*j + k < len`, and `0` past `len` (the output vector starts zeroed
and `set_bit_raw` is only invoked for indices below `len`). -/
def packedByte (buf : Bytes) (off len j : Nat) : Nat :=
  (List.range 8).foldl
    (fun acc k => if 8 * j + k < len ∧ getBit buf (off + (8 * j + k)) then acc + 2 ^ k else acc) 0

/-- `write_bits_buffer`: repack `len` bits starting at bit `off` of `buf`
into `⌈len/8⌉` bytes starting at bit 0. (The Rust function then writes the
bytes to the sink; here the produced bytes are the result.) -/
def write_bits_buffer (buf : Bytes) (off len : Nat) : Bytes :=
  (List.range ((len + 7) / 8)).map (packedByte buf off len)

/-- `read_bits_buffer`: read `⌈len/8⌉` bytes back as a bit buffer. -/
def read_bits_buffer (input : Bytes) (len : Nat) : Except SerdeErr (Bytes × Bytes) :=
  read_bytes_slice ((len + 7) / 8) input

theorem write_bits_buffer_length (buf : Bytes) (off len : Nat) :
    (write_bits_buffer buf off len).length = (len + 7) / 8 := by
  simp [write_bits_buffer]

theorem write_bits_buffer_nil (buf : Bytes) (off : Nat) :
    write_bits_buffer buf off 0 = [] := by
  simp [write_bits_buffer]

theorem packedByte_testBit (buf : Bytes) (off len j m : Nat) (hm : m < 8) :
    packedByte buf off len j / 2 ^ m % 2
      = if 8 * j + m < len ∧ getBit buf (off + (8 * j + m)) then 1 else 0 := by
  simp only [packedByte, List.range_succ, List.range_zero, List.foldl_append, List.foldl_cons,
    List.foldl_nil]
  set c : Nat → Nat := fun k => if 8 * j + k < len ∧ getBit buf (off + (8 * j + k)) then 1 else 0 with hc
  have hstep : ∀ (acc k : Nat),
      (if 8 * j + k < len ∧ getBit buf (off + (8 * j + k)) then acc + 2 ^ k else acc)
        = acc + c k * 2 ^ k := by
    intro acc k
    simp only [hc]
    by_cases hp : 8 * j + k < len ∧ getBit buf (off + (8 * j + k))
    · rw [if_pos hp, if_pos hp]; ring
    · rw [if_neg hp, if_neg hp]; ring
  have hrhs : (if 8 * j + m < len ∧ getBit buf (off + (8 * j + m)) then 1 else 0) = c m := rfl
  rw [hrhs]
  simp only [List.foldl_cons, List.foldl_nil, hstep]
  have hck : ∀ k, c k ≤ 1 := by
    intro k
    simp only [hc]
    split <;> omega
  have h0 := hck 0
  have h1 := hck 1
  have h2 := hck 2
  have h3 := hck 3
  have h4 := hck 4
  have h5 := hck 5
  have h6 := hck 6
  have h7 := hck 7
  interval_cases m <;> simp only [pow_succ, pow_zero] <;> omega

theorem getBit_write_bits_buffer (buf : Bytes) (off len i : Nat) (hi : i < len) :
    getBit (write_bits_buffer buf off len) i = getBit buf (off + i) := by
  have hdiv : i / 8 < (len + 7) / 8 := by omega
  have hgetD : (write_bits_buffer buf off len).getD (i / 8) 0 = packedByte buf off len (i / 8) := by
    rw [write_bits_buffer]
    rw [List.getD_eq_getElem?_getD, List.getElem?_map, List.getElem?_range hdiv]
    rfl
  rw [getBit, hgetD, packedByte_testBit buf off len (i / 8) (i % 8) (Nat.mod_lt _ (by omega))]
  have hieq : 8 * (i / 8) + i % 8 = i := by omega
  rw [hieq]
  by_cases hb : getBit buf (off + i) <;> simp [hb, hi]

theorem getBit_write_bits_buffer_ge (buf : Bytes) (off len i : Nat) (hi : len ≤ i) :
    getBit (write_bits_buffer buf off len) i = false := by
  by_cases hdiv : i / 8 < (len + 7) / 8
  · have hgetD : (write_bits_buffer buf off len).getD (i / 8) 0 = packedByte buf off len (i / 8) := by
      rw [write_bits_buffer]
      rw [List.getD_eq_getElem?_getD, List.getElem?_map, List.getElem?_range hdiv]
      rfl
    rw [getBit, hgetD, packedByte_testBit buf off len (i / 8) (i % 8) (Nat.mod_lt _ (by omega))]
    have : ¬ (8 * (i / 8) + i % 8 < len) := by omega
    simp [this]
  · have hgetD : (write_bits_buffer buf off len).getD (i / 8) 0 = 0 := by
      apply List.getD_eq_default
      rw [write_bits_buffer_length]; omega
    simp only [getBit]
    rw [hgetD]
    simp

/-- Repacking depends only on the logical bit window: two sources that agree
on the window produce identical byte vectors. -/
theorem packedByte_congr (a b : Bytes) (oa ob len j : Nat)
    (h : ∀ i < len, getBit a (oa + i) = getBit b (ob + i)) :
    packedByte a oa len j = packedByte b ob len j := by
  unfold packedByte
  congr 1
  funext acc k
  by_cases hlt : 8 * j + k < len
  · rw [h _ hlt]
  · simp [hlt]

theorem write_bits_buffer_congr (a b : Bytes) (oa ob len : Nat)
    (h : ∀ i < len, getBit a (oa + i) = getBit b (ob + i)) :
    write_bits_buffer a oa len = write_bits_buffer b ob len := by
  unfold write_bits_buffer
  apply List.map_congr_left
  intro j _
  exact packedByte_congr a b oa ob len j h

/-! ## Data types

`arrow::datatypes::DataType` restricted to the kinds the codec dispatches
on, plus representatives of the kinds hit by the `other =>` arms
(`FixedSizeBinary`, `Interval`).  A `Field` (name, data type, nullability)
is inlined as a triple; Rust strings are represented by their UTF-8 bytes. -/

inductive TimeUnit where
  | second | millisecond | microsecond | nanosecond
deriving DecidableEq, Repr

inductive DataType where
  | nullT
  | booleanT
  | int8T | int16T | int32T | int64T
  | uint8T | uint16T | uint32T | uint64T
  | float32T | float64T
  | decimal128T (precision : Nat) (scale : Int)
  | date32T | date64T
  | timestampT (unit : TimeUnit) (tz : Option Bytes)
  | utf8T | binaryT
  | listT (fname : Bytes) (fdt : DataType) (fnullable : Bool)
  | mapT (fname : Bytes) (fdt : DataType) (fnullable : Bool) (sorted : Bool)
  | structT (fields : List (Bytes × DataType × Bool))
  | fixedSizeBinaryT (byteWidth : Nat)
  | intervalT (tag : Nat)

/-- A field of a container type: name bytes, child data type, nullability. -/
abbrev FieldT := Bytes × DataType × Bool

mutual

/-- `nameless_data_type`: rewrite every container child field with an empty
name, keeping nullability and nested structure. -/
def namelessDT : DataType → DataType
  | .listT _ fdt fn => .listT [] (namelessDT fdt) fn
  | .mapT _ fdt fn s => .mapT [] (namelessDT fdt) fn s
  | .structT fields => .structT (namelessFields fields)
  | d => d

/-- `nameless_field` mapped over a field list. -/
def namelessFields : List FieldT → List FieldT
  | [] => []
  | (_, fdt, fn) :: rest => ([], namelessDT fdt, fn) :: namelessFields rest

end

mutual

/-- Structural size measure on data types (used for recursion fuel). -/
def dtSize : DataType → Nat
  | .listT _ fdt _ => 2 + dtSize fdt
  | .mapT _ fdt _ _ => 2 + dtSize fdt
  | .structT fields => 2 + flSize fields
  | _ => 1

def flSize : List FieldT → Nat
  | [] => 0
  | (_, fdt, _) :: rest => 2 + dtSize fdt + flSize rest

end

mutual

/-- Structural equality of data types (`DataType`'s `PartialEq`), the test
the arrow constructor validations (`ArrayData::try_new`,
`RecordBatch::try_new_with_options`) run on declared versus actual child
types. -/
def dtEq : DataType → DataType → Bool
  | .nullT, .nullT => true
  | .booleanT, .booleanT => true
  | .int8T, .int8T => true
  | .int16T, .int16T => true
  | .int32T, .int32T => true
  | .int64T, .int64T => true
  | .uint8T, .uint8T => true
  | .uint16T, .uint16T => true
  | .uint32T, .uint32T => true
  | .uint64T, .uint64T => true
  | .float32T, .float32T => true
  | .float64T, .float64T => true
  | .decimal128T p s, .decimal128T q t => decide (p = q) && decide (s = t)
  | .date32T, .date32T => true
  | .date64T, .date64T => true
  | .timestampT u tz, .timestampT w tw => decide (u = w) && decide (tz = tw)
  | .utf8T, .utf8T => true
  | .binaryT, .binaryT => true
  | .listT n f b, .listT m g c => decide (n = m) && dtEq f g && decide (b = c)
  | .mapT n f b s, .mapT m g c t =>
      decide (n = m) && dtEq f g && decide (b = c) && decide (s = t)
  | .structT fs, .structT gs => flEq fs gs
  | .fixedSizeBinaryT w, .fixedSizeBinaryT v => decide (w = v)
  | .intervalT t, .intervalT u => decide (t = u)
  | _, _ => false

/-- `dtEq` over field lists (a struct's `Fields` equality). -/
def flEq : List FieldT → List FieldT → Bool
  | [], [] => true
  | f :: fs, g :: gs =>
      decide (f.1 = g.1) && dtEq f.2.1 g.2.1 && decide (f.2.2 = g.2.2) && flEq fs gs
  | _, _ => false

end

set_option maxHeartbeats 1600000 in
theorem dtEq_refl_all (K : Nat) :
    (∀ dt : DataType, dtSize dt ≤ K → dtEq dt dt = true) ∧
    (∀ fs : List FieldT, flSize fs ≤ K → flEq fs fs = true) := by
  induction K using Nat.strong_induction_on with
  | _ K ih =>
    constructor
    · intro dt hK
      cases dt with
      | listT n f b =>
          simp only [dtSize] at hK
          simp only [dtEq, Bool.and_eq_true, decide_eq_true_eq]
          exact ⟨⟨trivial, (ih (dtSize f) (by omega)).1 f le_rfl⟩, trivial⟩
      | mapT n f b s =>
          simp only [dtSize] at hK
          simp only [dtEq, Bool.and_eq_true, decide_eq_true_eq]
          exact ⟨⟨⟨trivial, (ih (dtSize f) (by omega)).1 f le_rfl⟩, trivial⟩, trivial⟩
      | structT fs =>
          simp only [dtSize] at hK
          simp only [dtEq]
          exact (ih (flSize fs) (by omega)).2 fs le_rfl
      | _ => simp [dtEq]
    · intro fs hK
      cases fs with
      | nil => simp [flEq]
      | cons f gs =>
          obtain ⟨fn, fdt, fb⟩ := f
          simp only [flSize] at hK
          simp only [flEq, Bool.and_eq_true, decide_eq_true_eq]
          exact ⟨⟨⟨trivial, (ih (dtSize fdt) (by omega)).1 fdt le_rfl⟩, trivial⟩,
            (ih (flSize gs) (by omega)).2 gs le_rfl⟩

theorem dtEq_refl (dt : DataType) : dtEq dt dt = true :=
  (dtEq_refl_all (dtSize dt)).1 dt le_rfl

mutual

/-- No timestamp type anywhere in the tree carries a time zone. -/
def noTz : DataType → Bool
  | .timestampT _ (some _) => false
  | .listT _ fdt _ => noTz fdt
  | .mapT _ fdt _ _ => noTz fdt
  | .structT fields => noTzFields fields
  | _ => true

def noTzFields : List FieldT → Bool
  | [] => true
  | f :: fs => noTz f.2.1 && noTzFields fs

end

/-- The child-type validations run by the reader's arrow constructors pass
for this declared type: below the root, no timestamp carries a time zone
(at the root no constructor compares the rebuilt type, so a bare
timestamp-with-time-zone array still reads back). -/
def nestNoTz : DataType → Bool
  | .listT _ fdt _ => noTz fdt
  | .mapT _ fdt _ _ => noTz fdt
  | .structT fields => noTzFields fields
  | _ => true

def nestNoTzFields : List FieldT → Bool
  | [] => true
  | f :: fs => nestNoTz f.2.1 && nestNoTzFields fs

theorem noTz_nestNoTz (dt : DataType) (h : noTz dt = true) : nestNoTz dt = true := by
  cases dt with
  | timestampT u tz =>
      cases tz with
      | none => rfl
      | some s => simp [noTz] at h
  | listT n f b => simpa [noTz, nestNoTz] using h
  | mapT n f b s => simpa [noTz, nestNoTz] using h
  | structT fs => simpa [noTz, nestNoTz] using h
  | _ => rfl

theorem noTzFields_nest : ∀ fields : List FieldT, noTzFields fields = true →
    nestNoTzFields fields = true
  | [], _ => rfl
  | f :: fs, h => by
      simp only [noTzFields, Bool.and_eq_true] at h
      simp only [nestNoTzFields, Bool.and_eq_true]
      exact ⟨noTz_nestNoTz _ h.1, noTzFields_nest fs h.2⟩

/-! ## Data-type codec (`write_data_type` / `read_data_type`)

The Rust code serializes the name-stripped type through `postcard`, an
external self-describing serializer.  Modelled from the spec: "serializes
the resulting anonymized type tree using any stable, compact,
self-describing encoding"; we use a tag byte per constructor followed by
the constructor's payload, with varint lengths. -/

def boolByte (b : Bool) : Nat := if b then 1 else 0

def readBoolByte (input : Bytes) : Except SerdeErr (Bool × Bytes) := do
  let (b, r) ← read_u8 input
  if b = 0 then .ok (false, r)
  else if b = 1 then .ok (true, r)
  else .error .deserializeError

def tuTag : TimeUnit → Nat
  | .second => 0 | .millisecond => 1 | .microsecond => 2 | .nanosecond => 3

def decodeTU (t : Nat) : Except SerdeErr TimeUnit :=
  if t = 0 then .ok .second
  else if t = 1 then .ok .millisecond
  else if t = 2 then .ok .microsecond
  else if t = 3 then .ok .nanosecond
  else .error .deserializeError

theorem decodeTU_tuTag (u : TimeUnit) : decodeTU (tuTag u) = .ok u := by
  cases u <;> rfl

def zigzag (s : Int) : Nat := if 0 ≤ s then 2 * s.toNat else 2 * (-s).toNat - 1

def unzigzag (n : Nat) : Int := if n % 2 = 0 then (n / 2 : Nat) else -((n + 1) / 2 : Nat)

theorem unzigzag_zigzag (s : Int) : unzigzag (zigzag s) = s := by
  unfold zigzag unzigzag
  by_cases h : 0 ≤ s
  · simp only [h, if_pos]
    omega
  · rw [if_neg h]
    have h1 : 0 < (-s).toNat := by omega
    have h2 : (2 * (-s).toNat - 1) % 2 = 1 := by omega
    rw [if_neg (by omega)]
    omega

def encodeOptBytes : Option Bytes → Bytes
  | none => [0]
  | some bs => 1 :: (write_len bs.length ++ bs)

def decodeOptBytes (input : Bytes) : Except SerdeErr (Option Bytes × Bytes) := do
  let (t, r) ← read_u8 input
  if t = 0 then .ok (none, r)
  else if t = 1 then do
    let (n, r) ← read_len r
    let (bs, r) ← read_bytes_slice n r
    .ok (some bs, r)
  else .error .deserializeError

@[simp] theorem except_bind_ok {ε α β : Type} (a : α) (f : α → Except ε β) :
    (Except.ok a : Except ε α) >>= f = f a := rfl

@[simp] theorem except_bind_error {ε α β : Type} (e : ε) (f : α → Except ε β) :
    (Except.error e : Except ε α) >>= f = Except.error e := rfl

@[simp] theorem except_map_ok {ε α β : Type} (a : α) (f : α → β) :
    f <$> (Except.ok a : Except ε α) = Except.ok (f a) := rfl

@[simp] theorem except_map_error {ε α β : Type} (e : ε) (f : α → β) :
    f <$> (Except.error e : Except ε α) = Except.error e := rfl

theorem decodeOptBytes_round (o : Option Bytes) (rest : Bytes) :
    decodeOptBytes (encodeOptBytes o ++ rest) = .ok (o, rest) := by
  cases o with
  | none => rfl
  | some bs =>
    simp [encodeOptBytes, decodeOptBytes, read_u8, read_len_round, read_bytes_slice_round]

mutual

def dtEncode : DataType → Bytes
  | .nullT => [0]
  | .booleanT => [1]
  | .int8T => [2]
  | .int16T => [3]
  | .int32T => [4]
  | .int64T => [5]
  | .uint8T => [6]
  | .uint16T => [7]
  | .uint32T => [8]
  | .uint64T => [9]
  | .float32T => [10]
  | .float64T => [11]
  | .decimal128T p s => 12 :: (write_len p ++ write_len (zigzag s))
  | .date32T => [13]
  | .date64T => [14]
  | .timestampT u tz => 15 :: tuTag u :: encodeOptBytes tz
  | .utf8T => [16]
  | .binaryT => [17]
  | .listT n fdt fn => 18 :: fieldEncode n fdt fn
  | .mapT n fdt fn s => 19 :: (fieldEncode n fdt fn ++ [boolByte s])
  | .structT fields => 20 :: (write_len fields.length ++ flEncode fields)
  | .fixedSizeBinaryT w => 21 :: write_len w
  | .intervalT t => 22 :: write_len t

def fieldEncode (n : Bytes) (fdt : DataType) (fn : Bool) : Bytes :=
  write_len n.length ++ n ++ dtEncode fdt ++ [boolByte fn]

def flEncode : List FieldT → Bytes
  | [] => []
  | (n, fdt, fn) :: rest => fieldEncode n fdt fn ++ flEncode rest

end

mutual

def dtDecode : Nat → Bytes → Except SerdeErr (DataType × Bytes)
  | 0, _ => .error .deserializeError
  | fuel + 1, input => do
    let (tag, r) ← read_u8 input
    if tag = 0 then .ok (.nullT, r)
    else if tag = 1 then .ok (.booleanT, r)
    else if tag = 2 then .ok (.int8T, r)
    else if tag = 3 then .ok (.int16T, r)
    else if tag = 4 then .ok (.int32T, r)
    else if tag = 5 then .ok (.int64T, r)
    else if tag = 6 then .ok (.uint8T, r)
    else if tag = 7 then .ok (.uint16T, r)
    else if tag = 8 then .ok (.uint32T, r)
    else if tag = 9 then .ok (.uint64T, r)
    else if tag = 10 then .ok (.float32T, r)
    else if tag = 11 then .ok (.float64T, r)
    else if tag = 12 then do
      let (p, r) ← read_len r
      let (z, r) ← read_len r
      .ok (.decimal128T p (unzigzag z), r)
    else if tag = 13 then .ok (.date32T, r)
    else if tag = 14 then .ok (.date64T, r)
    else if tag = 15 then do
      let (t, r) ← read_u8 r
      let u ← decodeTU t
      let (tz, r) ← decodeOptBytes r
      .ok (.timestampT u tz, r)
    else if tag = 16 then .ok (.utf8T, r)
    else if tag = 17 then .ok (.binaryT, r)
    else if tag = 18 then do
      let (f, r) ← fieldDecode fuel r
      .ok (.listT f.1 f.2.1 f.2.2, r)
    else if tag = 19 then do
      let (f, r) ← fieldDecode fuel r
      let (s, r) ← readBoolByte r
      .ok (.mapT f.1 f.2.1 f.2.2 s, r)
    else if tag = 20 then do
      let (cnt, r) ← read_len r
      let (fields, r) ← flDecode fuel cnt r
      .ok (.structT fields, r)
    else if tag = 21 then do
      let (w, r) ← read_len r
      .ok (.fixedSizeBinaryT w, r)
    else if tag = 22 then do
      let (t, r) ← read_len r
      .ok (.intervalT t, r)
    else .error .deserializeError
termination_by fuel _ => (fuel, 0)

def fieldDecode : Nat → Bytes → Except SerdeErr (FieldT × Bytes)
  | 0, _ => .error .deserializeError
  | fuel + 1, input => do
    let (nl, r) ← read_len input
    let (n, r) ← read_bytes_slice nl r
    let (fdt, r) ← dtDecode fuel r
    let (fn, r) ← readBoolByte r
    .ok ((n, fdt, fn), r)
termination_by fuel _ => (fuel, 0)

def flDecode : Nat → Nat → Bytes → Except SerdeErr (List FieldT × Bytes)
  | _, 0, input => .ok ([], input)
  | fuel, cnt + 1, input => do
    let (f, r) ← fieldDecode fuel input
    let (fields, r) ← flDecode fuel cnt r
    .ok (f :: fields, r)
termination_by fuel cnt _ => (fuel, cnt + 1)

end

theorem dt_codec_round (fuel : Nat) :
    (∀ n fdt fn rest, dtSize fdt + 2 ≤ fuel →
       fieldDecode fuel (fieldEncode n fdt fn ++ rest) = .ok ((n, fdt, fn), rest)) ∧
    (∀ fields rest, flSize fields < fuel →
       flDecode fuel fields.length (flEncode fields ++ rest) = .ok (fields, rest)) ∧
    (∀ dt rest, dtSize dt < fuel → dtDecode fuel (dtEncode dt ++ rest) = .ok (dt, rest)) := by
  induction fuel with
  | zero =>
    refine ⟨fun n fdt fn rest h => absurd h (by omega), fun fields rest h => absurd h (by omega),
      fun dt rest h => absurd h (by omega)⟩
  | succ fuel ih =>
    obtain ⟨ihf, ihl, ihd⟩ := ih
    have hfield : ∀ n fdt fn rest, dtSize fdt + 2 ≤ fuel + 1 →
        fieldDecode (fuel + 1) (fieldEncode n fdt fn ++ rest) = .ok ((n, fdt, fn), rest) := by
      intro n fdt fn rest h
      simp only [fieldEncode, fieldDecode, List.append_assoc]
      rw [read_len_round]
      simp only [except_bind_ok]
      rw [read_bytes_slice_round]
      simp only [except_bind_ok]
      rw [ihd fdt _ (by omega)]
      simp only [except_bind_ok]
      cases fn <;> simp [readBoolByte, boolByte, read_u8]
    refine ⟨hfield, ?_, ?_⟩
    · intro fields
      induction fields with
      | nil => intro rest h; simp [flEncode, flDecode]
      | cons f fs ihfs =>
        intro rest h
        obtain ⟨n, fdt, fn⟩ := f
        simp only [flSize] at h
        simp only [flEncode, flDecode, List.length_cons, List.append_assoc]
        rw [hfield n fdt fn _ (by omega)]
        simp only [except_bind_ok]
        rw [ihfs _ (by omega)]
        rfl
    · intro dt rest h
      cases dt with
      | decimal128T p s =>
        simp only [dtEncode, dtDecode, List.cons_append, read_u8, except_bind_ok,
          List.append_assoc]
        norm_num
        rw [read_len_round]
        simp only [except_bind_ok]
        rw [read_len_round]
        simp only [except_bind_ok, unzigzag_zigzag]
      | timestampT u tz =>
        simp only [dtEncode, dtDecode, List.cons_append, read_u8, except_bind_ok]
        norm_num
        rw [decodeTU_tuTag]
        simp only [except_bind_ok, List.append_assoc, decodeOptBytes_round]
      | listT n fdt fn =>
        simp only [dtSize] at h
        simp only [dtEncode, dtDecode, List.cons_append, read_u8, except_bind_ok]
        norm_num
        rw [ihf n fdt fn rest (by omega)]
        rfl
      | mapT n fdt fn s =>
        simp only [dtSize] at h
        simp only [dtEncode, dtDecode, List.cons_append, read_u8, except_bind_ok,
          List.append_assoc]
        norm_num
        rw [ihf n fdt fn _ (by omega)]
        simp only [except_bind_ok]
        cases s <;> simp [readBoolByte, boolByte, read_u8]
      | structT fields =>
        simp only [dtSize] at h
        simp only [dtEncode, dtDecode, List.cons_append, read_u8, except_bind_ok,
          List.append_assoc]
        norm_num
        rw [read_len_round]
        simp only [except_bind_ok]
        rw [ihl fields rest (by omega)]
        rfl
      | fixedSizeBinaryT w =>
        simp only [dtEncode, dtDecode, List.cons_append, read_u8, except_bind_ok]
        norm_num
        rw [read_len_round]
        rfl
      | intervalT t =>
        simp only [dtEncode, dtDecode, List.cons_append, read_u8, except_bind_ok]
        norm_num
        rw [read_len_round]
        rfl
      | _ =>
        simp [dtEncode, dtDecode, read_u8]

theorem write_len_length_pos (n : Nat) : 1 ≤ (write_len n).length := by
  rw [write_len]
  split <;> simp

theorem dtSize_le_encode (k : Nat) :
    (∀ dt, dtSize dt ≤ k → dtSize dt ≤ (dtEncode dt).length) ∧
    (∀ fields, flSize fields ≤ k → flSize fields ≤ (flEncode fields).length) := by
  induction k using Nat.strong_induction_on with
  | _ k ih =>
    constructor
    · intro dt hk
      cases dt with
      | listT n fdt fn =>
        have hs : dtSize (.listT n fdt fn) = 2 + dtSize fdt := by simp [dtSize]
        rw [hs] at hk ⊢
        have hfdt := ((ih (k - 1) (by omega)).1 fdt (by omega))
        simp only [dtEncode, fieldEncode, List.length_cons, List.length_append]
        have := write_len_length_pos n.length
        omega
      | mapT n fdt fn s =>
        have hs : dtSize (.mapT n fdt fn s) = 2 + dtSize fdt := by simp [dtSize]
        rw [hs] at hk ⊢
        have hfdt := ((ih (k - 1) (by omega)).1 fdt (by omega))
        simp only [dtEncode, fieldEncode, List.length_cons, List.length_append]
        have := write_len_length_pos n.length
        omega
      | structT fields =>
        have hs : dtSize (.structT fields) = 2 + flSize fields := by simp [dtSize]
        rw [hs] at hk ⊢
        have hfl := ((ih (k - 1) (by omega)).2 fields (by omega))
        simp only [dtEncode, List.length_cons, List.length_append]
        have := write_len_length_pos fields.length
        omega
      | _ => simp [dtSize, dtEncode]
    · intro fields hk
      induction fields with
      | nil => simp [flSize, flEncode]
      | cons f fs ihfs =>
        obtain ⟨n, fdt, fn⟩ := f
        have hs : flSize ((n, fdt, fn) :: fs) = 2 + dtSize fdt + flSize fs := by simp [flSize]
        rw [hs] at hk ⊢
        have hfdt := ((ih (k - 1) (by omega)).1 fdt (by omega))
        have hfs := ihfs (by omega)
        simp only [flEncode, fieldEncode, List.length_append, List.length_cons]
        have := write_len_length_pos n.length
        omega

/-- `write_data_type`: strip names, serialize the type tree (postcard,
modelled above), frame with a varint length prefix. -/
def write_data_type (dt : DataType) : Bytes :=
  write_len (dtEncode (namelessDT dt)).length ++ dtEncode (namelessDT dt)

/-- `read_data_type`: read the length prefix, read that many bytes,
deserialize the type tree from the extracted buffer. -/
def read_data_type (input : Bytes) : Except SerdeErr (DataType × Bytes) := do
  let (bufLen, r) ← read_len input
  let (buf, r) ← read_bytes_slice bufLen r
  match dtDecode (buf.length + 1) buf with
  | .ok (dt, _) => .ok (dt, r)
  | .error e => .error e

theorem namelessDT_idem_all (k : Nat) :
    (∀ dt, dtSize dt ≤ k → namelessDT (namelessDT dt) = namelessDT dt) ∧
    (∀ fields, flSize fields ≤ k →
      namelessFields (namelessFields fields) = namelessFields fields) := by
  induction k using Nat.strong_induction_on with
  | _ k ih =>
    constructor
    · intro dt hk
      cases dt with
      | listT n fdt fn =>
        have hs : dtSize (.listT n fdt fn) = 2 + dtSize fdt := by simp [dtSize]
        rw [hs] at hk
        have hfdt := ((ih (k - 1) (by omega)).1 fdt (by omega))
        simp [namelessDT, hfdt]
      | mapT n fdt fn s =>
        have hs : dtSize (.mapT n fdt fn s) = 2 + dtSize fdt := by simp [dtSize]
        rw [hs] at hk
        have hfdt := ((ih (k - 1) (by omega)).1 fdt (by omega))
        simp [namelessDT, hfdt]
      | structT fields =>
        have hs : dtSize (.structT fields) = 2 + flSize fields := by simp [dtSize]
        rw [hs] at hk
        have hfl := ((ih (k - 1) (by omega)).2 fields (by omega))
        simp [namelessDT, hfl]
      | _ => simp [namelessDT]
    · intro fields hk
      induction fields with
      | nil => simp [namelessFields]
      | cons f fs ihfs =>
        obtain ⟨n, fdt, fn⟩ := f
        have hs : flSize ((n, fdt, fn) :: fs) = 2 + dtSize fdt + flSize fs := by simp [flSize]
        rw [hs] at hk
        have hfdt := ((ih (k - 1) (by omega)).1 fdt (by omega))
        have hfs := ihfs (by omega)
        simp [namelessFields, hfdt, hfs]

theorem namelessDT_idem (dt : DataType) : namelessDT (namelessDT dt) = namelessDT dt :=
  (namelessDT_idem_all (dtSize dt)).1 dt le_rfl

theorem read_write_data_type (dt : DataType) (rest : Bytes) :
    read_data_type (write_data_type dt ++ rest) = .ok (namelessDT dt, rest) := by
  simp only [write_data_type, read_data_type, List.append_assoc]
  rw [read_len_round]
  simp only [except_bind_ok]
  rw [read_bytes_slice_round]
  simp only [except_bind_ok]
  have henc : dtDecode ((dtEncode (namelessDT dt)).length + 1)
      (dtEncode (namelessDT dt) ++ []) = .ok (namelessDT dt, []) := by
    refine (dt_codec_round _).2.2 _ _ ?_
    have := (dtSize_le_encode (dtSize (namelessDT dt))).1 (namelessDT dt) le_rfl
    omega
  rw [List.append_nil] at henc
  rw [henc]

/-! ## Physical arrays

Embedding of the arrow arrays as the Rust code accesses them: logical
length, base offset, an optional validity bitmap (`NullBuffer`: buffer
bytes, bit offset, bit length), and per-kind storage.  `sliceA` is
`Array::slice`: it adjusts offsets and lengths without copying buffers
(struct arrays slice their children, as `StructArray::slice` does). -/

structure Bitmap where
  buffer : Bytes
  offset : Nat
  len : Nat
deriving DecidableEq, Repr

/-- The fixed-width primitive kinds the codec's `write_primitive!` /
`read_primitive!` macros instantiate. -/
inductive PrimKind where
  | int8 | int16 | int32 | int64
  | uint8 | uint16 | uint32 | uint64
  | float32 | float64
  | decimal128
  | date32 | date64
  | tsSecond | tsMillisecond | tsMicrosecond | tsNanosecond
deriving DecidableEq, Repr

/-- `ArrowPrimitiveType::get_byte_width()`. -/
def PrimKind.width : PrimKind → Nat
  | .int8 => 1 | .int16 => 2 | .int32 => 4 | .int64 => 8
  | .uint8 => 1 | .uint16 => 2 | .uint32 => 4 | .uint64 => 8
  | .float32 => 4 | .float64 => 8
  | .decimal128 => 16
  | .date32 => 4 | .date64 => 8
  | .tsSecond => 8 | .tsMillisecond => 8 | .tsMicrosecond => 8 | .tsNanosecond => 8

/-- Which primitive branch `write_array`/`read_array` dispatch a data type
to (`None` for non-primitive kinds). -/
def dtPrimKind : DataType → Option PrimKind
  | .int8T => some .int8
  | .int16T => some .int16
  | .int32T => some .int32
  | .int64T => some .int64
  | .uint8T => some .uint8
  | .uint16T => some .uint16
  | .uint32T => some .uint32
  | .uint64T => some .uint64
  | .float32T => some .float32
  | .float64T => some .float64
  | .decimal128T _ _ => some .decimal128
  | .date32T => some .date32
  | .date64T => some .date64
  | .timestampT .second _ => some .tsSecond
  | .timestampT .millisecond _ => some .tsMillisecond
  | .timestampT .microsecond _ => some .tsMicrosecond
  | .timestampT .nanosecond _ => some .tsNanosecond
  | _ => none

/-- `PT::DATA_TYPE` of each primitive kind (what `read_primitive_array`
stamps on the rebuilt array; note `Decimal128Type::DATA_TYPE` is the
default `Decimal128(38, 10)` and timestamps carry no time zone). -/
def kindDT : PrimKind → DataType
  | .int8 => .int8T | .int16 => .int16T | .int32 => .int32T | .int64 => .int64T
  | .uint8 => .uint8T | .uint16 => .uint16T | .uint32 => .uint32T | .uint64 => .uint64T
  | .float32 => .float32T | .float64 => .float64T
  | .decimal128 => .decimal128T 38 10
  | .date32 => .date32T | .date64 => .date64T
  | .tsSecond => .timestampT .second none
  | .tsMillisecond => .timestampT .millisecond none
  | .tsMicrosecond => .timestampT .microsecond none
  | .tsNanosecond => .timestampT .nanosecond none

inductive PhysArray where
  | nullA (len : Nat)
  | prim (dt : DataType) (k : PrimKind) (len offset : Nat) (nulls : Option Bitmap)
      (values : Bytes)
  | boolA (len offset : Nat) (nulls : Option Bitmap) (values : Bytes)
  | bytesA (dt : DataType) (len offset : Nat) (nulls : Option Bitmap) (offsets : List Nat)
      (data : Bytes)
  | listA (fname : Bytes) (fdt : DataType) (fnullable : Bool) (len offset : Nat)
      (nulls : Option Bitmap) (offsets : List Nat) (values : PhysArray)
  | mapA (fname : Bytes) (fdt : DataType) (fnullable : Bool) (sorted : Bool) (len offset : Nat)
      (nulls : Option Bitmap) (offsets : List Nat) (keys : PhysArray) (vals : PhysArray)
  | structA (fields : List FieldT) (len : Nat) (nulls : Option Bitmap)
      (children : List PhysArray)
  | unsupp (dt : DataType) (len : Nat)

def dtypeA : PhysArray → DataType
  | .nullA _ => .nullT
  | .prim dt _ _ _ _ _ => dt
  | .boolA _ _ _ _ => .booleanT
  | .bytesA dt _ _ _ _ _ => dt
  | .listA n fdt fn _ _ _ _ _ => .listT n fdt fn
  | .mapA n fdt fn s _ _ _ _ _ _ => .mapT n fdt fn s
  | .structA fields _ _ _ => .structT fields
  | .unsupp dt _ => dt

def lenA : PhysArray → Nat
  | .nullA l => l
  | .prim _ _ l _ _ _ => l
  | .boolA l _ _ _ => l
  | .bytesA _ l _ _ _ _ => l
  | .listA _ _ _ l _ _ _ _ => l
  | .mapA _ _ _ _ l _ _ _ _ _ => l
  | .structA _ l _ _ => l
  | .unsupp _ l => l

def Bitmap.sliceB (bm : Bitmap) (o l : Nat) : Bitmap := ⟨bm.buffer, bm.offset + o, l⟩

def sliceNulls (nulls : Option Bitmap) (o l : Nat) : Option Bitmap :=
  nulls.map (·.sliceB o l)

mutual

def sliceA : PhysArray → Nat → Nat → PhysArray
  | .nullA _, _, l => .nullA l
  | .prim dt k _ off nulls values, o, l =>
      .prim dt k l (off + o) (sliceNulls nulls o l) values
  | .boolA _ off nulls values, o, l => .boolA l (off + o) (sliceNulls nulls o l) values
  | .bytesA dt _ off nulls offsets data, o, l =>
      .bytesA dt l (off + o) (sliceNulls nulls o l) offsets data
  | .listA n fdt fn _ off nulls offsets values, o, l =>
      .listA n fdt fn l (off + o) (sliceNulls nulls o l) offsets values
  | .mapA n fdt fn s _ off nulls offsets keys vals, o, l =>
      .mapA n fdt fn s l (off + o) (sliceNulls nulls o l) offsets keys vals
  | .structA fields _ nulls children, o, l =>
      .structA fields l (sliceNulls nulls o l) (sliceChildren children o l)
  | .unsupp dt _, _, l => .unsupp dt l

def sliceChildren : List PhysArray → Nat → Nat → List PhysArray
  | [], _, _ => []
  | c :: cs, o, l => sliceA c o l :: sliceChildren cs o l

end

mutual

def asize : PhysArray → Nat
  | .listA _ _ _ _ _ _ _ values => 1 + asize values
  | .mapA _ _ _ _ _ _ _ _ keys vals => 1 + asize keys + asize vals
  | .structA _ _ _ children => 1 + asizeList children
  | _ => 1

def asizeList : List PhysArray → Nat
  | [] => 0
  | c :: cs => 1 + asize c + asizeList cs

end

mutual

theorem asize_slice : ∀ (a : PhysArray) (o l : Nat), asize (sliceA a o l) = asize a
  | .nullA _, _, _ => by simp [sliceA, asize]
  | .prim _ _ _ _ _ _, _, _ => by simp [sliceA, asize]
  | .boolA _ _ _ _, _, _ => by simp [sliceA, asize]
  | .bytesA _ _ _ _ _ _, _, _ => by simp [sliceA, asize]
  | .listA _ _ _ _ _ _ _ _, _, _ => by simp [sliceA, asize]
  | .mapA _ _ _ _ _ _ _ _ _ _, _, _ => by simp [sliceA, asize]
  | .structA fields len nulls children, o, l => by
      simp [sliceA, asize, asizeList_slice children o l]
  | .unsupp _ _, _, _ => by simp [sliceA, asize]

theorem asizeList_slice : ∀ (cs : List PhysArray) (o l : Nat),
    asizeList (sliceChildren cs o l) = asizeList cs
  | [], _, _ => by simp [sliceChildren]
  | c :: cs, o, l => by
      simp [sliceChildren, asizeList, asize_slice c o l, asizeList_slice cs o l]

end

theorem lenA_slice (a : PhysArray) (o l : Nat) : lenA (sliceA a o l) = l := by
  cases a <;> simp [sliceA, lenA]

theorem dtypeA_slice (a : PhysArray) (o l : Nat) : dtypeA (sliceA a o l) = dtypeA a := by
  cases a <;> simp [sliceA, dtypeA]

/-! ## Well-formedness

The invariants arrow guarantees for the arrays the codec receives: buffers
long enough for the logical window, monotone offsets, null buffers of the
array's length, child types matching the declared fields.  The writer is
only claimed correct on well-formed arrays. -/

/-- Modelled from the spec: validity of a Decimal precision/scale as checked
by the external `with_precision_and_scale` ("a Decimal whose reconstructed
precision/scale is invalid" yields `DeserializeError`). -/
def decimalOKb (p : Nat) (s : Int) : Bool := 0 < p && p ≤ 38 && s ≤ (p : Int)

def decimalWF : DataType → Prop
  | .decimal128T p s => decimalOKb p s = true
  | _ => True

def bitmapWF (len : Nat) : Option Bitmap → Prop
  | none => True
  | some bm => bm.len = len ∧ (bm.offset + bm.len + 7) / 8 ≤ bm.buffer.length

/-- Offsets buffers are monotonically nondecreasing. -/
def offsetsChainB : List Nat → Bool
  | [] => true
  | [_] => true
  | a :: b :: t => decide (a ≤ b) && offsetsChainB (b :: t)

def offsetsChain (offsets : List Nat) : Prop := offsetsChainB offsets = true

/-- Key/value data types of a map's entry struct, when it has exactly the
two entry columns. -/
def kvDTs : DataType → Option (DataType × DataType)
  | .structT ((_, kdt, _) :: (_, vdt, _) :: []) => some (kdt, vdt)
  | _ => none

mutual

def wfA : PhysArray → Prop
  | .nullA _ => True
  | .prim dt k len off nulls values =>
      dtPrimKind dt = some k ∧ decimalWF dt ∧ bitmapWF len nulls ∧
      k.width * (off + len) ≤ values.length
  | .boolA len off nulls values =>
      bitmapWF len nulls ∧ (off + len + 7) / 8 ≤ values.length
  | .bytesA dt len off nulls offsets data =>
      (dt = .utf8T ∨ dt = .binaryT) ∧ bitmapWF len nulls ∧
      offsetsChain offsets ∧ off + len + 1 ≤ offsets.length ∧
      offsets.getD (off + len) 0 ≤ data.length
  | .listA _ fdt _ len off nulls offsets values =>
      bitmapWF len nulls ∧ offsetsChain offsets ∧ off + len + 1 ≤ offsets.length ∧
      offsets.getD (off + len) 0 ≤ lenA values ∧ dtypeA values = fdt ∧ wfA values
  | .mapA _ fdt _ _ len off nulls offsets keys vals =>
      kvDTs fdt = some (dtypeA keys, dtypeA vals) ∧
      bitmapWF len nulls ∧ offsetsChain offsets ∧ off + len + 1 ≤ offsets.length ∧
      offsets.getD (off + len) 0 ≤ lenA keys ∧ lenA keys = lenA vals ∧
      wfA keys ∧ wfA vals
  | .structA fields len nulls children =>
      bitmapWF len nulls ∧ wfChildren fields len children
  | .unsupp _ _ => False

def wfChildren : List FieldT → Nat → List PhysArray → Prop
  | [], _, [] => True
  | (_, fdt, _) :: fs, len, c :: cs =>
      lenA c = len ∧ dtypeA c = fdt ∧ wfA c ∧ wfChildren fs len cs
  | _, _, _ => False

end

/-! ## Array writer (`write_array` and its helpers) -/

/-- The shared validity prologue every branch of the array writer emits:
a length value 0/1 and, when a null buffer is present, the repacked bitmap
(`null_buffer.buffer()`, `null_buffer.offset()`, `null_buffer.len()`). -/
def writeNulls : Option Bitmap → Bytes
  | some bm => write_len 1 ++ write_bits_buffer bm.buffer bm.offset bm.len
  | none => write_len 0

/-- `value_offsets()`: the logical window of an offsets buffer. -/
def window (offsets : List Nat) (off len : Nat) : List Nat :=
  (offsets.drop off).take (len + 1)

/-- Per-row lengths: consecutive differences of the offsets window
(`end - beg` over `value_offsets().iter().zip(&value_offsets[1..])`). -/
def rowLens (w : List Nat) : List Nat := List.zipWith (fun a b => b - a) w w.tail

def lensOf (offsets : List Nat) (off len : Nat) : List Nat :=
  rowLens (window offsets off len)

def wFirst (offsets : List Nat) (off : Nat) : Nat := (offsets.drop off).headD 0

def wLast (offsets : List Nat) (off len : Nat) : Nat := offsets.getD (off + len) 0

/-- `write_primitive_array`: validity prologue, then the raw byte window
`buffers[0][item_size * offset ..][.. item_size * len]`. -/
def write_primitive_array (k : PrimKind) (len off : Nat) (nulls : Option Bitmap)
    (values : Bytes) : Bytes :=
  writeNulls nulls ++ (values.drop (k.width * off)).take (k.width * len)

mutual

def writeArray : PhysArray → Except SerdeErr Bytes
  | .nullA _ => .ok []
  | .prim _ k len off nulls values => .ok (write_primitive_array k len off nulls values)
  | .boolA len off nulls values =>
      .ok (writeNulls nulls ++ write_bits_buffer values off len)
  | .bytesA _ len off nulls offsets data =>
      .ok (writeNulls nulls ++ ((lensOf offsets off len).map write_len).flatten
        ++ (data.drop (wFirst offsets off)).take (wLast offsets off len - wFirst offsets off))
  | .listA _ _ _ len off nulls offsets values => do
      let first := wFirst offsets off
      let childBytes ← writeArray (sliceA values first (wLast offsets off len - first))
      .ok (writeNulls nulls ++ ((lensOf offsets off len).map write_len).flatten ++ childBytes)
  | .mapA _ _ _ _ len off nulls offsets keys vals => do
      let first := wFirst offsets off
      let elen := wLast offsets off len - first
      let keyBytes ← writeArray (sliceA keys first elen)
      let valBytes ← writeArray (sliceA vals first elen)
      .ok (writeNulls nulls ++ ((lensOf offsets off len).map write_len).flatten
        ++ keyBytes ++ valBytes)
  | .structA _ _ nulls children => do
      let childBytes ← writeChildren children
      .ok (writeNulls nulls ++ childBytes)
  | .unsupp _ _ => .error .unsupportedType
termination_by a => asize a
decreasing_by
  all_goals simp [asize, asizeList, asize_slice] <;> omega

def writeChildren : List PhysArray → Except SerdeErr Bytes
  | [] => .ok []
  | c :: cs => do
      let b ← writeArray c
      let bs ← writeChildren cs
      .ok (b ++ bs)
termination_by cs => asizeList cs
decreasing_by
  all_goals simp [asize, asizeList, asize_slice] <;> omega

end

/-! ## Array reader (`read_array` and its helpers) -/

/-- The shared validity prologue of every reader branch. -/
def readNulls (numRows : Nat) (input : Bytes) : Except SerdeErr (Option Bitmap × Bytes) := do
  let (flag, r) ← read_len input
  if flag = 1 then do
    let (buf, r) ← read_bits_buffer r numRows
    .ok (some ⟨buf, 0, numRows⟩, r)
  else .ok (none, r)

def read_primitive_array (k : PrimKind) (numRows : Nat) (input : Bytes) :
    Except SerdeErr (PhysArray × Bytes) := do
  let (nulls, r) ← readNulls numRows input
  let (values, r) ← read_bytes_slice (numRows * k.width) r
  .ok (.prim (kindDT k) k numRows 0 nulls values, r)

/-- The offset-reconstruction loop shared by the bytes/list/map readers:
read one length per row, pushing the running sums; returns the offsets
after the leading 0, the total length, and the remaining stream. -/
def readOffsetsLoop (cur : Nat) : Nat → Bytes → Except SerdeErr (List Nat × Nat × Bytes)
  | 0, input => .ok ([], cur, input)
  | n + 1, input => do
    let (len, r) ← read_len input
    let (offs, fin, r') ← readOffsetsLoop (cur + len) n r
    .ok ((cur + len) :: offs, fin, r')

def read_bytes_array (numRows : Nat) (input : Bytes) (dt : DataType) :
    Except SerdeErr (PhysArray × Bytes) := do
  let (nulls, r) ← readNulls numRows input
  let (offs, dataLen, r) ← readOffsetsLoop 0 numRows r
  let (data, r) ← read_bytes_slice dataLen r
  .ok (.bytesA dt numRows 0 nulls (0 :: offs) data, r)

/-- `with_precision_and_scale` on the primitive array rebuilt by the
Decimal branch. -/
def setPrimDT : PhysArray → DataType → PhysArray
  | .prim _ k len off nulls values, dt => .prim dt k len off nulls values
  | a, _ => a

def tsKind : TimeUnit → PrimKind
  | .second => .tsSecond
  | .millisecond => .tsMillisecond
  | .microsecond => .tsMicrosecond
  | .nanosecond => .tsNanosecond

/-- The child data-type validation loop of `ArrayData::try_new` /
`RecordBatch::try_new_with_options`: each rebuilt child's data type must
equal the declared one.  (Their buffer-length and row-count checks are
satisfied by construction here — every reader branch builds buffers of
exactly the declared sizes — and are not modelled.) -/
def colTypesEq : List DataType → List PhysArray → Bool
  | [], [] => true
  | dt :: dts, c :: cs => dtEq (dtypeA c) dt && colTypesEq dts cs
  | _, _ => false

mutual

/-- `read_array`: dispatch on the declared data type.  The list/map/struct
branches end in `ArrayData::try_new(..)?`, whose child data-type
validation (`colTypesEq`/`dtEq`) rejects a rebuilt child whose type
differs from the declared field's — the propagated arrow error; the map
branch's `match map_field.data_type()` is `unreachable!()` on a non-Struct
entries field, and `MapArray::from` panics when the entries struct does
not have exactly the two key/value columns. -/
def readArray (input : Bytes) (dt : DataType) (numRows : Nat) :
    Except SerdeErr (PhysArray × Bytes) :=
  match dt with
  | .nullT => .ok (.nullA numRows, input)
  | .booleanT => do
      let (nulls, r) ← readNulls numRows input
      let (values, r) ← read_bits_buffer r numRows
      .ok (.boolA numRows 0 nulls values, r)
  | .int8T => read_primitive_array .int8 numRows input
  | .int16T => read_primitive_array .int16 numRows input
  | .int32T => read_primitive_array .int32 numRows input
  | .int64T => read_primitive_array .int64 numRows input
  | .uint8T => read_primitive_array .uint8 numRows input
  | .uint16T => read_primitive_array .uint16 numRows input
  | .uint32T => read_primitive_array .uint32 numRows input
  | .uint64T => read_primitive_array .uint64 numRows input
  | .float32T => read_primitive_array .float32 numRows input
  | .float64T => read_primitive_array .float64 numRows input
  | .decimal128T p s => do
      let (a, r) ← read_primitive_array .decimal128 numRows input
      if decimalOKb p s then .ok (setPrimDT a (.decimal128T p s), r)
      else .error .deserializeError
  | .date32T => read_primitive_array .date32 numRows input
  | .date64T => read_primitive_array .date64 numRows input
  | .timestampT u _ => read_primitive_array (tsKind u) numRows input
  | .utf8T => read_bytes_array numRows input .utf8T
  | .binaryT => read_bytes_array numRows input .binaryT
  | .listT fname fdt fnull => do
      let (nulls, r) ← readNulls numRows input
      let (offs, valuesLen, r) ← readOffsetsLoop 0 numRows r
      let (values, r) ← readArray r fdt valuesLen
      if dtEq (dtypeA values) fdt then
        .ok (.listA fname fdt fnull numRows 0 nulls (0 :: offs) values, r)
      else .error .arrowError
  | .mapT fname fdt fnull sorted => do
      let (nulls, r) ← readNulls numRows input
      let (offs, valuesLen, r) ← readOffsetsLoop 0 numRows r
      match fdt with
      | .structT kvFields => do
          let (kvs, r) ← readArrayList kvFields valuesLen r
          if colTypesEq (kvFields.map fun f => f.2.1) kvs then
            match kvs with
            | [k, v] =>
                .ok (.mapA fname fdt fnull sorted numRows 0 nulls (0 :: offs) k v, r)
            | _ => .error .panicked
          else .error .arrowError
      | _ => .error .panicked
  | .structT fields => do
      let (nulls, r) ← readNulls numRows input
      let (children, r) ← readArrayList fields numRows r
      if colTypesEq (fields.map fun f => f.2.1) children then
        .ok (.structA fields numRows nulls children, r)
      else .error .arrowError
  | .fixedSizeBinaryT _ => .error .unsupportedType
  | .intervalT _ => .error .unsupportedType
termination_by dtSize dt
decreasing_by
  all_goals simp [dtSize, flSize] <;> omega

def readArrayList : List FieldT → Nat → Bytes → Except SerdeErr (List PhysArray × Bytes)
  | [], _, input => .ok ([], input)
  | (_, fdt, _) :: fs, numRows, input => do
      let (c, r) ← readArray input fdt numRows
      let (cs, r') ← readArrayList fs numRows r
      .ok (c :: cs, r')
termination_by fs _ _ => flSize fs
decreasing_by
  all_goals simp [dtSize, flSize] <;> omega

end

/-! ## The canonical decoded shape

`decodeShape a` is the physical array `read_array` rebuilds from the bytes
`write_array a` produced (offset 0, repacked bitmaps, running-sum offsets,
name-stripped fields, timestamp time zones dropped by `PT::DATA_TYPE`). -/

def packNulls : Option Bitmap → Option Bitmap
  | none => none
  | some bm => some ⟨write_bits_buffer bm.buffer bm.offset bm.len, 0, bm.len⟩

/-- Running sums reconstructed by the reader's offsets loop. -/
def offsetsFrom (cur : Nat) : List Nat → List Nat
  | [] => []
  | l :: ls => (cur + l) :: offsetsFrom (cur + l) ls

/-- The data type `read_primitive_array` stamps on a rebuilt primitive
array after the Decimal fix-up: the declared type, except that timestamp
time zones are lost to `PT::DATA_TYPE`. -/
def primReadDT : DataType → DataType
  | .timestampT u _ => .timestampT u none
  | d => d

mutual

def decodeShape : PhysArray → PhysArray
  | .nullA len => .nullA len
  | .prim dt k len off nulls values =>
      .prim (primReadDT dt) k len 0 (packNulls nulls)
        ((values.drop (k.width * off)).take (k.width * len))
  | .boolA len off nulls values =>
      .boolA len 0 (packNulls nulls) (write_bits_buffer values off len)
  | .bytesA dt len off nulls offsets data =>
      .bytesA dt len 0 (packNulls nulls) (0 :: offsetsFrom 0 (lensOf offsets off len))
        ((data.drop (wFirst offsets off)).take (wLast offsets off len - wFirst offsets off))
  | .listA _ fdt fn len off nulls offsets values =>
      .listA [] (namelessDT fdt) fn len 0 (packNulls nulls)
        (0 :: offsetsFrom 0 (lensOf offsets off len))
        (decodeShape (sliceA values (wFirst offsets off)
          (wLast offsets off len - wFirst offsets off)))
  | .mapA _ fdt fn s len off nulls offsets keys vals =>
      .mapA [] (namelessDT fdt) fn s len 0 (packNulls nulls)
        (0 :: offsetsFrom 0 (lensOf offsets off len))
        (decodeShape (sliceA keys (wFirst offsets off)
          (wLast offsets off len - wFirst offsets off)))
        (decodeShape (sliceA vals (wFirst offsets off)
          (wLast offsets off len - wFirst offsets off)))
  | .structA fields len nulls children =>
      .structA (namelessFields fields) len (packNulls nulls) (decodeChildren children)
  | .unsupp dt len => .unsupp dt len
termination_by a => asize a
decreasing_by
  all_goals simp [asize, asizeList, asize_slice] <;> omega

def decodeChildren : List PhysArray → List PhysArray
  | [] => []
  | c :: cs => decodeShape c :: decodeChildren cs
termination_by cs => asizeList cs
decreasing_by
  all_goals simp [asize, asizeList] <;> omega

end

/-! ## Data types of the rebuilt arrays -/

theorem primReadDT_nameless (dt : DataType) (h : noTz dt = true) :
    primReadDT (namelessDT dt) = namelessDT dt := by
  cases dt with
  | timestampT u tz =>
      cases tz with
      | none => rfl
      | some s => simp [noTz] at h
  | _ => rfl

theorem dtypeA_decodeShape (a : PhysArray) (hwf : wfA a) :
    dtypeA (decodeShape a) = primReadDT (namelessDT (dtypeA a)) := by
  cases a with
  | nullA len => rw [decodeShape]; rfl
  | prim dt k len off nulls values =>
      rw [decodeShape]
      simp only [wfA] at hwf
      obtain ⟨hk, -, -, -⟩ := hwf
      cases dt <;> simp_all [dtPrimKind, dtypeA, namelessDT, primReadDT]
  | boolA len off nulls values => rw [decodeShape]; rfl
  | bytesA dt len off nulls offsets data =>
      rw [decodeShape]
      simp only [wfA] at hwf
      rcases hwf.1 with rfl | rfl <;> rfl
  | listA nm fdt fn len off nulls offsets values =>
      rw [decodeShape]
      simp only [dtypeA, namelessDT, primReadDT]
  | mapA nm fdt fn s len off nulls offsets keys vals =>
      rw [decodeShape]
      simp only [dtypeA, namelessDT, primReadDT]
  | structA fields len nulls children =>
      rw [decodeShape]
      simp only [dtypeA, namelessDT, primReadDT]
  | unsupp dt len => exact hwf.elim

/-- The per-child data-type validation passes on the canonically decoded
children of a well-formed, timezone-free field list. -/
theorem colTypesEq_decode : ∀ (fields : List FieldT) (len : Nat) (cs : List PhysArray),
    wfChildren fields len cs → noTzFields fields = true →
    colTypesEq ((namelessFields fields).map fun f => f.2.1) (decodeChildren cs) = true
  | [], _, [], _, _ => by
      rw [show namelessFields [] = [] from by rw [namelessFields]]
      rw [decodeChildren]
      rfl
  | [], _, _ :: _, h, _ => by simp [wfChildren] at h
  | _ :: _, _, [], h, _ => by simp [wfChildren] at h
  | (fn, fdt, fb) :: fs, len, c :: cs, h, htz => by
      rw [wfChildren] at h
      obtain ⟨-, hdt, hwfc, hrest⟩ := h
      simp only [noTzFields, Bool.and_eq_true] at htz
      rw [namelessFields, decodeChildren, List.map_cons]
      simp only [colTypesEq, Bool.and_eq_true]
      refine ⟨?_, colTypesEq_decode fs len cs hrest htz.2⟩
      rw [dtypeA_decodeShape c hwfc, hdt, primReadDT_nameless fdt htz.1]
      exact dtEq_refl _

/-! ## The value view

Value-wise content of an array: per row, `vnull` for a null position, and
otherwise the typed payload, recursively for containers.  Two arrays are
"equal value-wise" in the sense of the spec when their value views agree. -/

inductive Val where
  | vnull
  | vprim (bytes : Bytes)
  | vbool (b : Bool)
  | vbytes (bs : Bytes)
  | vlist (elems : List Val)
  | vstruct (elems : List Val)
  | vmap (keys : List Val) (vals : List Val)

/-- Null test for row `i` (absent bitmap means all-valid; bit 1 = valid). -/
def isNullAt (nulls : Option Bitmap) (i : Nat) : Bool :=
  match nulls with
  | none => false
  | some bm => !(getBit bm.buffer (bm.offset + i))

mutual

def rowVal : PhysArray → Nat → Val
  | .nullA _, _ => .vnull
  | .prim _ k _ off nulls values, i =>
      if isNullAt nulls i then .vnull
      else .vprim ((values.drop (k.width * (off + i))).take k.width)
  | .boolA _ off nulls values, i =>
      if isNullAt nulls i then .vnull else .vbool (getBit values (off + i))
  | .bytesA _ _ off nulls offsets data, i =>
      if isNullAt nulls i then .vnull
      else .vbytes ((data.drop (offsets.getD (off + i) 0)).take
        (offsets.getD (off + i + 1) 0 - offsets.getD (off + i) 0))
  | .listA _ _ _ _ off nulls offsets values, i =>
      if isNullAt nulls i then .vnull
      else .vlist ((List.range (offsets.getD (off + i + 1) 0 - offsets.getD (off + i) 0)).map
        fun j => rowVal values (offsets.getD (off + i) 0 + j))
  | .mapA _ _ _ _ _ off nulls offsets keys vals, i =>
      if isNullAt nulls i then .vnull
      else .vmap
        ((List.range (offsets.getD (off + i + 1) 0 - offsets.getD (off + i) 0)).map
          fun j => rowVal keys (offsets.getD (off + i) 0 + j))
        ((List.range (offsets.getD (off + i + 1) 0 - offsets.getD (off + i) 0)).map
          fun j => rowVal vals (offsets.getD (off + i) 0 + j))
  | .structA _ _ nulls children, i =>
      if isNullAt nulls i then .vnull else .vstruct (rowValChildren children i)
  | .unsupp _ _, _ => .vnull
termination_by a _ => asize a
decreasing_by
  all_goals simp [asize, asizeList] <;> omega

def rowValChildren : List PhysArray → Nat → List Val
  | [], _ => []
  | c :: cs, i => rowVal c i :: rowValChildren cs i
termination_by cs _ => asizeList cs
decreasing_by
  all_goals simp [asize, asizeList] <;> omega

end

/-- The value-wise content of an array: its rows' values in order. -/
def valuesOf (a : PhysArray) : List Val :=
  (List.range (lenA a)).map (rowVal a)

/-! ## Offsets-window utilities -/

theorem headD_eq_getD (l : List Nat) : l.headD 0 = l.getD 0 0 := by cases l <;> rfl

theorem getD_drop (l : List Nat) (n i : Nat) : (l.drop n).getD i 0 = l.getD (n + i) 0 := by
  simp [List.getD_eq_getElem?_getD, List.getElem?_drop]

theorem wFirst_eq_getD (offsets : List Nat) (off : Nat) :
    wFirst offsets off = offsets.getD off 0 := by
  rw [wFirst, headD_eq_getD, getD_drop, Nat.add_zero]

theorem chainB_step : ∀ (l : List Nat), offsetsChainB l = true →
    ∀ i, i + 1 < l.length → l.getD i 0 ≤ l.getD (i + 1) 0
  | [], _, i, hi => absurd hi (by simp)
  | [_], _, i, hi => absurd hi (by simp)
  | a :: b :: t, h, 0, _ => by
      simp only [offsetsChainB, Bool.and_eq_true, decide_eq_true_eq] at h
      simpa [List.getD] using h.1
  | a :: b :: t, h, i + 1, hi => by
      simp only [offsetsChainB, Bool.and_eq_true, decide_eq_true_eq] at h
      have := chainB_step (b :: t) h.2 i (by simpa using hi)
      simpa [List.getD] using this

theorem chainB_mono (l : List Nat) (h : offsetsChainB l = true)
    (i j : Nat) (hij : i ≤ j) (hj : j < l.length) : l.getD i 0 ≤ l.getD j 0 := by
  obtain ⟨k, rfl⟩ := Nat.exists_eq_add_of_le hij
  clear hij
  induction k with
  | zero => simp
  | succ k ihk =>
      have h1 := ihk (by omega)
      have h2 := chainB_step l h (i + k) (by omega)
      have : i + (k + 1) = i + k + 1 := by omega
      rw [this]
      omega

theorem window_getD (offsets : List Nat) (off len i : Nat) (hi : i < len + 1) :
    (window offsets off len).getD i 0 = offsets.getD (off + i) 0 := by
  simp [window, List.getD_eq_getElem?_getD, List.getElem?_take, hi, List.getElem?_drop]

theorem window_length (offsets : List Nat) (off len : Nat)
    (h : off + len + 1 ≤ offsets.length) : (window offsets off len).length = len + 1 := by
  simp [window]
  omega

theorem window_zero (offsets : List Nat) (off : Nat) (h : off < offsets.length) :
    window offsets off 0 = [offsets.getD off 0] := by
  rw [window, List.drop_eq_getElem_cons h, List.take_succ_cons, List.take_zero,
    List.getD_eq_getElem?_getD, List.getElem?_eq_getElem h]
  rfl

theorem window_succ (offsets : List Nat) (off len : Nat) (h : off < offsets.length) :
    window offsets off (len + 1) = offsets.getD off 0 :: window offsets (off + 1) len := by
  simp only [window]
  rw [List.drop_eq_getElem_cons h, List.take_succ_cons,
    List.getD_eq_getElem?_getD, List.getElem?_eq_getElem h]
  rfl

theorem rowLens_short (w : List Nat) (h : w.length ≤ 1) : rowLens w = [] := by
  match w, h with
  | [], _ => rfl
  | [_], _ => rfl

theorem rowLens_cons (a b : Nat) (t : List Nat) :
    rowLens (a :: b :: t) = (b - a) :: rowLens (b :: t) := rfl

theorem lensOf_zero (offsets : List Nat) (off : Nat) : lensOf offsets off 0 = [] := by
  apply rowLens_short
  simp [window]

theorem lensOf_succ (offsets : List Nat) (off len : Nat)
    (h : off + 1 < offsets.length) :
    lensOf offsets off (len + 1)
      = (offsets.getD (off + 1) 0 - offsets.getD off 0) :: lensOf offsets (off + 1) len := by
  unfold lensOf
  rw [window_succ offsets off len (by omega)]
  cases len with
  | zero =>
      rw [window_zero offsets (off + 1) h]
      rfl
  | succ len =>
      rw [window_succ offsets (off + 1) len h]
      rfl

theorem lensOf_length (offsets : List Nat) (off len : Nat)
    (h : off + len + 1 ≤ offsets.length) : (lensOf offsets off len).length = len := by
  have hw := window_length offsets off len h
  simp only [lensOf, rowLens, List.length_zipWith, List.length_tail, hw]
  omega

theorem lensOf_sum (offsets : List Nat) (hc : offsetsChainB offsets = true) :
    ∀ (len off : Nat), off + len + 1 ≤ offsets.length →
    (lensOf offsets off len).sum = offsets.getD (off + len) 0 - offsets.getD off 0 := by
  intro len
  induction len with
  | zero => intro off h; simp [lensOf_zero]
  | succ len ih =>
      intro off h
      have heq : off + 1 + len = off + (len + 1) := by omega
      have ih' := ih (off + 1) (by omega)
      rw [heq] at ih'
      rw [lensOf_succ offsets off len (by omega), List.sum_cons, ih']
      have m1 := chainB_mono offsets hc off (off + 1) (by omega) (by omega)
      have m2 := chainB_mono offsets hc (off + 1) (off + (len + 1)) (by omega) (by omega)
      omega

theorem lensOf_take (offsets : List Nat) :
    ∀ (i len off : Nat), i ≤ len → off + len + 1 ≤ offsets.length →
    (lensOf offsets off len).take i = lensOf offsets off i := by
  intro i
  induction i with
  | zero => intro len off _ _; simp [lensOf_zero]
  | succ i ih =>
      intro len off hle h
      cases len with
      | zero => omega
      | succ len =>
          rw [lensOf_succ offsets off len (by omega), lensOf_succ offsets off i (by omega),
            List.take_succ_cons, ih len (off + 1) (by omega) (by omega)]

theorem offsetsFrom_length : ∀ (ls : List Nat) (cur : Nat),
    (offsetsFrom cur ls).length = ls.length
  | [], _ => rfl
  | l :: ls, cur => by simp [offsetsFrom, offsetsFrom_length ls (cur + l)]

theorem offsetsFrom_getD : ∀ (ls : List Nat) (cur i : Nat), i < ls.length →
    (offsetsFrom cur ls).getD i 0 = cur + (ls.take (i + 1)).sum
  | [], _, i, hi => absurd hi (by simp)
  | l :: ls, cur, 0, _ => by simp [offsetsFrom, List.getD]
  | l :: ls, cur, i + 1, hi => by
      simp only [offsetsFrom, List.getD_cons_succ]
      rw [offsetsFrom_getD ls (cur + l) i (by simpa using hi)]
      simp [List.take_succ_cons]
      omega

/-! ## Reader-helper specifications on written bytes -/

theorem length_drop_take (l : Bytes) (x y : Nat) (h : x + y ≤ l.length) :
    ((l.drop x).take y).length = y := by
  simp [List.length_take, List.length_drop]
  omega

theorem readOffsetsLoop_spec : ∀ (ls : List Nat) (cur : Nat) (rest : Bytes),
    readOffsetsLoop cur ls.length ((ls.map write_len).flatten ++ rest)
      = .ok (offsetsFrom cur ls, cur + ls.sum, rest)
  | [], cur, rest => by simp [readOffsetsLoop, offsetsFrom]
  | l :: ls, cur, rest => by
      simp only [List.map_cons, List.flatten_cons, List.length_cons, List.append_assoc]
      simp only [readOffsetsLoop, read_len_round, except_bind_ok]
      rw [readOffsetsLoop_spec ls (cur + l) rest]
      simp [offsetsFrom, Nat.add_assoc]

theorem readNulls_writeNulls (len : Nat) (nulls : Option Bitmap) (hwf : bitmapWF len nulls)
    (rest : Bytes) :
    readNulls len (writeNulls nulls ++ rest) = .ok (packNulls nulls, rest) := by
  cases nulls with
  | none =>
      simp only [writeNulls, readNulls]
      rw [read_len_round]
      simp [packNulls]
  | some bm =>
      obtain ⟨hlen, _⟩ := hwf
      simp only [writeNulls, readNulls, List.append_assoc]
      rw [read_len_round]
      simp only [except_bind_ok, if_pos rfl, read_bits_buffer]
      have hplen : (len + 7) / 8 = (write_bits_buffer bm.buffer bm.offset bm.len).length := by
        rw [write_bits_buffer_length, hlen]
      rw [hplen, read_bytes_slice_round]
      simp [packNulls, hlen]

theorem read_primitive_array_spec (k : PrimKind) (len off : Nat) (nulls : Option Bitmap)
    (values : Bytes) (hwf : bitmapWF len nulls) (hv : k.width * (off + len) ≤ values.length)
    (rest : Bytes) :
    read_primitive_array k len (write_primitive_array k len off nulls values ++ rest)
      = .ok (.prim (kindDT k) k len 0 (packNulls nulls)
          ((values.drop (k.width * off)).take (k.width * len)), rest) := by
  simp only [write_primitive_array, read_primitive_array, List.append_assoc]
  rw [readNulls_writeNulls len nulls hwf]
  simp only [except_bind_ok]
  have hlen : ((values.drop (k.width * off)).take (k.width * len)).length = k.width * len := by
    apply length_drop_take
    have : k.width * off + k.width * len = k.width * (off + len) := by ring
    omega
  have hr := read_bytes_slice_round ((values.drop (k.width * off)).take (k.width * len)) rest
  rw [hlen] at hr
  rw [show len * k.width = k.width * len from Nat.mul_comm _ _, hr]
  rfl

theorem wFirst_le_wLast (offsets : List Nat) (off len : Nat)
    (hc : offsetsChainB offsets = true) (hlen : off + len + 1 ≤ offsets.length) :
    wFirst offsets off ≤ wLast offsets off len := by
  rw [wFirst_eq_getD, wLast]
  exact chainB_mono offsets hc off (off + len) (by omega) (by omega)

theorem read_bytes_array_spec (dt : DataType) (len off : Nat) (nulls : Option Bitmap)
    (offsets : List Nat) (data : Bytes) (rest : Bytes)
    (hwf : bitmapWF len nulls) (hc : offsetsChainB offsets = true)
    (hlen : off + len + 1 ≤ offsets.length)
    (hdata : offsets.getD (off + len) 0 ≤ data.length) :
    read_bytes_array len (writeNulls nulls ++ (((lensOf offsets off len).map write_len).flatten
        ++ ((data.drop (wFirst offsets off)).take (wLast offsets off len - wFirst offsets off)
        ++ rest))) dt
      = .ok (.bytesA dt len 0 (packNulls nulls) (0 :: offsetsFrom 0 (lensOf offsets off len))
          ((data.drop (wFirst offsets off)).take (wLast offsets off len - wFirst offsets off)),
          rest) := by
  simp only [read_bytes_array, List.append_assoc]
  rw [readNulls_writeNulls len nulls hwf]
  simp only [except_bind_ok]
  have hll : (lensOf offsets off len).length = len := lensOf_length _ _ _ hlen
  have hloop := readOffsetsLoop_spec (lensOf offsets off len) 0
    ((data.drop (wFirst offsets off)).take (wLast offsets off len - wFirst offsets off) ++ rest)
  rw [hll] at hloop
  rw [hloop]
  simp only [except_bind_ok, Nat.zero_add]
  have hsum : (lensOf offsets off len).sum = wLast offsets off len - wFirst offsets off := by
    rw [lensOf_sum offsets hc len off hlen, wFirst_eq_getD, wLast]
  have hfl : wFirst offsets off ≤ wLast offsets off len := wFirst_le_wLast offsets off len hc hlen
  have hwl : ((data.drop (wFirst offsets off)).take
      (wLast offsets off len - wFirst offsets off)).length
      = wLast offsets off len - wFirst offsets off := by
    apply length_drop_take
    rw [wLast] at hfl ⊢
    omega
  have hr := read_bytes_slice_round
    ((data.drop (wFirst offsets off)).take (wLast offsets off len - wFirst offsets off)) rest
  rw [hwl] at hr
  rw [hsum, hr]
  rfl

/-! ## Well-formedness is stable under slicing -/

theorem bitmapWF_slice (len : Nat) (nulls : Option Bitmap) (h : bitmapWF len nulls)
    (o l : Nat) (hol : o + l ≤ len) : bitmapWF l (sliceNulls nulls o l) := by
  cases nulls with
  | none => simp [sliceNulls, bitmapWF]
  | some bm =>
      obtain ⟨h1, h2⟩ := h
      refine ⟨rfl, ?_⟩
      simp only [Bitmap.sliceB]
      omega

mutual

theorem wfA_slice : ∀ (a : PhysArray), wfA a → ∀ (o l : Nat), o + l ≤ lenA a →
    wfA (sliceA a o l)
  | .nullA _, _, o, l, _ => by
      rw [sliceA]
      simp [wfA]
  | .prim dt k len off nulls values, h, o, l, hol => by
      simp only [wfA] at h
      simp only [lenA] at hol
      rw [sliceA]
      simp only [wfA]
      obtain ⟨h1, h2, h3, h4⟩ := h
      refine ⟨h1, h2, bitmapWF_slice len nulls h3 o l hol, ?_⟩
      have hle : k.width * (off + o + l) ≤ k.width * (off + len) :=
        Nat.mul_le_mul_left _ (by omega)
      omega
  | .boolA len off nulls values, h, o, l, hol => by
      simp only [wfA] at h
      simp only [lenA] at hol
      rw [sliceA]
      simp only [wfA]
      obtain ⟨h1, h2⟩ := h
      exact ⟨bitmapWF_slice len nulls h1 o l hol, by omega⟩
  | .bytesA dt len off nulls offsets data, h, o, l, hol => by
      simp only [wfA] at h
      simp only [lenA] at hol
      rw [sliceA]
      simp only [wfA]
      obtain ⟨h1, h2, h3, h4, h5⟩ := h
      refine ⟨h1, bitmapWF_slice len nulls h2 o l hol, h3, by omega, ?_⟩
      have := chainB_mono offsets h3 (off + o + l) (off + len) (by omega) (by omega)
      omega
  | .listA n fdt fn len off nulls offsets values, h, o, l, hol => by
      simp only [wfA] at h
      simp only [lenA] at hol
      rw [sliceA]
      simp only [wfA]
      obtain ⟨h1, h2, h3, h4, h5, h6⟩ := h
      refine ⟨bitmapWF_slice len nulls h1 o l hol, h2, by omega, ?_, h5, h6⟩
      have := chainB_mono offsets h2 (off + o + l) (off + len) (by omega) (by omega)
      omega
  | .mapA n fdt fn s len off nulls offsets keys vals, h, o, l, hol => by
      simp only [wfA] at h
      simp only [lenA] at hol
      rw [sliceA]
      simp only [wfA]
      obtain ⟨h1, h2, h3, h4, h5, h6, h7, h8⟩ := h
      refine ⟨h1, bitmapWF_slice len nulls h2 o l hol, h3, by omega, ?_, h6, h7, h8⟩
      have := chainB_mono offsets h3 (off + o + l) (off + len) (by omega) (by omega)
      omega
  | .structA fields len nulls children, h, o, l, hol => by
      simp only [wfA] at h
      simp only [lenA] at hol
      rw [sliceA]
      simp only [wfA]
      obtain ⟨h1, h2⟩ := h
      exact ⟨bitmapWF_slice len nulls h1 o l hol,
        wfChildren_slice fields len children h2 o l hol⟩
  | .unsupp _ _, h, o, l, _ => absurd h (by simp [wfA])

theorem wfChildren_slice : ∀ (fields : List FieldT) (len : Nat) (children : List PhysArray),
    wfChildren fields len children → ∀ (o l : Nat), o + l ≤ len →
    wfChildren fields l (sliceChildren children o l)
  | [], _, [], _, o, l, _ => by simp [sliceChildren, wfChildren]
  | (n, fdt, fn) :: fs, len, c :: cs, h, o, l, hol => by
      simp only [wfChildren] at h
      obtain ⟨h1, h2, h3, h4⟩ := h
      simp only [sliceChildren, wfChildren]
      exact ⟨lenA_slice c o l, by rw [dtypeA_slice]; exact h2,
        wfA_slice c h3 o l (by omega),
        wfChildren_slice fs len cs h4 o l hol⟩
  | [], _, _ :: _, h, _, _, _ => absurd h (by simp [wfChildren])
  | _ :: _, _, [], h, _, _, _ => absurd h (by simp [wfChildren])

end

/-! ## Round trip, primitive dispatch -/

theorem prim_spec_dispatch : ∀ (dt : DataType) (k : PrimKind), dtPrimKind dt = some k →
    decimalWF dt → ∀ (len off : Nat) (nulls : Option Bitmap) (values : Bytes),
    bitmapWF len nulls → k.width * (off + len) ≤ values.length → ∀ rest : Bytes,
    readArray (write_primitive_array k len off nulls values ++ rest) (namelessDT dt) len
      = .ok (.prim (primReadDT dt) k len 0 (packNulls nulls)
          ((values.drop (k.width * off)).take (k.width * len)), rest)
  | .int8T, k, h1, _, len, off, nulls, values, h3, h4, rest => by
      obtain rfl : PrimKind.int8 = k := by simpa [dtPrimKind] using h1
      simp only [namelessDT, readArray]
      rw [read_primitive_array_spec _ len off nulls values h3 h4 rest]
      simp [kindDT, primReadDT]
  | .int16T, k, h1, _, len, off, nulls, values, h3, h4, rest => by
      obtain rfl : PrimKind.int16 = k := by simpa [dtPrimKind] using h1
      simp only [namelessDT, readArray]
      rw [read_primitive_array_spec _ len off nulls values h3 h4 rest]
      simp [kindDT, primReadDT]
  | .int32T, k, h1, _, len, off, nulls, values, h3, h4, rest => by
      obtain rfl : PrimKind.int32 = k := by simpa [dtPrimKind] using h1
      simp only [namelessDT, readArray]
      rw [read_primitive_array_spec _ len off nulls values h3 h4 rest]
      simp [kindDT, primReadDT]
  | .int64T, k, h1, _, len, off, nulls, values, h3, h4, rest => by
      obtain rfl : PrimKind.int64 = k := by simpa [dtPrimKind] using h1
      simp only [namelessDT, readArray]
      rw [read_primitive_array_spec _ len off nulls values h3 h4 rest]
      simp [kindDT, primReadDT]
  | .uint8T, k, h1, _, len, off, nulls, values, h3, h4, rest => by
      obtain rfl : PrimKind.uint8 = k := by simpa [dtPrimKind] using h1
      simp only [namelessDT, readArray]
      rw [read_primitive_array_spec _ len off nulls values h3 h4 rest]
      simp [kindDT, primReadDT]
  | .uint16T, k, h1, _, len, off, nulls, values, h3, h4, rest => by
      obtain rfl : PrimKind.uint16 = k := by simpa [dtPrimKind] using h1
      simp only [namelessDT, readArray]
      rw [read_primitive_array_spec _ len off nulls values h3 h4 rest]
      simp [kindDT, primReadDT]
  | .uint32T, k, h1, _, len, off, nulls, values, h3, h4, rest => by
      obtain rfl : PrimKind.uint32 = k := by simpa [dtPrimKind] using h1
      simp only [namelessDT, readArray]
      rw [read_primitive_array_spec _ len off nulls values h3 h4 rest]
      simp [kindDT, primReadDT]
  | .uint64T, k, h1, _, len, off, nulls, values, h3, h4, rest => by
      obtain rfl : PrimKind.uint64 = k := by simpa [dtPrimKind] using h1
      simp only [namelessDT, readArray]
      rw [read_primitive_array_spec _ len off nulls values h3 h4 rest]
      simp [kindDT, primReadDT]
  | .float32T, k, h1, _, len, off, nulls, values, h3, h4, rest => by
      obtain rfl : PrimKind.float32 = k := by simpa [dtPrimKind] using h1
      simp only [namelessDT, readArray]
      rw [read_primitive_array_spec _ len off nulls values h3 h4 rest]
      simp [kindDT, primReadDT]
  | .float64T, k, h1, _, len, off, nulls, values, h3, h4, rest => by
      obtain rfl : PrimKind.float64 = k := by simpa [dtPrimKind] using h1
      simp only [namelessDT, readArray]
      rw [read_primitive_array_spec _ len off nulls values h3 h4 rest]
      simp [kindDT, primReadDT]
  | .date32T, k, h1, _, len, off, nulls, values, h3, h4, rest => by
      obtain rfl : PrimKind.date32 = k := by simpa [dtPrimKind] using h1
      simp only [namelessDT, readArray]
      rw [read_primitive_array_spec _ len off nulls values h3 h4 rest]
      simp [kindDT, primReadDT]
  | .date64T, k, h1, _, len, off, nulls, values, h3, h4, rest => by
      obtain rfl : PrimKind.date64 = k := by simpa [dtPrimKind] using h1
      simp only [namelessDT, readArray]
      rw [read_primitive_array_spec _ len off nulls values h3 h4 rest]
      simp [kindDT, primReadDT]
  | .decimal128T p s, k, h1, h2, len, off, nulls, values, h3, h4, rest => by
      obtain rfl : PrimKind.decimal128 = k := by simpa [dtPrimKind] using h1
      simp only [decimalWF] at h2
      simp only [namelessDT, readArray]
      rw [read_primitive_array_spec _ len off nulls values h3 h4 rest]
      simp [h2, setPrimDT, primReadDT]
  | .timestampT u tz, k, h1, _, len, off, nulls, values, h3, h4, rest => by
      cases u with
      | second =>
          obtain rfl : PrimKind.tsSecond = k := by simpa [dtPrimKind] using h1
          simp only [namelessDT, readArray, tsKind]
          rw [read_primitive_array_spec _ len off nulls values h3 h4 rest]
          simp [kindDT, primReadDT]
      | millisecond =>
          obtain rfl : PrimKind.tsMillisecond = k := by simpa [dtPrimKind] using h1
          simp only [namelessDT, readArray, tsKind]
          rw [read_primitive_array_spec _ len off nulls values h3 h4 rest]
          simp [kindDT, primReadDT]
      | microsecond =>
          obtain rfl : PrimKind.tsMicrosecond = k := by simpa [dtPrimKind] using h1
          simp only [namelessDT, readArray, tsKind]
          rw [read_primitive_array_spec _ len off nulls values h3 h4 rest]
          simp [kindDT, primReadDT]
      | nanosecond =>
          obtain rfl : PrimKind.tsNanosecond = k := by simpa [dtPrimKind] using h1
          simp only [namelessDT, readArray, tsKind]
          rw [read_primitive_array_spec _ len off nulls values h3 h4 rest]
          simp [kindDT, primReadDT]
  | .nullT, k, h1, _, _, _, _, _, _, _, _ => by simp [dtPrimKind] at h1
  | .booleanT, k, h1, _, _, _, _, _, _, _, _ => by simp [dtPrimKind] at h1
  | .utf8T, k, h1, _, _, _, _, _, _, _, _ => by simp [dtPrimKind] at h1
  | .binaryT, k, h1, _, _, _, _, _, _, _, _ => by simp [dtPrimKind] at h1
  | .listT _ _ _, k, h1, _, _, _, _, _, _, _, _ => by simp [dtPrimKind] at h1
  | .mapT _ _ _ _, k, h1, _, _, _, _, _, _, _, _ => by simp [dtPrimKind] at h1
  | .structT _, k, h1, _, _, _, _, _, _, _, _ => by simp [dtPrimKind] at h1
  | .fixedSizeBinaryT _, k, h1, _, _, _, _, _, _, _, _ => by simp [dtPrimKind] at h1
  | .intervalT _, k, h1, _, _, _, _, _, _, _, _ => by simp [dtPrimKind] at h1

theorem kvDTs_some (fdt : DataType) (kd vd : DataType) (h : kvDTs fdt = some (kd, vd)) :
    ∃ kn kb vn vb, fdt = .structT [(kn, kd, kb), (vn, vd, vb)] := by
  unfold kvDTs at h
  split at h
  · rename_i kn kd' kb vn vd' vb
    simp only [Option.some.injEq, Prod.mk.injEq] at h
    exact ⟨kn, kb, vn, vb, by rw [h.1, h.2]⟩
  · simp at h

/-! ## The array round trip

For every well-formed array, writing succeeds, and reading the produced
bytes back at the name-stripped declared type and the array's length
rebuilds exactly the canonical decoded shape, leaving the rest of the
stream untouched. -/

theorem write_read_all (K : Nat) :
    (∀ a : PhysArray, asize a ≤ K → wfA a → nestNoTz (dtypeA a) = true → ∀ rest : Bytes,
      ∃ bs, writeArray a = .ok bs ∧
        readArray (bs ++ rest) (namelessDT (dtypeA a)) (lenA a)
          = .ok (decodeShape a, rest)) ∧
    (∀ (fields : List FieldT) (len : Nat) (cs : List PhysArray), asizeList cs ≤ K →
      wfChildren fields len cs → nestNoTzFields fields = true → ∀ rest : Bytes,
      ∃ bs, writeChildren cs = .ok bs ∧
        readArrayList (namelessFields fields) len (bs ++ rest)
          = .ok (decodeChildren cs, rest)) := by
  induction K using Nat.strong_induction_on with
  | _ K ih =>
    constructor
    · intro a hsz hwf htz rest
      cases a with
      | nullA len =>
          refine ⟨[], by rw [writeArray], ?_⟩
          simp only [dtypeA, lenA, List.nil_append]
          rw [show namelessDT .nullT = .nullT from by simp [namelessDT]]
          rw [readArray]
          rw [decodeShape]
      | prim dt k len off nulls values =>
          simp only [wfA] at hwf
          obtain ⟨h1, h2, h3, h4⟩ := hwf
          refine ⟨_, by rw [writeArray], ?_⟩
          simp only [dtypeA, lenA]
          rw [prim_spec_dispatch dt k h1 h2 len off nulls values h3 h4 rest, decodeShape]
      | boolA len off nulls values =>
          simp only [wfA] at hwf
          obtain ⟨h1, h2⟩ := hwf
          refine ⟨_, by rw [writeArray], ?_⟩
          simp only [dtypeA, lenA]
          rw [show namelessDT .booleanT = .booleanT from by simp [namelessDT]]
          rw [readArray, List.append_assoc, readNulls_writeNulls len nulls h1]
          simp only [except_bind_ok, read_bits_buffer]
          have hplen : (len + 7) / 8 = (write_bits_buffer values off len).length :=
            (write_bits_buffer_length values off len).symm
          rw [hplen, read_bytes_slice_round]
          simp only [except_bind_ok]
          rw [decodeShape]
      | bytesA dt len off nulls offsets data =>
          simp only [wfA] at hwf
          obtain ⟨h1, h2, h3, h4, h5⟩ := hwf
          refine ⟨_, by rw [writeArray], ?_⟩
          simp only [dtypeA, lenA]
          rcases h1 with rfl | rfl
          · rw [show namelessDT .utf8T = .utf8T from by simp [namelessDT]]
            rw [readArray, List.append_assoc, List.append_assoc]
            rw [read_bytes_array_spec .utf8T len off nulls offsets data rest h2 h3 h4 h5]
            rw [decodeShape]
          · rw [show namelessDT .binaryT = .binaryT from by simp [namelessDT]]
            rw [readArray, List.append_assoc, List.append_assoc]
            rw [read_bytes_array_spec .binaryT len off nulls offsets data rest h2 h3 h4 h5]
            rw [decodeShape]
      | listA n fdt fn len off nulls offsets values =>
          simp only [wfA] at hwf
          obtain ⟨h1, h2, h3, h4, h5, h6⟩ := hwf
          simp only [asize] at hsz
          have hffl : wFirst offsets off ≤ wLast offsets off len :=
            wFirst_le_wLast offsets off len h2 h3
          have h4' : wLast offsets off len ≤ lenA values := h4
          have hszv : asize (sliceA values (wFirst offsets off)
              (wLast offsets off len - wFirst offsets off)) ≤ K - 1 := by
            rw [asize_slice]; omega
          have hwfs : wfA (sliceA values (wFirst offsets off)
              (wLast offsets off len - wFirst offsets off)) :=
            wfA_slice values h6 _ _ (by omega)
          simp only [dtypeA, nestNoTz] at htz
          obtain ⟨cbs, hw, hr⟩ := (ih (K - 1) (by omega)).1 _ hszv hwfs
            (by rw [dtypeA_slice, h5]; exact noTz_nestNoTz fdt htz) rest
          refine ⟨writeNulls nulls ++ ((lensOf offsets off len).map write_len).flatten ++ cbs,
            ?_, ?_⟩
          · simp only [writeArray]
            rw [hw]
            rfl
          · simp only [dtypeA, lenA]
            rw [show namelessDT (.listT n fdt fn) = .listT [] (namelessDT fdt) fn from by
              simp [namelessDT]]
            rw [readArray, List.append_assoc, List.append_assoc,
              readNulls_writeNulls len nulls h1]
            simp only [except_bind_ok]
            have hll := lensOf_length offsets off len h3
            have hloop := readOffsetsLoop_spec (lensOf offsets off len) 0 (cbs ++ rest)
            rw [hll] at hloop
            rw [hloop]
            simp only [except_bind_ok, Nat.zero_add]
            have hsum : (lensOf offsets off len).sum
                = wLast offsets off len - wFirst offsets off := by
              rw [lensOf_sum offsets h2 len off h3, wFirst_eq_getD]; rfl
            rw [hsum]
            rw [dtypeA_slice, h5, lenA_slice] at hr
            rw [hr]
            simp only [except_bind_ok]
            have hcheck : dtEq (dtypeA (decodeShape (sliceA values (wFirst offsets off)
                (wLast offsets off len - wFirst offsets off)))) (namelessDT fdt) = true := by
              rw [dtypeA_decodeShape _ hwfs, dtypeA_slice, h5, primReadDT_nameless fdt htz]
              exact dtEq_refl _
            rw [if_pos hcheck]
            rw [decodeShape]
      | mapA n fdt fn s len off nulls offsets keys vals =>
          simp only [wfA] at hwf
          obtain ⟨h1, h2, h3, h4, h5, h6, h7, h8⟩ := hwf
          simp only [asize] at hsz
          obtain ⟨kn, kb, vn, vb, rfl⟩ := kvDTs_some fdt _ _ h1
          set kd := dtypeA keys with hkd
          set vd := dtypeA vals with hvd
          have hffl : wFirst offsets off ≤ wLast offsets off len :=
            wFirst_le_wLast offsets off len h3 h4
          have h5' : wLast offsets off len ≤ lenA keys := h5
          have hszk : asize (sliceA keys (wFirst offsets off)
              (wLast offsets off len - wFirst offsets off)) ≤ K - 1 := by
            rw [asize_slice]; omega
          have hszv : asize (sliceA vals (wFirst offsets off)
              (wLast offsets off len - wFirst offsets off)) ≤ K - 1 := by
            rw [asize_slice]; omega
          have hwfk : wfA (sliceA keys (wFirst offsets off)
              (wLast offsets off len - wFirst offsets off)) :=
            wfA_slice keys h7 _ _ (by omega)
          have hwfv : wfA (sliceA vals (wFirst offsets off)
              (wLast offsets off len - wFirst offsets off)) :=
            wfA_slice vals h8 _ _ (by omega)
          simp only [dtypeA, nestNoTz, noTz, noTzFields, Bool.and_eq_true] at htz
          obtain ⟨hktz, hvtz, -⟩ := htz
          obtain ⟨vbs, hwv, hrv⟩ := (ih (K - 1) (by omega)).1 _ hszv hwfv
            (by rw [dtypeA_slice, ← hvd]; exact noTz_nestNoTz vd hvtz) rest
          obtain ⟨kbs, hwk, hrk⟩ := (ih (K - 1) (by omega)).1 _ hszk hwfk
            (by rw [dtypeA_slice, ← hkd]; exact noTz_nestNoTz kd hktz) (vbs ++ rest)
          refine ⟨writeNulls nulls ++ ((lensOf offsets off len).map write_len).flatten
            ++ kbs ++ vbs, ?_, ?_⟩
          · simp only [writeArray]
            rw [hwk, hwv]
            rfl
          · simp only [dtypeA, lenA]
            rw [show namelessDT (.mapT n (.structT [(kn, kd, kb),
                (vn, vd, vb)]) fn s)
              = .mapT [] (.structT [([], namelessDT kd, kb),
                ([], namelessDT vd, vb)]) fn s from by
              simp [namelessDT, namelessFields]]
            rw [readArray]
            rw [show (writeNulls nulls ++ ((lensOf offsets off len).map write_len).flatten
                ++ kbs ++ vbs) ++ rest
              = writeNulls nulls ++ (((lensOf offsets off len).map write_len).flatten
                ++ (kbs ++ (vbs ++ rest))) from by simp [List.append_assoc]]
            rw [readNulls_writeNulls len nulls h2]
            simp only [except_bind_ok]
            have hll := lensOf_length offsets off len h4
            have hloop := readOffsetsLoop_spec (lensOf offsets off len) 0 (kbs ++ (vbs ++ rest))
            rw [hll] at hloop
            rw [hloop]
            simp only [except_bind_ok, Nat.zero_add]
            have hsum : (lensOf offsets off len).sum
                = wLast offsets off len - wFirst offsets off := by
              rw [lensOf_sum offsets h3 len off h4, wFirst_eq_getD]; rfl
            rw [hsum]
            simp only [readArrayList]
            rw [dtypeA_slice, lenA_slice, ← hkd] at hrk
            rw [dtypeA_slice, lenA_slice, ← hvd] at hrv
            rw [hrk]
            simp only [except_bind_ok]
            rw [hrv]
            simp only [except_bind_ok]
            have hcheckk : dtEq (dtypeA (decodeShape (sliceA keys (wFirst offsets off)
                (wLast offsets off len - wFirst offsets off)))) (namelessDT kd) = true := by
              rw [dtypeA_decodeShape _ hwfk, dtypeA_slice, ← hkd, primReadDT_nameless kd hktz]
              exact dtEq_refl _
            have hcheckv : dtEq (dtypeA (decodeShape (sliceA vals (wFirst offsets off)
                (wLast offsets off len - wFirst offsets off)))) (namelessDT vd) = true := by
              rw [dtypeA_decodeShape _ hwfv, dtypeA_slice, ← hvd, primReadDT_nameless vd hvtz]
              exact dtEq_refl _
            rw [if_pos (by
              simp only [List.map_cons, List.map_nil, colTypesEq, hcheckk, hcheckv]
              rfl)]
            rw [decodeShape]
            simp [namelessDT, namelessFields]
      | structA fields len nulls children =>
          simp only [wfA] at hwf
          obtain ⟨h1, h2⟩ := hwf
          simp only [asize] at hsz
          simp only [dtypeA, nestNoTz] at htz
          obtain ⟨cbs, hw, hr⟩ := (ih (K - 1) (by omega)).2 fields len children (by omega) h2
            (noTzFields_nest fields htz) rest
          refine ⟨writeNulls nulls ++ cbs, ?_, ?_⟩
          · simp only [writeArray]
            rw [hw]
            rfl
          · simp only [dtypeA, lenA]
            rw [show namelessDT (.structT fields) = .structT (namelessFields fields) from by
              simp [namelessDT]]
            rw [readArray, List.append_assoc, readNulls_writeNulls len nulls h1]
            simp only [except_bind_ok]
            rw [hr]
            simp only [except_bind_ok]
            rw [if_pos (colTypesEq_decode fields len children h2 htz)]
            rw [decodeShape]
      | unsupp dt len => exact absurd hwf (by simp [wfA])
    · intro fields len cs hsz hwf htz rest
      cases fields with
      | nil =>
          cases cs with
          | nil =>
              refine ⟨[], by rw [writeChildren], ?_⟩
              rw [show namelessFields [] = [] from by simp [namelessFields]]
              rw [readArrayList, decodeChildren]
              simp
          | cons c cs => exact absurd hwf (by simp [wfChildren])
      | cons f fs =>
          cases cs with
          | nil => exact absurd hwf (by simp [wfChildren])
          | cons c cs =>
              obtain ⟨fnm, fdt, fb⟩ := f
              simp only [wfChildren] at hwf
              obtain ⟨hlen, hdt, hwfc, hrest⟩ := hwf
              simp only [asizeList] at hsz
              simp only [nestNoTzFields, Bool.and_eq_true] at htz
              obtain ⟨cbs, hwcs, hrcs⟩ :=
                (ih (K - 1) (by omega)).2 fs len cs (by omega) hrest htz.2 rest
              obtain ⟨b, hwc, hrc⟩ :=
                (ih (K - 1) (by omega)).1 c (by omega) hwfc
                  (by rw [hdt]; exact htz.1) (cbs ++ rest)
              refine ⟨b ++ cbs, ?_, ?_⟩
              · simp only [writeChildren]
                rw [hwc, hwcs]
                rfl
              · rw [show namelessFields ((fnm, fdt, fb) :: fs)
                  = ([], namelessDT fdt, fb) :: namelessFields fs from by simp [namelessFields]]
                rw [readArrayList, List.append_assoc]
                rw [hdt, hlen] at hrc
                rw [hrc]
                simp only [except_bind_ok]
                rw [hrcs]
                simp only [except_bind_ok]
                rw [decodeChildren]

/-- The round trip for a single well-formed array. -/
theorem write_read_array (a : PhysArray) (hwf : wfA a) (htz : nestNoTz (dtypeA a) = true)
    (rest : Bytes) :
    ∃ bs, writeArray a = .ok bs ∧
      readArray (bs ++ rest) (namelessDT (dtypeA a)) (lenA a) = .ok (decodeShape a, rest) :=
  (write_read_all (asize a)).1 a le_rfl hwf htz rest

/-- The writer alone never fails on a well-formed array (its only error is
the unsupported-type arm), with no condition on time zones. -/
theorem writeArray_ok_all (K : Nat) :
    (∀ a : PhysArray, asize a ≤ K → wfA a → ∃ bs, writeArray a = .ok bs) ∧
    (∀ (fields : List FieldT) (len : Nat) (cs : List PhysArray), asizeList cs ≤ K →
      wfChildren fields len cs → ∃ bs, writeChildren cs = .ok bs) := by
  induction K using Nat.strong_induction_on with
  | _ K ih =>
    constructor
    · intro a hsz hwf
      cases a with
      | nullA len => exact ⟨[], by rw [writeArray]⟩
      | prim dt k len off nulls values => exact ⟨_, by rw [writeArray]⟩
      | boolA len off nulls values => exact ⟨_, by rw [writeArray]⟩
      | bytesA dt len off nulls offsets data => exact ⟨_, by rw [writeArray]⟩
      | listA n fdt fn len off nulls offsets values =>
          simp only [wfA] at hwf
          obtain ⟨h1, h2, h3, h4, h5, h6⟩ := hwf
          simp only [asize] at hsz
          have hffl := wFirst_le_wLast offsets off len h2 h3
          have h4' : wLast offsets off len ≤ lenA values := h4
          obtain ⟨cbs, hw⟩ := (ih (K - 1) (by omega)).1
            (sliceA values (wFirst offsets off) (wLast offsets off len - wFirst offsets off))
            (by rw [asize_slice]; omega)
            (wfA_slice values h6 _ _ (by omega))
          exact ⟨_, by simp only [writeArray]; rw [hw]; rfl⟩
      | mapA n fdt fn s len off nulls offsets keys vals =>
          simp only [wfA] at hwf
          obtain ⟨h1, h2, h3, h4, h5, h6, h7, h8⟩ := hwf
          simp only [asize] at hsz
          have hffl := wFirst_le_wLast offsets off len h3 h4
          have h5' : wLast offsets off len ≤ lenA keys := h5
          obtain ⟨kbs, hwk⟩ := (ih (K - 1) (by omega)).1
            (sliceA keys (wFirst offsets off) (wLast offsets off len - wFirst offsets off))
            (by rw [asize_slice]; omega)
            (wfA_slice keys h7 _ _ (by omega))
          obtain ⟨vbs, hwv⟩ := (ih (K - 1) (by omega)).1
            (sliceA vals (wFirst offsets off) (wLast offsets off len - wFirst offsets off))
            (by rw [asize_slice]; omega)
            (wfA_slice vals h8 _ _ (by rw [← h6]; omega))
          exact ⟨_, by simp only [writeArray]; rw [hwk, hwv]; rfl⟩
      | structA fields len nulls children =>
          simp only [wfA] at hwf
          obtain ⟨h1, h2⟩ := hwf
          simp only [asize] at hsz
          obtain ⟨cbs, hw⟩ := (ih (K - 1) (by omega)).2 fields len children (by omega) h2
          exact ⟨_, by simp only [writeArray]; rw [hw]; rfl⟩
      | unsupp dt len => exact absurd hwf (by simp [wfA])
    · intro fields len cs hsz hwf
      cases fields with
      | nil =>
          cases cs with
          | nil => exact ⟨[], by rw [writeChildren]⟩
          | cons c cs => exact absurd hwf (by simp [wfChildren])
      | cons f fs =>
          cases cs with
          | nil => exact absurd hwf (by simp [wfChildren])
          | cons c cs =>
              obtain ⟨fnm, fdt, fb⟩ := f
              simp only [wfChildren] at hwf
              obtain ⟨hlen, hdt, hwfc, hrest⟩ := hwf
              simp only [asizeList] at hsz
              obtain ⟨cbs, hwcs⟩ := (ih (K - 1) (by omega)).2 fs len cs (by omega) hrest
              obtain ⟨b, hwc⟩ := (ih (K - 1) (by omega)).1 c (by omega) hwfc
              exact ⟨_, by simp only [writeChildren]; rw [hwc, hwcs]; rfl⟩

theorem writeChildren_ok (fields : List FieldT) (len : Nat) (cs : List PhysArray)
    (hwf : wfChildren fields len cs) : ∃ bs, writeChildren cs = .ok bs :=
  (writeArray_ok_all (asizeList cs)).2 fields len cs le_rfl hwf

/-! ## Value preservation of the decoded shape -/

theorem isNullAt_packNulls (len : Nat) (nulls : Option Bitmap) (hwf : bitmapWF len nulls)
    (i : Nat) (hi : i < len) : isNullAt (packNulls nulls) i = isNullAt nulls i := by
  cases nulls with
  | none => rfl
  | some bm =>
      obtain ⟨hlen, _⟩ := hwf
      simp only [packNulls, isNullAt]
      rw [Nat.zero_add, getBit_write_bits_buffer bm.buffer bm.offset bm.len i (by omega)]

theorem lenA_decodeShape (a : PhysArray) : lenA (decodeShape a) = lenA a := by
  cases a <;> (rw [decodeShape] <;> simp [lenA])

mutual

theorem rowVal_slice : ∀ (a : PhysArray) (o l i : Nat),
    rowVal (sliceA a o l) i = rowVal a (o + i)
  | .nullA _, o, l, i => by rw [sliceA, rowVal, rowVal]
  | .prim dt k len off nulls values, o, l, i => by
      rw [sliceA, rowVal, rowVal]
      cases nulls <;> simp [sliceNulls, isNullAt, Bitmap.sliceB, Nat.add_assoc]
  | .boolA len off nulls values, o, l, i => by
      rw [sliceA, rowVal, rowVal]
      cases nulls <;> simp [sliceNulls, isNullAt, Bitmap.sliceB, Nat.add_assoc]
  | .bytesA dt len off nulls offsets data, o, l, i => by
      rw [sliceA, rowVal, rowVal]
      cases nulls <;> simp [sliceNulls, isNullAt, Bitmap.sliceB, Nat.add_assoc]
  | .listA n fdt fb len off nulls offsets values, o, l, i => by
      rw [sliceA, rowVal, rowVal]
      cases nulls <;> simp [sliceNulls, isNullAt, Bitmap.sliceB, Nat.add_assoc]
  | .mapA n fdt fb s len off nulls offsets keys vals, o, l, i => by
      rw [sliceA, rowVal, rowVal]
      cases nulls <;> simp [sliceNulls, isNullAt, Bitmap.sliceB, Nat.add_assoc]
  | .structA fields len nulls children, o, l, i => by
      rw [sliceA, rowVal, rowVal, rowValChildren_slice children o l i]
      cases nulls <;> simp [sliceNulls, isNullAt, Bitmap.sliceB, Nat.add_assoc]
  | .unsupp dt len, o, l, i => by rw [sliceA, rowVal, rowVal]

theorem rowValChildren_slice : ∀ (cs : List PhysArray) (o l i : Nat),
    rowValChildren (sliceChildren cs o l) i = rowValChildren cs (o + i)
  | [], _, _, _ => by rw [sliceChildren, rowValChildren, rowValChildren]
  | c :: cs, o, l, i => by
      rw [sliceChildren, rowValChildren, rowValChildren,
        rowVal_slice c o l i, rowValChildren_slice cs o l i]

end

/-- The reconstructed offsets relate to the original window by subtracting
the window's base. -/
theorem decodedOffsets_getD (offsets : List Nat) (off len : Nat)
    (hc : offsetsChainB offsets = true) (hlen : off + len + 1 ≤ offsets.length) :
    ∀ i ≤ len, (0 :: offsetsFrom 0 (lensOf offsets off len)).getD i 0
      = offsets.getD (off + i) 0 - offsets.getD off 0 := by
  intro i hi
  cases i with
  | zero => simp
  | succ j =>
      rw [List.getD_cons_succ]
      have hjl : j < (lensOf offsets off len).length := by
        rw [lensOf_length offsets off len hlen]; omega
      rw [offsetsFrom_getD _ 0 j hjl, Nat.zero_add]
      rw [lensOf_take offsets (j + 1) len off (by omega) hlen]
      rw [lensOf_sum offsets hc (j + 1) off (by omega)]

/-- Decoding preserves every row's value: the canonical decoded shape of a
well-formed array is value-wise equal to the array. -/
theorem rowVal_decode_all (K : Nat) :
    (∀ a : PhysArray, asize a ≤ K → wfA a → ∀ i, i < lenA a →
      rowVal (decodeShape a) i = rowVal a i) ∧
    (∀ (fields : List FieldT) (len : Nat) (cs : List PhysArray), asizeList cs ≤ K →
      wfChildren fields len cs → ∀ i, i < len →
      rowValChildren (decodeChildren cs) i = rowValChildren cs i) := by
  induction K using Nat.strong_induction_on with
  | _ K ih =>
    constructor
    · intro a hsz hwf i hi
      cases a with
      | nullA len => rw [decodeShape]
      | prim dt k len off nulls values =>
          simp only [wfA] at hwf
          obtain ⟨h1, h2, h3, h4⟩ := hwf
          simp only [lenA] at hi
          rw [decodeShape, rowVal, rowVal, isNullAt_packNulls len nulls h3 i hi]
          by_cases hnull : isNullAt nulls i
          · rw [if_pos hnull, if_pos hnull]
          · rw [if_neg hnull, if_neg hnull]
            congr 1
            simp only [Nat.zero_add]
            rw [List.drop_take, List.drop_drop, List.take_take]
            have hb : k.width * i + k.width ≤ k.width * len := by
              have := Nat.mul_le_mul_left k.width (show i + 1 ≤ len from hi)
              rw [Nat.mul_add, Nat.mul_one] at this
              omega
            congr 1
            · omega
            · congr 1
              ring
      | boolA len off nulls values =>
          simp only [wfA] at hwf
          obtain ⟨h1, h2⟩ := hwf
          simp only [lenA] at hi
          rw [decodeShape, rowVal, rowVal, isNullAt_packNulls len nulls h1 i hi]
          by_cases hnull : isNullAt nulls i
          · rw [if_pos hnull, if_pos hnull]
          · rw [if_neg hnull, if_neg hnull]
            rw [Nat.zero_add, getBit_write_bits_buffer values off len i hi]
      | bytesA dt len off nulls offsets data =>
          simp only [wfA] at hwf
          obtain ⟨h1, h2, h3, h4, h5⟩ := hwf
          simp only [lenA] at hi
          rw [decodeShape, rowVal, rowVal, isNullAt_packNulls len nulls h2 i hi]
          by_cases hnull : isNullAt nulls i
          · rw [if_pos hnull, if_pos hnull]
          · rw [if_neg hnull, if_neg hnull]
            congr 1
            simp only [Nat.zero_add]
            have d1 := decodedOffsets_getD offsets off len h3 h4 (i + 1) (by omega)
            rw [show off + (i + 1) = off + i + 1 from by omega] at d1
            rw [decodedOffsets_getD offsets off len h3 h4 i (by omega), d1]
            have m0 := chainB_mono offsets h3 off (off + i) (by omega) (by omega)
            have m1 := chainB_mono offsets h3 (off + i) (off + i + 1) (by omega) (by omega)
            have m2 := chainB_mono offsets h3 (off + i + 1) (off + len) (by omega) (by omega)
            rw [wFirst_eq_getD]
            simp only [wLast]
            rw [List.drop_take, List.drop_drop, List.take_take]
            congr 1
            · omega
            · congr 1
              omega
      | listA n fdt fb len off nulls offsets values =>
          simp only [wfA] at hwf
          obtain ⟨h1, h2, h3, h4, h5, h6⟩ := hwf
          simp only [asize] at hsz
          simp only [lenA] at hi
          rw [decodeShape, rowVal, rowVal, isNullAt_packNulls len nulls h1 i hi]
          by_cases hnull : isNullAt nulls i
          · rw [if_pos hnull, if_pos hnull]
          · rw [if_neg hnull, if_neg hnull]
            congr 1
            simp only [Nat.zero_add]
            have d1 := decodedOffsets_getD offsets off len h2 h3 (i + 1) (by omega)
            rw [show off + (i + 1) = off + i + 1 from by omega] at d1
            rw [decodedOffsets_getD offsets off len h2 h3 i (by omega), d1]
            have m0 := chainB_mono offsets h2 off (off + i) (by omega) (by omega)
            have m1 := chainB_mono offsets h2 (off + i) (off + i + 1) (by omega) (by omega)
            have m2 := chainB_mono offsets h2 (off + i + 1) (off + len) (by omega) (by omega)
            have hδ : offsets.getD (off + i + 1) 0 - offsets.getD off 0
                - (offsets.getD (off + i) 0 - offsets.getD off 0)
                = offsets.getD (off + i + 1) 0 - offsets.getD (off + i) 0 := by omega
            rw [hδ]
            apply List.map_congr_left
            intro j hj
            rw [List.mem_range] at hj
            have hffl : wFirst offsets off ≤ wLast offsets off len :=
              wFirst_le_wLast offsets off len h2 h3
            have h4' : wLast offsets off len ≤ lenA values := h4
            have hwfs : wfA (sliceA values (wFirst offsets off)
                (wLast offsets off len - wFirst offsets off)) :=
              wfA_slice values h6 _ _ (by omega)
            have hidx : offsets.getD (off + i) 0 - offsets.getD off 0 + j
                < lenA (sliceA values (wFirst offsets off)
                  (wLast offsets off len - wFirst offsets off)) := by
              rw [lenA_slice, wFirst_eq_getD]
              simp only [wLast]
              omega
            rw [(ih (K - 1) (by omega)).1 _ (by rw [asize_slice]; omega) hwfs _ hidx]
            rw [rowVal_slice]
            rw [wFirst_eq_getD]
            congr 1
            omega
      | mapA n fdt fb s len off nulls offsets keys vals =>
          simp only [wfA] at hwf
          obtain ⟨h1, h2, h3, h4, h5, h6, h7, h8⟩ := hwf
          simp only [asize] at hsz
          simp only [lenA] at hi
          rw [decodeShape, rowVal, rowVal, isNullAt_packNulls len nulls h2 i hi]
          by_cases hnull : isNullAt nulls i
          · rw [if_pos hnull, if_pos hnull]
          · rw [if_neg hnull, if_neg hnull]
            have m0 := chainB_mono offsets h3 off (off + i) (by omega) (by omega)
            have m1 := chainB_mono offsets h3 (off + i) (off + i + 1) (by omega) (by omega)
            have m2 := chainB_mono offsets h3 (off + i + 1) (off + len) (by omega) (by omega)
            have hffl : wFirst offsets off ≤ wLast offsets off len :=
              wFirst_le_wLast offsets off len h3 h4
            have h5' : wLast offsets off len ≤ lenA keys := h5
            have hwfk : wfA (sliceA keys (wFirst offsets off)
                (wLast offsets off len - wFirst offsets off)) :=
              wfA_slice keys h7 _ _ (by omega)
            have hwfv : wfA (sliceA vals (wFirst offsets off)
                (wLast offsets off len - wFirst offsets off)) :=
              wfA_slice vals h8 _ _ (by omega)
            simp only [Nat.zero_add]
            have d1 := decodedOffsets_getD offsets off len h3 h4 (i + 1) (by omega)
            rw [show off + (i + 1) = off + i + 1 from by omega] at d1
            rw [decodedOffsets_getD offsets off len h3 h4 i (by omega), d1]
            have hδ : offsets.getD (off + i + 1) 0 - offsets.getD off 0
                - (offsets.getD (off + i) 0 - offsets.getD off 0)
                = offsets.getD (off + i + 1) 0 - offsets.getD (off + i) 0 := by omega
            rw [hδ]
            congr 1
            · apply List.map_congr_left
              intro j hj
              rw [List.mem_range] at hj
              have hidx : offsets.getD (off + i) 0 - offsets.getD off 0 + j
                  < lenA (sliceA keys (wFirst offsets off)
                    (wLast offsets off len - wFirst offsets off)) := by
                rw [lenA_slice, wFirst_eq_getD]
                simp only [wLast]
                omega
              rw [(ih (K - 1) (by omega)).1 _ (by rw [asize_slice]; omega) hwfk _ hidx]
              rw [rowVal_slice, wFirst_eq_getD]
              congr 1
              omega
            · apply List.map_congr_left
              intro j hj
              rw [List.mem_range] at hj
              have hidx : offsets.getD (off + i) 0 - offsets.getD off 0 + j
                  < lenA (sliceA vals (wFirst offsets off)
                    (wLast offsets off len - wFirst offsets off)) := by
                rw [lenA_slice, wFirst_eq_getD]
                simp only [wLast]
                omega
              rw [(ih (K - 1) (by omega)).1 _ (by rw [asize_slice]; omega) hwfv _ hidx]
              rw [rowVal_slice, wFirst_eq_getD]
              congr 1
              omega
      | structA fields len nulls children =>
          simp only [wfA] at hwf
          obtain ⟨h1, h2⟩ := hwf
          simp only [asize] at hsz
          simp only [lenA] at hi
          rw [decodeShape, rowVal, rowVal, isNullAt_packNulls len nulls h1 i hi]
          by_cases hnull : isNullAt nulls i
          · rw [if_pos hnull, if_pos hnull]
          · rw [if_neg hnull, if_neg hnull]
            rw [(ih (K - 1) (by omega)).2 fields len children (by omega) h2 i hi]
      | unsupp dt len => exact absurd hwf (by simp [wfA])
    · intro fields len cs hsz hwf i hi
      cases fields with
      | nil =>
          cases cs with
          | nil => rw [decodeChildren]
          | cons c cs => exact absurd hwf (by simp [wfChildren])
      | cons f fs =>
          cases cs with
          | nil => exact absurd hwf (by simp [wfChildren])
          | cons c cs =>
              obtain ⟨fnm, fdt, fb⟩ := f
              simp only [wfChildren] at hwf
              obtain ⟨hlen, hdt, hwfc, hrest⟩ := hwf
              simp only [asizeList] at hsz
              rw [decodeChildren, rowValChildren, rowValChildren]
              rw [(ih (K - 1) (by omega)).1 c (by omega) hwfc i (by rw [hlen]; exact hi)]
              rw [(ih (K - 1) (by omega)).2 fs len cs (by omega) hrest i hi]

/-- Value-wise equality of a well-formed array and its decoded shape. -/
theorem valuesOf_decodeShape (a : PhysArray) (hwf : wfA a) :
    valuesOf (decodeShape a) = valuesOf a := by
  unfold valuesOf
  rw [lenA_decodeShape]
  apply List.map_congr_left
  intro i hi
  exact (rowVal_decode_all (asize a)).1 a le_rfl hwf i (List.mem_range.mp hi)

/-! ## Offset invariance: the canonical rebuild serializes identically -/

theorem writeNulls_packNulls (nulls : Option Bitmap) :
    writeNulls (packNulls nulls) = writeNulls nulls := by
  cases nulls with
  | none => rfl
  | some bm =>
      simp only [packNulls, writeNulls]
      congr 1
      apply write_bits_buffer_congr
      intro i hi
      rw [Nat.zero_add, getBit_write_bits_buffer bm.buffer bm.offset bm.len i hi]

theorem rowLens_offsetsFrom : ∀ (ls : List Nat) (c : Nat),
    rowLens (c :: offsetsFrom c ls) = ls
  | [], _ => rfl
  | l :: ls, c => by
      rw [offsetsFrom, rowLens_cons, rowLens_offsetsFrom ls (c + l)]
      congr 1
      omega

theorem lensOf_decoded (ls : List Nat) (n : Nat) (hn : ls.length = n) :
    lensOf (0 :: offsetsFrom 0 ls) 0 n = ls := by
  subst hn
  unfold lensOf window
  rw [List.drop_zero]
  have hlen : (0 :: offsetsFrom 0 ls).length = ls.length + 1 := by
    simp [offsetsFrom_length]
  rw [← hlen, List.take_length]
  exact rowLens_offsetsFrom ls 0

theorem wFirst_decoded (ls : List Nat) : wFirst (0 :: offsetsFrom 0 ls) 0 = 0 := rfl

theorem wLast_decoded (ls : List Nat) (n : Nat) (hn : ls.length = n) :
    wLast (0 :: offsetsFrom 0 ls) 0 n = ls.sum := by
  subst hn
  rw [wLast, Nat.zero_add]
  cases ls with
  | nil => rfl
  | cons l ls =>
      rw [List.length_cons, List.getD_cons_succ]
      rw [offsetsFrom_getD (l :: ls) 0 ls.length (by simp)]
      rw [Nat.zero_add]
      congr 1
      apply List.take_of_length_le
      simp

mutual

theorem sliceZero_decodeShape : ∀ (a : PhysArray), wfA a →
    sliceA (decodeShape a) 0 (lenA a) = decodeShape a
  | .nullA len, _ => by rw [decodeShape, lenA, sliceA]
  | .prim dt k len off nulls values, h => by
      obtain ⟨_, _, h3, _⟩ := h
      rw [decodeShape, lenA, sliceA]
      congr 1
      cases nulls with
      | none => rfl
      | some bm =>
          obtain ⟨hlen, _⟩ := h3
          simp [packNulls, sliceNulls, Bitmap.sliceB, hlen]
  | .boolA len off nulls values, h => by
      obtain ⟨h1, _⟩ := h
      rw [decodeShape, lenA, sliceA]
      congr 1
      cases nulls with
      | none => rfl
      | some bm =>
          obtain ⟨hlen, _⟩ := h1
          simp [packNulls, sliceNulls, Bitmap.sliceB, hlen]
  | .bytesA dt len off nulls offsets data, h => by
      obtain ⟨_, h2, _, _, _⟩ := h
      rw [decodeShape, lenA, sliceA]
      congr 1
      cases nulls with
      | none => rfl
      | some bm =>
          obtain ⟨hlen, _⟩ := h2
          simp [packNulls, sliceNulls, Bitmap.sliceB, hlen]
  | .listA n fdt fb len off nulls offsets values, h => by
      obtain ⟨h1, _, _, _, _, _⟩ := h
      rw [decodeShape, lenA, sliceA]
      congr 1
      cases nulls with
      | none => rfl
      | some bm =>
          obtain ⟨hlen, _⟩ := h1
          simp [packNulls, sliceNulls, Bitmap.sliceB, hlen]
  | .mapA n fdt fb s len off nulls offsets keys vals, h => by
      obtain ⟨_, h2, _, _, _, _, _, _⟩ := h
      rw [decodeShape, lenA, sliceA]
      congr 1
      cases nulls with
      | none => rfl
      | some bm =>
          obtain ⟨hlen, _⟩ := h2
          simp [packNulls, sliceNulls, Bitmap.sliceB, hlen]
  | .structA fields len nulls children, h => by
      obtain ⟨h1, h2⟩ := h
      rw [decodeShape, lenA, sliceA]
      congr 1
      · cases nulls with
        | none => rfl
        | some bm =>
            obtain ⟨hlen, _⟩ := h1
            simp [packNulls, sliceNulls, Bitmap.sliceB, hlen]
      · exact sliceZero_decodeChildren fields len children h2
  | .unsupp dt len, h => absurd h (by simp [wfA])

theorem sliceZero_decodeChildren : ∀ (fields : List FieldT) (len : Nat)
    (cs : List PhysArray), wfChildren fields len cs →
    sliceChildren (decodeChildren cs) 0 len = decodeChildren cs
  | [], _, [], _ => by rw [decodeChildren, sliceChildren]
  | (fnm, fdt, fb) :: fs, len, c :: cs, h => by
      obtain ⟨hlen, hdt, hwfc, hrest⟩ := h
      rw [decodeChildren, sliceChildren]
      rw [show len = lenA c from hlen.symm]
      rw [sliceZero_decodeShape c hwfc]
      rw [show lenA c = len from hlen]
      rw [sliceZero_decodeChildren fs len cs hrest]
  | [], _, _ :: _, h => absurd h (by simp [wfChildren])
  | _ :: _, _, [], h => absurd h (by simp [wfChildren])

end

/-- The writer produces identical bytes on a well-formed array and on its
canonical rebuild (offset 0, compact buffers, repacked bitmap, running-sum
offsets): the wire form depends only on the logical window, not the
physical layout. -/
theorem writeArray_decode_all (K : Nat) :
    (∀ a : PhysArray, asize a ≤ K → wfA a →
      writeArray (decodeShape a) = writeArray a) ∧
    (∀ (fields : List FieldT) (len : Nat) (cs : List PhysArray), asizeList cs ≤ K →
      wfChildren fields len cs → writeChildren (decodeChildren cs) = writeChildren cs) := by
  induction K using Nat.strong_induction_on with
  | _ K ih =>
    constructor
    · intro a hsz hwf
      cases a with
      | nullA len => rw [decodeShape]
      | prim dt k len off nulls values =>
          simp only [wfA] at hwf
          obtain ⟨h1, h2, h3, h4⟩ := hwf
          rw [decodeShape, writeArray, writeArray]
          unfold write_primitive_array
          rw [writeNulls_packNulls, Nat.mul_zero, List.drop_zero]
          have hwlen : ((values.drop (k.width * off)).take (k.width * len)).length
              = k.width * len := by
            apply length_drop_take
            have : k.width * off + k.width * len = k.width * (off + len) := by ring
            omega
          rw [List.take_of_length_le (le_of_eq hwlen)]
      | boolA len off nulls values =>
          rw [decodeShape, writeArray, writeArray, writeNulls_packNulls]
          congr 2
          apply write_bits_buffer_congr
          intro i hi
          rw [Nat.zero_add, getBit_write_bits_buffer values off len i hi]
      | bytesA dt len off nulls offsets data =>
          simp only [wfA] at hwf
          obtain ⟨h1, h2, h3, h4, h5⟩ := hwf
          rw [decodeShape, writeArray, writeArray, writeNulls_packNulls]
          have hl : (lensOf offsets off len).length = len := lensOf_length offsets off len h4
          have hlens : lensOf (0 :: offsetsFrom 0 (lensOf offsets off len)) 0 len
              = lensOf offsets off len := by
            exact lensOf_decoded _ len hl
          have hwl : wLast (0 :: offsetsFrom 0 (lensOf offsets off len)) 0 len
              = wLast offsets off len - wFirst offsets off := by
            rw [wLast_decoded _ len hl, lensOf_sum offsets h3 len off h4, wFirst_eq_getD, wLast]
          rw [hlens, hwl, wFirst_decoded, Nat.sub_zero, List.drop_zero]
          have hffl := wFirst_le_wLast offsets off len h3 h4
          have hdlen : ((data.drop (wFirst offsets off)).take
              (wLast offsets off len - wFirst offsets off)).length
              = wLast offsets off len - wFirst offsets off := by
            apply length_drop_take
            rw [wLast] at hffl ⊢
            omega
          rw [List.take_of_length_le (le_of_eq hdlen)]
      | listA n fdt fb len off nulls offsets values =>
          simp only [wfA] at hwf
          obtain ⟨h1, h2, h3, h4, h5, h6⟩ := hwf
          simp only [asize] at hsz
          have hffl := wFirst_le_wLast offsets off len h2 h3
          have h4' : wLast offsets off len ≤ lenA values := h4
          have hwfy : wfA (sliceA values (wFirst offsets off)
              (wLast offsets off len - wFirst offsets off)) :=
            wfA_slice values h6 _ _ (by omega)
          have hl : (lensOf offsets off len).length = len := lensOf_length offsets off len h3
          have hlens : lensOf (0 :: offsetsFrom 0 (lensOf offsets off len)) 0 len
              = lensOf offsets off len := by
            exact lensOf_decoded _ len hl
          have hwl : wLast (0 :: offsetsFrom 0 (lensOf offsets off len)) 0 len
              = wLast offsets off len - wFirst offsets off := by
            rw [wLast_decoded _ len hl, lensOf_sum offsets h2 len off h3, wFirst_eq_getD, wLast]
          rw [decodeShape]
          simp only [writeArray]
          rw [hlens, hwl, wFirst_decoded, writeNulls_packNulls, Nat.sub_zero]
          have hslice0 : sliceA (decodeShape (sliceA values (wFirst offsets off)
              (wLast offsets off len - wFirst offsets off))) 0
              (wLast offsets off len - wFirst offsets off)
              = decodeShape (sliceA values (wFirst offsets off)
                (wLast offsets off len - wFirst offsets off)) := by
            have hz := sliceZero_decodeShape _ hwfy
            rwa [lenA_slice] at hz
          rw [hslice0, (ih (K - 1) (by omega)).1 _ (by rw [asize_slice]; omega) hwfy]
      | mapA n fdt fb s len off nulls offsets keys vals =>
          simp only [wfA] at hwf
          obtain ⟨h1, h2, h3, h4, h5, h6, h7, h8⟩ := hwf
          simp only [asize] at hsz
          have hffl := wFirst_le_wLast offsets off len h3 h4
          have h5' : wLast offsets off len ≤ lenA keys := h5
          have hwfk : wfA (sliceA keys (wFirst offsets off)
              (wLast offsets off len - wFirst offsets off)) :=
            wfA_slice keys h7 _ _ (by omega)
          have hwfv : wfA (sliceA vals (wFirst offsets off)
              (wLast offsets off len - wFirst offsets off)) :=
            wfA_slice vals h8 _ _ (by omega)
          have hl : (lensOf offsets off len).length = len := lensOf_length offsets off len h4
          have hlens : lensOf (0 :: offsetsFrom 0 (lensOf offsets off len)) 0 len
              = lensOf offsets off len := by
            exact lensOf_decoded _ len hl
          have hwl : wLast (0 :: offsetsFrom 0 (lensOf offsets off len)) 0 len
              = wLast offsets off len - wFirst offsets off := by
            rw [wLast_decoded _ len hl, lensOf_sum offsets h3 len off h4, wFirst_eq_getD, wLast]
          rw [decodeShape]
          simp only [writeArray]
          rw [hlens, hwl, wFirst_decoded, writeNulls_packNulls, Nat.sub_zero]
          have hzk : sliceA (decodeShape (sliceA keys (wFirst offsets off)
              (wLast offsets off len - wFirst offsets off))) 0
              (wLast offsets off len - wFirst offsets off)
              = decodeShape (sliceA keys (wFirst offsets off)
                (wLast offsets off len - wFirst offsets off)) := by
            have hz := sliceZero_decodeShape _ hwfk
            rwa [lenA_slice] at hz
          have hzv : sliceA (decodeShape (sliceA vals (wFirst offsets off)
              (wLast offsets off len - wFirst offsets off))) 0
              (wLast offsets off len - wFirst offsets off)
              = decodeShape (sliceA vals (wFirst offsets off)
                (wLast offsets off len - wFirst offsets off)) := by
            have hz := sliceZero_decodeShape _ hwfv
            rwa [lenA_slice] at hz
          rw [hzk, hzv,
            (ih (K - 1) (by omega)).1 _ (by rw [asize_slice]; omega) hwfk,
            (ih (K - 1) (by omega)).1 _ (by rw [asize_slice]; omega) hwfv]
      | structA fields len nulls children =>
          simp only [wfA] at hwf
          obtain ⟨h1, h2⟩ := hwf
          simp only [asize] at hsz
          rw [decodeShape]
          simp only [writeArray]
          rw [writeNulls_packNulls,
            (ih (K - 1) (by omega)).2 fields len children (by omega) h2]
      | unsupp dt len => exact absurd hwf (by simp [wfA])
    · intro fields len cs hsz hwf
      cases fields with
      | nil =>
          cases cs with
          | nil => rw [decodeChildren]
          | cons c cs => exact absurd hwf (by simp [wfChildren])
      | cons f fs =>
          cases cs with
          | nil => exact absurd hwf (by simp [wfChildren])
          | cons c cs =>
              obtain ⟨fnm, fdt, fb⟩ := f
              simp only [wfChildren] at hwf
              obtain ⟨hlen, hdt, hwfc, hrest⟩ := hwf
              simp only [asizeList] at hsz
              rw [decodeChildren]
              simp only [writeChildren]
              rw [(ih (K - 1) (by omega)).1 c (by omega) hwfc,
                (ih (K - 1) (by omega)).2 fs len cs (by omega) hrest]

/-- The offset-invariance theorem packaged for a single array. -/
theorem writeArray_decodeShape (a : PhysArray) (hwf : wfA a) :
    writeArray (decodeShape a) = writeArray a :=
  (writeArray_decode_all (asize a)).1 a le_rfl hwf

/-! ## Batch codec (`write_batch` / `read_batch`) -/

/-- A record batch: schema fields, row count, columns. -/
structure Batch where
  fields : List FieldT
  numRows : Nat
  columns : List PhysArray

/-- Invariants a real `RecordBatch` guarantees: one column per field, every
column of the batch's row count and of its field's data type, well-formed. -/
def wfBatch (b : Batch) : Prop := wfChildren b.fields b.numRows b.columns

/-- Modelled from the spec: the external streaming compressor wrapped
around the whole byte stream (zstd level 1), specified only at the
interface boundary as a lossless byte compressor; the frame is modelled as
a length-prefixed copy of the input bytes. -/
def zstdCompress (bs : Bytes) : Bytes := write_len bs.length ++ bs

/-- Modelled from the spec: the matching streaming decompressor. -/
def zstdDecompress (bs : Bytes) : Except SerdeErr Bytes := do
  let (n, r) ← read_len bs
  let (payload, _) ← read_bytes_slice n r
  .ok payload

theorem zstd_round (bs : Bytes) : zstdDecompress (zstdCompress bs) = .ok bs := by
  unfold zstdCompress zstdDecompress
  rw [show write_len bs.length ++ bs = write_len bs.length ++ (bs ++ []) from by simp]
  rw [read_len_round]
  simp only [except_bind_ok]
  rw [read_bytes_slice_round]
  rfl

/-- The column-nullability bytes: `BitVec<u8>` pushes (LSB-first) padded to
a whole number of bytes by `into_vec`. -/
def boolsToBytes (bs : List Bool) : Bytes :=
  (List.range ((bs.length + 7) / 8)).map fun j =>
    (List.range 8).foldl (fun acc k => if bs.getD (8 * j + k) false then acc + 2 ^ k else acc) 0

theorem boolsToBytes_length (bs : List Bool) :
    (boolsToBytes bs).length = (bs.length + 7) / 8 := by
  simp [boolsToBytes]

theorem boolsByte_testBit (bs : List Bool) (j m : Nat) (hm : m < 8) :
    ((List.range 8).foldl
        (fun acc k => if bs.getD (8 * j + k) false then acc + 2 ^ k else acc) 0) / 2 ^ m % 2
      = if bs.getD (8 * j + m) false then 1 else 0 := by
  simp only [List.range_succ, List.range_zero, List.foldl_append, List.foldl_cons,
    List.foldl_nil]
  set c : Nat → Nat := fun k => if bs.getD (8 * j + k) false then 1 else 0 with hc
  have hstep : ∀ (acc k : Nat),
      (if bs.getD (8 * j + k) false then acc + 2 ^ k else acc) = acc + c k * 2 ^ k := by
    intro acc k
    simp only [hc]
    by_cases hp : bs.getD (8 * j + k) false
    · rw [if_pos hp, if_pos hp]; ring
    · rw [if_neg hp, if_neg hp]; ring
  have hrhs : (if bs.getD (8 * j + m) false then 1 else 0) = c m := rfl
  rw [hrhs]
  simp only [List.foldl_cons, List.foldl_nil, hstep]
  have hck : ∀ k, c k ≤ 1 := by
    intro k
    simp only [hc]
    split <;> omega
  have h0 := hck 0
  have h1 := hck 1
  have h2 := hck 2
  have h3 := hck 3
  have h4 := hck 4
  have h5 := hck 5
  have h6 := hck 6
  have h7 := hck 7
  interval_cases m <;> simp only [pow_succ, pow_zero] <;> omega

theorem getBit_boolsToBytes (bs : List Bool) (i : Nat) :
    getBit (boolsToBytes bs) i = bs.getD i false := by
  by_cases hdiv : i / 8 < (bs.length + 7) / 8
  · have hgetD : (boolsToBytes bs).getD (i / 8) 0
        = (List.range 8).foldl
            (fun acc k => if bs.getD (8 * (i / 8) + k) false then acc + 2 ^ k else acc) 0 := by
      rw [boolsToBytes, List.getD_eq_getElem?_getD, List.getElem?_map, List.getElem?_range hdiv]
      rfl
    rw [getBit, hgetD, boolsByte_testBit bs (i / 8) (i % 8) (Nat.mod_lt _ (by omega))]
    have hieq : 8 * (i / 8) + i % 8 = i := by omega
    rw [hieq]
    by_cases hb : bs.getD i false <;> simp [hb]
  · have hgetD : (boolsToBytes bs).getD (i / 8) 0 = 0 := by
      apply List.getD_eq_default
      rw [boolsToBytes_length]
      omega
    have hlen : bs.length ≤ i := by omega
    rw [getBit, hgetD]
    rw [List.getD_eq_default _ _ hlen]
    simp

theorem namelessFields_eq_map : ∀ (fields : List FieldT),
    namelessFields fields = fields.map fun f => (([] : Bytes), namelessDT f.2.1, f.2.2)
  | [] => by rw [namelessFields]; rfl
  | (n, fdt, fb) :: fs => by
      rw [namelessFields, namelessFields_eq_map fs, List.map_cons]

/-- The data-type column loop of `read_batch`. -/
def readDataTypes : Nat → Bytes → Except SerdeErr (List DataType × Bytes)
  | 0, input => .ok ([], input)
  | n + 1, input => do
      let (dt, r) ← read_data_type input
      let (dts, r') ← readDataTypes n r
      .ok (dt :: dts, r')

theorem readDataTypes_spec : ∀ (fields : List FieldT) (rest : Bytes),
    readDataTypes fields.length
        ((fields.map fun f => write_data_type f.2.1).flatten ++ rest)
      = .ok (fields.map fun f => namelessDT f.2.1, rest)
  | [], rest => by simp [readDataTypes]
  | (n, fdt, fb) :: fs, rest => by
      simp only [List.map_cons, List.flatten_cons, List.length_cons, List.append_assoc]
      simp only [readDataTypes, read_write_data_type, except_bind_ok]
      rw [readDataTypes_spec fs rest]
      rfl

/-- The column loop of `read_batch`: one `read_array` per recorded type. -/
def readColumns : List DataType → Nat → Bytes → Except SerdeErr (List PhysArray × Bytes)
  | [], _, input => .ok ([], input)
  | dt :: dts, numRows, input => do
      let (c, r) ← readArray input dt numRows
      let (cs, r') ← readColumns dts numRows r
      .ok (c :: cs, r')

theorem readColumns_eq_readArrayList : ∀ (fields : List FieldT) (len : Nat) (input : Bytes),
    readColumns (fields.map fun f => namelessDT f.2.1) len input
      = readArrayList (namelessFields fields) len input
  | [], _, _ => by
      rw [show namelessFields [] = [] from by rw [namelessFields]]
      simp only [List.map_nil, readColumns, readArrayList]
  | (n, fdt, fb) :: fs, len, input => by
      rw [namelessFields, List.map_cons]
      rw [readColumns, readArrayList]
      simp only [readColumns_eq_readArrayList fs len]

/-- `write_batch`: the logical (pre-compression) byte stream is the column
count, row count, per-field data types, bit-packed nullability bytes and
the columns in order; with `compress` the stream is wrapped in one zstd
frame.  The second component models the `CountWriter` count of bytes fed
to the sink before compression (reported into `uncompressed_size` when the
caller requests it). -/
def write_batch (b : Batch) (compress : Bool) : Except SerdeErr (Bytes × Nat) := do
  let cols ← writeChildren b.columns
  let logical := write_len b.columns.length ++ write_len b.numRows
    ++ (b.fields.map fun f => write_data_type f.2.1).flatten
    ++ boolsToBytes (b.fields.map fun f => f.2.2)
    ++ cols
  .ok (if compress then zstdCompress logical else logical, logical.length)

/-- The body of `read_batch` after the optional decompression: column
count, row count, data types, nullability bytes, columns; the schema is
rebuilt with empty field names and the recorded types/nullability bits.
`RecordBatch::try_new_with_options` then validates each column's data type
against its schema field's (its row-count/length check holds by
construction, every column being read at the recorded row count); a
mismatch is the propagated arrow error. -/
def readBatchStream (stream : Bytes) : Except SerdeErr Batch := do
  let (numColumns, r) ← read_len stream
  let (numRows, r) ← read_len r
  let (dataTypes, r) ← readDataTypes numColumns r
  let (nullBytes, r) ← read_bytes_slice ((numColumns + 7) / 8) r
  let (columns, _) ← readColumns dataTypes numRows r
  if colTypesEq dataTypes columns then
    .ok ⟨dataTypes.enum.map fun idt => (([] : Bytes), idt.2, getBit nullBytes idt.1),
      numRows, columns⟩
  else .error .arrowError

/-- `read_batch`: unwrap the optional zstd frame, then parse the stream. -/
def read_batch (input : Bytes) (compress : Bool) : Except SerdeErr Batch := do
  let stream ← if compress then zstdDecompress input else .ok input
  readBatchStream stream

theorem wfChildren_length : ∀ (fields : List FieldT) (len : Nat) (cs : List PhysArray),
    wfChildren fields len cs → cs.length = fields.length
  | [], _, [], _ => rfl
  | [], _, _ :: _, h => by simp [wfChildren] at h
  | _ :: _, _, [], h => by simp [wfChildren] at h
  | (n, fdt, fb) :: fs, len, c :: cs, h => by
      rw [wfChildren] at h
      rw [List.length_cons, List.length_cons, wfChildren_length fs len cs h.2.2.2]

theorem decodedFields_eq (fields : List FieldT) :
    ((fields.map fun f => namelessDT f.2.1).enum.map
        fun idt => (([] : Bytes), idt.2,
          getBit (boolsToBytes (fields.map fun f => f.2.2)) idt.1))
      = namelessFields fields := by
  rw [namelessFields_eq_map]
  apply List.ext_getElem
  · simp [List.enum_length]
  · intro i h1 h2
    have hi : i < fields.length := by simpa using h2
    simp only [List.getElem_map, List.getElem_enum, getBit_boolsToBytes]
    rw [List.getD_eq_getElem _ false (by simpa using hi), List.getElem_map]

theorem namelessFields_map_dts (fields : List FieldT) :
    (namelessFields fields).map (fun f => f.2.1) = fields.map fun f => namelessDT f.2.1 := by
  rw [namelessFields_eq_map, List.map_map]
  rfl

/-- Parsing the logical stream: all five header/column steps succeed, and
the result is the schema-validation check applied to the canonically
decoded columns. -/
theorem readBatchStream_parse (b : Batch) (hwf : wfChildren b.fields b.numRows b.columns)
    (cols : Bytes)
    (hcols : readColumns (b.fields.map fun f => namelessDT f.2.1) b.numRows cols
      = .ok (decodeChildren b.columns, [])) :
    readBatchStream
        (write_len b.columns.length ++ write_len b.numRows
          ++ (b.fields.map fun f => write_data_type f.2.1).flatten
          ++ boolsToBytes (b.fields.map fun f => f.2.2) ++ cols)
      = if colTypesEq (b.fields.map fun f => namelessDT f.2.1) (decodeChildren b.columns)
        then .ok ⟨namelessFields b.fields, b.numRows, decodeChildren b.columns⟩
        else .error .arrowError := by
  have hclen : b.columns.length = b.fields.length :=
    wfChildren_length _ _ _ hwf
  rw [readBatchStream]
  simp only [List.append_assoc]
  rw [read_len_round]
  simp only [except_bind_ok]
  rw [read_len_round]
  simp only [except_bind_ok]
  rw [hclen, readDataTypes_spec]
  simp only [except_bind_ok]
  have hnb : (b.fields.length + 7) / 8 = (boolsToBytes (b.fields.map fun f => f.2.2)).length := by
    rw [boolsToBytes_length, List.length_map]
  rw [hnb, read_bytes_slice_round]
  simp only [except_bind_ok]
  rw [hcols]
  simp only [except_bind_ok]
  rw [decodedFields_eq]

/-- Batch round trip: writing a well-formed batch whose column types carry
no timestamp time zone, with either compress flag, and reading it back
with the same flag succeeds and yields the batch with the nameless schema
and the canonical decoded columns. -/
theorem read_write_batch (b : Batch) (hwf : wfBatch b) (htz : noTzFields b.fields = true)
    (compress : Bool) :
    ∃ out size, write_batch b compress = .ok (out, size) ∧
      read_batch out compress
        = .ok ⟨namelessFields b.fields, b.numRows, decodeChildren b.columns⟩ := by
  have hwf' : wfChildren b.fields b.numRows b.columns := hwf
  have hcheck : colTypesEq (b.fields.map fun f => namelessDT f.2.1)
      (decodeChildren b.columns) = true := by
    rw [← namelessFields_map_dts]
    exact colTypesEq_decode b.fields b.numRows b.columns hwf' htz
  obtain ⟨cols, hw, hr⟩ := (write_read_all (asizeList b.columns)).2
      b.fields b.numRows b.columns le_rfl hwf' (noTzFields_nest b.fields htz) []
  rw [List.append_nil] at hr
  have hcols : readColumns (b.fields.map fun f => namelessDT f.2.1) b.numRows cols
      = .ok (decodeChildren b.columns, []) := by
    rw [readColumns_eq_readArrayList]; exact hr
  set logical := write_len b.columns.length ++ write_len b.numRows
    ++ (b.fields.map fun f => write_data_type f.2.1).flatten
    ++ boolsToBytes (b.fields.map fun f => f.2.2) ++ cols with hlog
  refine ⟨if compress then zstdCompress logical else logical, logical.length, ?_, ?_⟩
  · rw [write_batch, hw]
    simp only [except_bind_ok]
  · cases compress with
    | false =>
        rw [read_batch, if_neg Bool.false_ne_true, if_neg Bool.false_ne_true]
        simp only [except_bind_ok]
        rw [hlog, readBatchStream_parse b hwf' cols hcols, if_pos hcheck]
    | true =>
        rw [read_batch, if_pos rfl, if_pos rfl, zstd_round]
        simp only [except_bind_ok]
        rw [hlog, readBatchStream_parse b hwf' cols hcols, if_pos hcheck]

/-! ## Scalar codec (`write_scalar` / `read_scalar`) -/

/-- Modelled from the spec: one UTF-8 continuation byte. -/
def utf8Cont (b : Nat) : Bool := decide (0x80 ≤ b) && decide (b ≤ 0xBF)

/-- Modelled from the spec: the UTF-8 validity test behind
`String::from_utf8_lossy` (standard table, surrogates and overlongs
excluded). -/
def utf8Valid : Bytes → Bool
  | [] => true
  | b :: r =>
    if b ≤ 0x7F then utf8Valid r
    else if 0xC2 ≤ b && b ≤ 0xDF then
      match r with
      | b1 :: r1 => utf8Cont b1 && utf8Valid r1
      | [] => false
    else if b = 0xE0 then
      match r with
      | b1 :: b2 :: r2 =>
          (decide (0xA0 ≤ b1) && decide (b1 ≤ 0xBF)) && utf8Cont b2 && utf8Valid r2
      | _ => false
    else if (0xE1 ≤ b && b ≤ 0xEC) || b = 0xEE || b = 0xEF then
      match r with
      | b1 :: b2 :: r2 => utf8Cont b1 && utf8Cont b2 && utf8Valid r2
      | _ => false
    else if b = 0xED then
      match r with
      | b1 :: b2 :: r2 =>
          (decide (0x80 ≤ b1) && decide (b1 ≤ 0x9F)) && utf8Cont b2 && utf8Valid r2
      | _ => false
    else if b = 0xF0 then
      match r with
      | b1 :: b2 :: b3 :: r3 =>
          (decide (0x90 ≤ b1) && decide (b1 ≤ 0xBF)) && utf8Cont b2 && utf8Cont b3
            && utf8Valid r3
      | _ => false
    else if 0xF1 ≤ b && b ≤ 0xF3 then
      match r with
      | b1 :: b2 :: b3 :: r3 => utf8Cont b1 && utf8Cont b2 && utf8Cont b3 && utf8Valid r3
      | _ => false
    else if b = 0xF4 then
      match r with
      | b1 :: b2 :: b3 :: r3 =>
          (decide (0x80 ≤ b1) && decide (b1 ≤ 0x8F)) && utf8Cont b2 && utf8Cont b3
            && utf8Valid r3
      | _ => false
    else false
termination_by bs => bs.length
decreasing_by all_goals simp_all <;> omega

/-- Modelled from the spec: `String::from_utf8_lossy` is the identity on
valid UTF-8 and otherwise substitutes U+FFFD replacement text; only the
identity-on-valid behaviour is relied upon. -/
def utf8Lossy (bs : Bytes) : Bytes := if utf8Valid bs then bs else [0xEF, 0xBF, 0xBD]

/-- The `ScalarValue` variants the scalar codec meets: option payloads are
`None`/`Some`, primitive payloads carried as their native-endian bytes;
`unsuppS` stands for the variants both sides reject (unions, dictionaries,
intervals, …).  Timestamp scalars are `primS` with a timestamp kind: they
too have no `write_scalar` branch. -/
inductive Scalar where
  | nullS
  | booleanS (v : Option Bool)
  | primS (k : PrimKind) (v : Option Bytes)
  | decimalS (v : Option Bytes) (precision : Nat) (scale : Int)
  | utf8S (v : Option Bytes)
  | binaryS (v : Option Bytes)
  | listS (v : Option (List Scalar)) (field : FieldT)
  | structS (v : Option (List Scalar)) (fields : List FieldT)
  | mapS (inner : Scalar) (sorted : Bool)
  | unsuppS (dt : DataType)

/-- Primitive kinds whose `ScalarValue` variant is a plain primitive
scalar: Decimal128 is carried by `decimalS`, and timestamp scalars have no
`write_scalar` branch (they fall into its unsupported arm). -/
def primScalarOK : PrimKind → Bool
  | .tsSecond | .tsMillisecond | .tsMicrosecond | .tsNanosecond => false
  | .decimal128 => false
  | _ => true

mutual

/-- `write_scalar`: Null writes nothing; Boolean writes one byte `v+1`
(0 = null); primitives write a 0/1 validity value then the raw bytes;
Utf8/Binary write `len+1` (0 = null) then the bytes; List/Struct write
`len+1` then the elements recursively; Map delegates to the single inner
entry-list scalar; null options write 0; unsupported variants fail. -/
def write_scalar : Scalar → Except SerdeErr Bytes
  | .nullS => .ok []
  | .booleanS (some v) => .ok (write_u8 (boolByte v + 1))
  | .booleanS none => .ok (write_len 0)
  | .primS k (some bs) =>
      if primScalarOK k then .ok (write_len 1 ++ bs) else .error .unsupportedType
  | .primS k none =>
      if primScalarOK k then .ok (write_len 0) else .error .unsupportedType
  | .decimalS (some bs) _ _ => .ok (write_len 1 ++ bs)
  | .decimalS none _ _ => .ok (write_len 0)
  | .utf8S (some bs) => .ok (write_len (bs.length + 1) ++ bs)
  | .utf8S none => .ok (write_len 0)
  | .binaryS (some bs) => .ok (write_len (bs.length + 1) ++ bs)
  | .binaryS none => .ok (write_len 0)
  | .listS (some vs) _ => do
      let b ← writeScalarList vs
      .ok (write_len (vs.length + 1) ++ b)
  | .listS none _ => .ok (write_len 0)
  | .structS (some vs) _ => do
      let b ← writeScalarList vs
      .ok (write_len (vs.length + 1) ++ b)
  | .structS none _ => .ok (write_len 0)
  | .mapS inner _ => write_scalar inner
  | .unsuppS _ => .error .unsupportedType

/-- The element loop of the List/Struct branches of `write_scalar`. -/
def writeScalarList : List Scalar → Except SerdeErr Bytes
  | [] => .ok []
  | v :: vs => do
      let b ← write_scalar v
      let bs ← writeScalarList vs
      .ok (b ++ bs)

end

/-- The `read_primitive_scalar!` macro body: a varint validity value, then
(when nonzero) exactly the primitive's byte width. -/
def read_primitive_scalar (w : Nat) (input : Bytes) :
    Except SerdeErr (Option Bytes × Bytes) := do
  let (valid, r) ← read_len input
  if valid ≠ 0 then do
    let (buf, r') ← read_bytes_slice w r
    .ok (some buf, r')
  else .ok (none, r)

mutual

/-- `read_scalar`: dispatch on the declared data type, rebuilding the
`ScalarValue`; the Struct branch walks `fields[i]` for the declared count,
panicking past the end of the field list; Map reads one scalar of its
entry field's type and takes `sorted` from the data type; types without a
branch (timestamps included) are unsupported. -/
def read_scalar (input : Bytes) (dt : DataType) : Except SerdeErr (Scalar × Bytes) :=
  match dt with
  | .nullT => .ok (.nullS, input)
  | .booleanT => do
      let (b, r) ← read_u8 input
      if b = 0 then .ok (.booleanS none, r)
      else if b = 1 then .ok (.booleanS (some false), r)
      else .ok (.booleanS (some true), r)
  | .int8T => do
      let (v, r) ← read_primitive_scalar 1 input
      .ok (.primS .int8 v, r)
  | .int16T => do
      let (v, r) ← read_primitive_scalar 2 input
      .ok (.primS .int16 v, r)
  | .int32T => do
      let (v, r) ← read_primitive_scalar 4 input
      .ok (.primS .int32 v, r)
  | .int64T => do
      let (v, r) ← read_primitive_scalar 8 input
      .ok (.primS .int64 v, r)
  | .uint8T => do
      let (v, r) ← read_primitive_scalar 1 input
      .ok (.primS .uint8 v, r)
  | .uint16T => do
      let (v, r) ← read_primitive_scalar 2 input
      .ok (.primS .uint16 v, r)
  | .uint32T => do
      let (v, r) ← read_primitive_scalar 4 input
      .ok (.primS .uint32 v, r)
  | .uint64T => do
      let (v, r) ← read_primitive_scalar 8 input
      .ok (.primS .uint64 v, r)
  | .float32T => do
      let (v, r) ← read_primitive_scalar 4 input
      .ok (.primS .float32 v, r)
  | .float64T => do
      let (v, r) ← read_primitive_scalar 8 input
      .ok (.primS .float64 v, r)
  | .decimal128T p s => do
      let (v, r) ← read_primitive_scalar 16 input
      .ok (.decimalS v p s, r)
  | .date32T => do
      let (v, r) ← read_primitive_scalar 4 input
      .ok (.primS .date32 v, r)
  | .date64T => do
      let (v, r) ← read_primitive_scalar 8 input
      .ok (.primS .date64 v, r)
  | .binaryT => do
      let (n, r) ← read_len input
      if n > 0 then do
        let (bs, r') ← read_bytes_slice (n - 1) r
        .ok (.binaryS (some bs), r')
      else .ok (.binaryS none, r)
  | .utf8T => do
      let (n, r) ← read_len input
      if n > 0 then do
        let (bs, r') ← read_bytes_slice (n - 1) r
        .ok (.utf8S (some (utf8Lossy bs)), r')
      else .ok (.utf8S none, r)
  | .listT nm fdt fb => do
      let (n, r) ← read_len input
      if n > 0 then do
        let (vs, r') ← readScalarN fdt (n - 1) r
        .ok (.listS (some vs) (nm, fdt, fb), r')
      else .ok (.listS none (nm, fdt, fb), r)
  | .structT fields => do
      let (n, r) ← read_len input
      if n > 0 then do
        let (vs, r') ← readStructScalars fields (n - 1) r
        .ok (.structS (some vs) fields, r')
      else .ok (.structS none fields, r)
  | .mapT _ fdt _ s => do
      let (v, r) ← read_scalar input fdt
      .ok (.mapS v s, r)
  | .timestampT _ _ => .error .unsupportedType
  | .fixedSizeBinaryT _ => .error .unsupportedType
  | .intervalT _ => .error .unsupportedType
termination_by (dtSize dt, 0)
decreasing_by
  all_goals simp [dtSize, flSize] <;> omega

/-- The element loop of the List branch of `read_scalar`. -/
def readScalarN (fdt : DataType) : Nat → Bytes → Except SerdeErr (List Scalar × Bytes)
  | 0, input => .ok ([], input)
  | n + 1, input => do
      let (v, r) ← read_scalar input fdt
      let (vs, r') ← readScalarN fdt n r
      .ok (v :: vs, r')
termination_by n _ => (dtSize fdt, n + 1)
decreasing_by
  all_goals simp [dtSize, flSize] <;> omega

/-- The `for i in 0..data_len { fields[i] }` loop of the Struct branch:
the count comes from the stream, so running past the end of the field
list is the `fields[i]` index panic. -/
def readStructScalars : List FieldT → Nat → Bytes → Except SerdeErr (List Scalar × Bytes)
  | _, 0, input => .ok ([], input)
  | [], _ + 1, _ => .error .panicked
  | (_, fdt, _) :: fs, n + 1, input => do
      let (v, r) ← read_scalar input fdt
      let (vs, r') ← readStructScalars fs n r
      .ok (v :: vs, r')
termination_by fields n _ => (flSize fields, n)
decreasing_by
  all_goals simp [dtSize, flSize] <;> omega

end

mutual

/-- A scalar that a `ScalarValue` of the given data type can be: the typed
payloads match the type, including the embedded field metadata the reader
rebuilds from the type, string payloads are valid UTF-8 (a Rust `String`
invariant), and a struct scalar has at most as many children as its type
has fields, each of its field's type. -/
def conformsTo : Scalar → DataType → Prop
  | .nullS, dt => dt = .nullT
  | .booleanS _, dt => dt = .booleanT
  | .primS k v, dt =>
      primScalarOK k = true ∧ dt = kindDT k ∧
        (match v with | some bs => bs.length = k.width | none => True)
  | .decimalS v p s, dt =>
      dt = .decimal128T p s ∧ (match v with | some bs => bs.length = 16 | none => True)
  | .utf8S v, dt =>
      dt = .utf8T ∧ (match v with | some bs => utf8Valid bs = true | none => True)
  | .binaryS _, dt => dt = .binaryT
  | .listS v (nm, fdt, fb), dt =>
      dt = .listT nm fdt fb ∧
        (match v with | some vs => conformsList vs fdt | none => True)
  | .structS v fields, dt =>
      dt = .structT fields ∧
        (match v with | some vs => conformsStruct vs fields | none => True)
  | .mapS inner s, dt =>
      (match dt with
       | .mapT _ fdt _ sd => sd = s ∧ conformsTo inner fdt
       | _ => False)
  | .unsuppS _, _ => False

def conformsList : List Scalar → DataType → Prop
  | [], _ => True
  | v :: vs, fdt => conformsTo v fdt ∧ conformsList vs fdt

def conformsStruct : List Scalar → List FieldT → Prop
  | [], _ => True
  | _ :: _, [] => False
  | v :: vs, f :: fs => conformsTo v f.2.1 ∧ conformsStruct vs fs

end

theorem write_len_small (n : Nat) (h : n < 128) : write_len n = [n] := by
  rw [write_len]
  simp [h]

theorem read_primitive_scalar_some (w : Nat) (bs rest : Bytes) (h : bs.length = w) :
    read_primitive_scalar w ((write_len 1 ++ bs) ++ rest) = .ok (some bs, rest) := by
  rw [read_primitive_scalar, List.append_assoc, read_len_round]
  simp only [except_bind_ok]
  rw [if_pos (by decide : (1 : Nat) ≠ 0), ← h, read_bytes_slice_round]
  rfl

theorem read_primitive_scalar_none (w : Nat) (rest : Bytes) :
    read_primitive_scalar w (write_len 0 ++ rest) = .ok (none, rest) := by
  rw [read_primitive_scalar, read_len_round]
  simp

theorem scalar_round_all (K : Nat) :
    (∀ (v : Scalar) (dt : DataType), sizeOf v ≤ K → conformsTo v dt → ∀ rest : Bytes,
      ∃ bs, write_scalar v = .ok bs ∧ read_scalar (bs ++ rest) dt = .ok (v, rest)) ∧
    (∀ (vs : List Scalar) (fdt : DataType), sizeOf vs ≤ K → conformsList vs fdt →
      ∀ rest : Bytes, ∃ bs, writeScalarList vs = .ok bs ∧
        readScalarN fdt vs.length (bs ++ rest) = .ok (vs, rest)) ∧
    (∀ (vs : List Scalar) (fields : List FieldT), sizeOf vs ≤ K →
      conformsStruct vs fields → ∀ rest : Bytes,
      ∃ bs, writeScalarList vs = .ok bs ∧
        readStructScalars fields vs.length (bs ++ rest) = .ok (vs, rest)) := by
  induction K using Nat.strong_induction_on with
  | _ K ih =>
    refine ⟨?_, ?_, ?_⟩
    · intro v dt hK hc rest
      cases v with
      | nullS =>
          simp only [conformsTo] at hc
          subst hc
          exact ⟨[], by simp [write_scalar], by simp [read_scalar]⟩
      | booleanS vb =>
          simp only [conformsTo] at hc
          subst hc
          cases vb with
          | some b =>
              cases b
              · exact ⟨[1], by simp [write_scalar, write_u8, boolByte],
                  by simp [read_scalar, read_u8]⟩
              · exact ⟨[2], by simp [write_scalar, write_u8, boolByte],
                  by simp [read_scalar, read_u8]⟩
          | none =>
              exact ⟨[0], by simp [write_scalar, write_len_small],
                by simp [read_scalar, read_u8]⟩
      | primS k vb =>
          simp only [conformsTo] at hc
          obtain ⟨hok, rfl, hlen⟩ := hc
          cases k <;> simp only [primScalarOK, Bool.false_eq_true] at hok <;>
            (cases vb with
             | some bs =>
                 refine ⟨write_len 1 ++ bs, by simp [write_scalar, primScalarOK], ?_⟩
                 simp only [kindDT, read_scalar]
                 rw [read_primitive_scalar_some _ bs rest
                   (by simpa [PrimKind.width] using hlen)]
                 simp
             | none =>
                 refine ⟨write_len 0, by simp [write_scalar, primScalarOK], ?_⟩
                 simp only [kindDT, read_scalar]
                 rw [read_primitive_scalar_none]
                 simp)
      | decimalS vb p s =>
          simp only [conformsTo] at hc
          obtain ⟨rfl, hlen⟩ := hc
          cases vb with
          | some bs =>
              refine ⟨write_len 1 ++ bs, by simp [write_scalar], ?_⟩
              simp only [read_scalar]
              rw [read_primitive_scalar_some _ bs rest (by simpa using hlen)]
              simp
          | none =>
              refine ⟨write_len 0, by simp [write_scalar], ?_⟩
              simp only [read_scalar]
              rw [read_primitive_scalar_none]
              simp
      | utf8S vb =>
          simp only [conformsTo] at hc
          obtain ⟨rfl, hval⟩ := hc
          cases vb with
          | some bs =>
              refine ⟨write_len (bs.length + 1) ++ bs, by simp [write_scalar], ?_⟩
              simp only [read_scalar, List.append_assoc]
              rw [read_len_round]
              simp only [except_bind_ok]
              rw [if_pos (by omega), Nat.add_sub_cancel, read_bytes_slice_round]
              simp only [except_bind_ok]
              rw [utf8Lossy, if_pos hval]
          | none =>
              refine ⟨write_len 0, by simp [write_scalar], ?_⟩
              simp only [read_scalar]
              rw [read_len_round]
              simp
      | binaryS vb =>
          simp only [conformsTo] at hc
          subst hc
          cases vb with
          | some bs =>
              refine ⟨write_len (bs.length + 1) ++ bs, by simp [write_scalar], ?_⟩
              simp only [read_scalar, List.append_assoc]
              rw [read_len_round]
              simp only [except_bind_ok]
              rw [if_pos (by omega), Nat.add_sub_cancel, read_bytes_slice_round]
              rfl
          | none =>
              refine ⟨write_len 0, by simp [write_scalar], ?_⟩
              simp only [read_scalar]
              rw [read_len_round]
              simp
      | listS vb fld =>
          obtain ⟨nm, fdt, fb⟩ := fld
          rw [conformsTo.eq_def] at hc
          obtain ⟨rfl, hcl⟩ := hc
          cases vb with
          | some vs =>
              have hlt : sizeOf vs < K := by
                simp only [Scalar.listS.sizeOf_spec, Option.some.sizeOf_spec] at hK
                omega
              obtain ⟨bs1, hw1, hr1⟩ := (ih (sizeOf vs) hlt).2.1 vs fdt le_rfl hcl rest
              refine ⟨write_len (vs.length + 1) ++ bs1, ?_, ?_⟩
              · simp only [write_scalar, hw1, except_bind_ok]
              · simp only [read_scalar, List.append_assoc]
                rw [read_len_round]
                simp only [except_bind_ok]
                rw [if_pos (by omega), Nat.add_sub_cancel, hr1]
                rfl
          | none =>
              refine ⟨write_len 0, by simp [write_scalar], ?_⟩
              simp only [read_scalar]
              rw [read_len_round]
              simp
      | structS vb fields =>
          rw [conformsTo.eq_def] at hc
          obtain ⟨rfl, hcs⟩ := hc
          cases vb with
          | some vs =>
              have hlt : sizeOf vs < K := by
                simp only [Scalar.structS.sizeOf_spec, Option.some.sizeOf_spec] at hK
                omega
              obtain ⟨bs1, hw1, hr1⟩ := (ih (sizeOf vs) hlt).2.2 vs fields le_rfl hcs rest
              refine ⟨write_len (vs.length + 1) ++ bs1, ?_, ?_⟩
              · simp only [write_scalar, hw1, except_bind_ok]
              · simp only [read_scalar, List.append_assoc]
                rw [read_len_round]
                simp only [except_bind_ok]
                rw [if_pos (by omega), Nat.add_sub_cancel, hr1]
                rfl
          | none =>
              refine ⟨write_len 0, by simp [write_scalar], ?_⟩
              simp only [read_scalar]
              rw [read_len_round]
              simp
      | mapS inner s =>
          simp only [conformsTo] at hc
          cases dt <;> try exact hc.elim
          case mapT nm fdt fb sd =>
            obtain ⟨rfl, hci⟩ := hc
            have hlt : sizeOf inner < K := by
              simp only [Scalar.mapS.sizeOf_spec] at hK
              omega
            obtain ⟨bs, hw, hr⟩ := (ih (sizeOf inner) hlt).1 inner fdt le_rfl hci rest
            refine ⟨bs, ?_, ?_⟩
            · simp only [write_scalar, hw]
            · simp only [read_scalar]
              rw [hr]
              rfl
      | unsuppS d => exact hc.elim
    · intro vs fdt hK hc rest
      cases vs with
      | nil => exact ⟨[], by simp [writeScalarList], by simp [readScalarN]⟩
      | cons v vs =>
          simp only [conformsList] at hc
          obtain ⟨hcv, hcl⟩ := hc
          have h1 : sizeOf v < K := by
            simp only [List.cons.sizeOf_spec] at hK
            omega
          have h2 : sizeOf vs < K := by
            simp only [List.cons.sizeOf_spec] at hK
            omega
          obtain ⟨bs2, hw2, hr2⟩ := (ih (sizeOf vs) h2).2.1 vs fdt le_rfl hcl rest
          obtain ⟨bs1, hw1, hr1⟩ := (ih (sizeOf v) h1).1 v fdt le_rfl hcv (bs2 ++ rest)
          refine ⟨bs1 ++ bs2, ?_, ?_⟩
          · simp only [writeScalarList, hw1, hw2, except_bind_ok]
          · simp only [List.length_cons, readScalarN, List.append_assoc]
            rw [hr1]
            simp only [except_bind_ok]
            rw [hr2]
            rfl
    · intro vs fields hK hc rest
      cases vs with
      | nil => exact ⟨[], by simp [writeScalarList], by simp [readStructScalars]⟩
      | cons v vs =>
          cases fields with
          | nil => exact hc.elim
          | cons f fs =>
              obtain ⟨fn, fdt, fb⟩ := f
              simp only [conformsStruct] at hc
              obtain ⟨hcv, hcs⟩ := hc
              have h1 : sizeOf v < K := by
                simp only [List.cons.sizeOf_spec] at hK
                omega
              have h2 : sizeOf vs < K := by
                simp only [List.cons.sizeOf_spec] at hK
                omega
              obtain ⟨bs2, hw2, hr2⟩ := (ih (sizeOf vs) h2).2.2 vs fs le_rfl hcs rest
              obtain ⟨bs1, hw1, hr1⟩ := (ih (sizeOf v) h1).1 v fdt le_rfl hcv (bs2 ++ rest)
              refine ⟨bs1 ++ bs2, ?_, ?_⟩
              · simp only [writeScalarList, hw1, hw2, except_bind_ok]
              · simp only [List.length_cons, readStructScalars, List.append_assoc]
                rw [hr1]
                simp only [except_bind_ok]
                rw [hr2]
                rfl

/-! ## Error kinds of the scalar reader -/

mutual

/-- Data types every branch of `read_scalar` handles, recursively (its
timestamp scalars, unlike the array reader's, have no branch). -/
def scalarSupported : DataType → Bool
  | .timestampT _ _ => false
  | .fixedSizeBinaryT _ => false
  | .intervalT _ => false
  | .listT _ fdt _ => scalarSupported fdt
  | .mapT _ fdt _ _ => scalarSupported fdt
  | .structT fields => fieldsScalarSupported fields
  | _ => true

/-- `scalarSupported` over a struct's field list. -/
def fieldsScalarSupported : List FieldT → Bool
  | [] => true
  | (_, fdt, _) :: fs => scalarSupported fdt && fieldsScalarSupported fs

end

theorem read_len_aux_error : ∀ (input : Bytes) (shift acc : Nat) (e : SerdeErr),
    read_len_aux input shift acc = .error e → e = .malformedData
  | [], _, _, _, h => by
      rw [read_len_aux] at h
      exact (Except.error.injEq _ _ ▸ h.symm)
  | b :: rest, shift, acc, e, h => by
      rw [read_len_aux] at h
      by_cases hb : b < 128
      · rw [if_pos hb] at h
        exact absurd h (by simp)
      · rw [if_neg hb] at h
        exact read_len_aux_error rest (shift + 7) (acc + b % 128 * 2 ^ shift) e h

theorem read_len_error (input : Bytes) (e : SerdeErr) (h : read_len input = .error e) :
    e = .malformedData := read_len_aux_error input 0 0 e h

theorem read_u8_error (input : Bytes) (e : SerdeErr) (h : read_u8 input = .error e) :
    e = .malformedData := by
  cases input with
  | nil => rw [read_u8] at h; exact (Except.error.injEq _ _ ▸ h.symm)
  | cons b rest => rw [read_u8] at h; exact absurd h (by simp)

theorem read_bytes_slice_error (n : Nat) (input : Bytes) (e : SerdeErr)
    (h : read_bytes_slice n input = .error e) : e = .malformedData := by
  rw [read_bytes_slice] at h
  by_cases hn : n ≤ input.length
  · rw [if_pos hn] at h
    exact absurd h (by simp)
  · rw [if_neg hn] at h
    exact (Except.error.injEq _ _ ▸ h.symm)

theorem read_primitive_scalar_error (w : Nat) (input : Bytes) (e : SerdeErr)
    (h : read_primitive_scalar w input = .error e) : e = .malformedData := by
  rw [read_primitive_scalar] at h
  cases hn : read_len input with
  | error e2 =>
      rw [hn] at h
      simp only [except_bind_error, Except.error.injEq] at h
      subst h
      exact read_len_error input e2 hn
  | ok p =>
      rw [hn] at h
      simp only [except_bind_ok] at h
      obtain ⟨valid, r⟩ := p
      by_cases hv : valid ≠ 0
      · rw [if_pos hv] at h
        cases hb : read_bytes_slice w r with
        | error e2 =>
            rw [hb] at h
            simp only [except_bind_error, Except.error.injEq] at h
            subst h
            exact read_bytes_slice_error w r e2 hb
        | ok q =>
            rw [hb] at h
            simp at h
      · rw [if_neg hv] at h
        simp at h

theorem readScalar_error_kinds (K : Nat) :
    (∀ (dt : DataType) (input : Bytes) (e : SerdeErr), dtSize dt ≤ K →
      scalarSupported dt = true → read_scalar input dt = .error e →
      e = .malformedData ∨ e = .panicked) ∧
    (∀ fdt : DataType, dtSize fdt ≤ K → scalarSupported fdt = true →
      ∀ (n : Nat) (input : Bytes) (e : SerdeErr), readScalarN fdt n input = .error e →
      e = .malformedData ∨ e = .panicked) ∧
    (∀ fields : List FieldT, flSize fields ≤ K → fieldsScalarSupported fields = true →
      ∀ (n : Nat) (input : Bytes) (e : SerdeErr),
      readStructScalars fields n input = .error e →
      e = .malformedData ∨ e = .panicked) := by
  induction K using Nat.strong_induction_on with
  | _ K ih =>
    have primCase : ∀ (w : Nat) (mk : Option Bytes → Scalar) (input : Bytes) (e : SerdeErr),
        (do
          let (v, r) ← read_primitive_scalar w input
          Except.ok (mk v, r) : Except SerdeErr (Scalar × Bytes)) = .error e →
        e = .malformedData ∨ e = .panicked := by
      intro w mk input e herr
      cases hu : read_primitive_scalar w input with
      | error e2 =>
          rw [hu] at herr
          simp only [except_bind_error, Except.error.injEq] at herr
          subst herr
          exact Or.inl (read_primitive_scalar_error w input e2 hu)
      | ok p =>
          rw [hu] at herr
          simp at herr
    have bytesCase : ∀ (mkS : Bytes → Scalar) (mkN : Scalar) (input : Bytes) (e : SerdeErr),
        (do
          let (n, r) ← read_len input
          if n > 0 then do
            let (bs, r') ← read_bytes_slice (n - 1) r
            Except.ok (mkS bs, r')
          else Except.ok (mkN, r) : Except SerdeErr (Scalar × Bytes)) = .error e →
        e = .malformedData ∨ e = .panicked := by
      intro mkS mkN input e herr
      cases hn : read_len input with
      | error e2 =>
          rw [hn] at herr
          simp only [except_bind_error, Except.error.injEq] at herr
          subst herr
          exact Or.inl (read_len_error input e2 hn)
      | ok p =>
          rw [hn] at herr
          simp only [except_bind_ok] at herr
          obtain ⟨n, r⟩ := p
          by_cases hpos : n > 0
          · rw [if_pos hpos] at herr
            cases hb : read_bytes_slice (n - 1) r with
            | error e2 =>
                rw [hb] at herr
                simp only [except_bind_error, Except.error.injEq] at herr
                subst herr
                exact Or.inl (read_bytes_slice_error (n - 1) r e2 hb)
            | ok q =>
                rw [hb] at herr
                simp at herr
          · rw [if_neg hpos] at herr
            simp at herr
    have P1 : ∀ (dt : DataType) (input : Bytes) (e : SerdeErr), dtSize dt ≤ K →
        scalarSupported dt = true → read_scalar input dt = .error e →
        e = .malformedData ∨ e = .panicked := by
      intro dt input e hK hsup herr
      cases dt with
      | nullT => simp [read_scalar] at herr
      | booleanT =>
          simp only [read_scalar] at herr
          cases hu : read_u8 input with
          | error e2 =>
              rw [hu] at herr
              simp only [except_bind_error, Except.error.injEq] at herr
              subst herr
              exact Or.inl (read_u8_error input e2 hu)
          | ok p =>
              rw [hu] at herr
              simp only [except_bind_ok] at herr
              obtain ⟨b, r⟩ := p
              split at herr <;> simp at herr
              split at herr <;> simp at herr
      | int8T =>
          simp only [read_scalar] at herr
          exact primCase 1 (fun v => .primS .int8 v) input e herr
      | int16T =>
          simp only [read_scalar] at herr
          exact primCase 2 (fun v => .primS .int16 v) input e herr
      | int32T =>
          simp only [read_scalar] at herr
          exact primCase 4 (fun v => .primS .int32 v) input e herr
      | int64T =>
          simp only [read_scalar] at herr
          exact primCase 8 (fun v => .primS .int64 v) input e herr
      | uint8T =>
          simp only [read_scalar] at herr
          exact primCase 1 (fun v => .primS .uint8 v) input e herr
      | uint16T =>
          simp only [read_scalar] at herr
          exact primCase 2 (fun v => .primS .uint16 v) input e herr
      | uint32T =>
          simp only [read_scalar] at herr
          exact primCase 4 (fun v => .primS .uint32 v) input e herr
      | uint64T =>
          simp only [read_scalar] at herr
          exact primCase 8 (fun v => .primS .uint64 v) input e herr
      | float32T =>
          simp only [read_scalar] at herr
          exact primCase 4 (fun v => .primS .float32 v) input e herr
      | float64T =>
          simp only [read_scalar] at herr
          exact primCase 8 (fun v => .primS .float64 v) input e herr
      | decimal128T p s =>
          simp only [read_scalar] at herr
          exact primCase 16 (fun v => .decimalS v p s) input e herr
      | date32T =>
          simp only [read_scalar] at herr
          exact primCase 4 (fun v => .primS .date32 v) input e herr
      | date64T =>
          simp only [read_scalar] at herr
          exact primCase 8 (fun v => .primS .date64 v) input e herr
      | binaryT =>
          simp only [read_scalar] at herr
          exact bytesCase (fun bs => .binaryS (some bs)) (.binaryS none) input e herr
      | utf8T =>
          simp only [read_scalar] at herr
          exact bytesCase (fun bs => .utf8S (some (utf8Lossy bs))) (.utf8S none) input e herr
      | timestampT u tz => simp [scalarSupported] at hsup
      | fixedSizeBinaryT w => simp [scalarSupported] at hsup
      | intervalT t => simp [scalarSupported] at hsup
      | listT nm fdt fb =>
          simp only [scalarSupported] at hsup
          simp only [read_scalar] at herr
          cases hn : read_len input with
          | error e2 =>
              rw [hn] at herr
              simp only [except_bind_error, Except.error.injEq] at herr
              subst herr
              exact Or.inl (read_len_error input e2 hn)
          | ok p =>
              rw [hn] at herr
              simp only [except_bind_ok] at herr
              obtain ⟨n, r⟩ := p
              by_cases hpos : n > 0
              · rw [if_pos hpos] at herr
                cases hl : readScalarN fdt (n - 1) r with
                | error e2 =>
                    rw [hl] at herr
                    simp only [except_bind_error, Except.error.injEq] at herr
                    subst herr
                    have hlt : dtSize fdt < K := by
                      simp only [dtSize] at hK
                      omega
                    exact (ih (dtSize fdt) hlt).2.1 fdt le_rfl hsup (n - 1) r e2 hl
                | ok q =>
                    rw [hl] at herr
                    simp at herr
              · rw [if_neg hpos] at herr
                simp at herr
      | mapT nm fdt fb s =>
          simp only [scalarSupported] at hsup
          simp only [read_scalar] at herr
          cases hm : read_scalar input fdt with
          | error e2 =>
              rw [hm] at herr
              simp only [except_bind_error, Except.error.injEq] at herr
              subst herr
              have hlt : dtSize fdt < K := by
                simp only [dtSize] at hK
                omega
              exact (ih (dtSize fdt) hlt).1 fdt input e2 le_rfl hsup hm
          | ok p =>
              rw [hm] at herr
              simp at herr
      | structT fields =>
          simp only [scalarSupported] at hsup
          simp only [read_scalar] at herr
          cases hn : read_len input with
          | error e2 =>
              rw [hn] at herr
              simp only [except_bind_error, Except.error.injEq] at herr
              subst herr
              exact Or.inl (read_len_error input e2 hn)
          | ok p =>
              rw [hn] at herr
              simp only [except_bind_ok] at herr
              obtain ⟨n, r⟩ := p
              by_cases hpos : n > 0
              · rw [if_pos hpos] at herr
                cases hl : readStructScalars fields (n - 1) r with
                | error e2 =>
                    rw [hl] at herr
                    simp only [except_bind_error, Except.error.injEq] at herr
                    subst herr
                    have hlt : flSize fields < K := by
                      simp only [dtSize] at hK
                      omega
                    exact (ih (flSize fields) hlt).2.2 fields le_rfl hsup (n - 1) r e2 hl
                | ok q =>
                    rw [hl] at herr
                    simp at herr
              · rw [if_neg hpos] at herr
                simp at herr
    refine ⟨P1, ?_, ?_⟩
    · intro fdt hK hsup n
      induction n with
      | zero => intro input e herr; simp [readScalarN] at herr
      | succ n ihn =>
          intro input e herr
          simp only [readScalarN] at herr
          cases hv : read_scalar input fdt with
          | error e2 =>
              rw [hv] at herr
              simp only [except_bind_error, Except.error.injEq] at herr
              subst herr
              exact P1 fdt input e2 hK hsup hv
          | ok p =>
              rw [hv] at herr
              simp only [except_bind_ok] at herr
              cases hl : readScalarN fdt n p.2 with
              | error e2 =>
                  rw [hl] at herr
                  obtain ⟨v, r⟩ := p
                  simp only [except_bind_error, Except.error.injEq] at herr
                  subst herr
                  exact ihn r e2 hl
              | ok q =>
                  obtain ⟨v, r⟩ := p
                  rw [hl] at herr
                  simp at herr
    · intro fields
      induction fields with
      | nil =>
          intro hK hsup n input e herr
          cases n with
          | zero => simp [readStructScalars] at herr
          | succ n =>
              rw [readStructScalars] at herr
              exact Or.inr (Except.error.injEq _ _ ▸ herr.symm)
      | cons f fs ihf =>
          intro hK hsup n input e herr
          obtain ⟨fn, fdt, fb⟩ := f
          simp only [fieldsScalarSupported, Bool.and_eq_true] at hsup
          cases n with
          | zero => simp [readStructScalars] at herr
          | succ n =>
              simp only [readStructScalars] at herr
              cases hv : read_scalar input fdt with
              | error e2 =>
                  rw [hv] at herr
                  simp only [except_bind_error, Except.error.injEq] at herr
                  subst herr
                  exact P1 fdt input e2 (by simp only [flSize] at hK; omega) hsup.1 hv
              | ok p =>
                  rw [hv] at herr
                  simp only [except_bind_ok] at herr
                  obtain ⟨v, r⟩ := p
                  cases hl : readStructScalars fs n r with
                  | error e2 =>
                      rw [hl] at herr
                      simp only [except_bind_error, Except.error.injEq] at herr
                      subst herr
                      exact ihf (by simp only [flSize] at hK; omega) hsup.2 n r e2 hl
                  | ok q =>
                      rw [hl] at herr
                      simp at herr

/-! ## The decoded columns -/

theorem decodeChildren_eq_map : ∀ cs : List PhysArray,
    decodeChildren cs = cs.map decodeShape
  | [] => by rw [decodeChildren]; rfl
  | c :: cs => by rw [decodeChildren, decodeChildren_eq_map cs, List.map_cons]

theorem wfChildren_getD : ∀ (fields : List FieldT) (len : Nat) (cs : List PhysArray),
    wfChildren fields len cs → ∀ i, i < cs.length →
    lenA (cs.getD i (.nullA 0)) = len ∧ wfA (cs.getD i (.nullA 0))
  | _, _, [], _, i, hi => absurd hi (by simp)
  | [], _, c :: cs, h, _, _ => by simp [wfChildren] at h
  | (fn, fdt, fb) :: fs, len, c :: cs, h, i, hi => by
      rw [wfChildren] at h
      cases i with
      | zero => exact ⟨h.1, h.2.2.1⟩
      | succ i =>
          exact wfChildren_getD fs len cs h.2.2.2 i (by simpa using hi)

theorem noTzFields_getD : ∀ (fields : List FieldT) (len : Nat) (cs : List PhysArray),
    wfChildren fields len cs → noTzFields fields = true → ∀ i, i < cs.length →
    noTz (dtypeA (cs.getD i (.nullA 0))) = true
  | _, _, [], _, _, i, hi => absurd hi (by simp)
  | [], _, c :: cs, h, _, _, _ => by simp [wfChildren] at h
  | (fn, fdt, fb) :: fs, len, c :: cs, h, htz, i, hi => by
      rw [wfChildren] at h
      simp only [noTzFields, Bool.and_eq_true] at htz
      cases i with
      | zero =>
          show noTz (dtypeA c) = true
          rw [h.2.1]
          exact htz.1
      | succ i =>
          exact noTzFields_getD fs len cs h.2.2.2 htz.2 i (by simpa using hi)

/-! ## The claims -/

/-- C1 (amended): encoding a well-formed batch none of whose column types
carry a timestamp time zone, with either compress flag, and decoding it
back succeeds and yields a batch equal to the original value-wise — same
column count, same row count, per column the same data type (with field
names replaced by empty names), the same length and the same null
positions and values at every position and nesting depth (`valuesOf`) —
independent of the original arrays' physical buffer layout and base
offsets.  The time-zone proviso is the correction: a timestamp column
that carries a time zone encodes fine but fails to decode, because
`read_primitive_array` rebuilds it at the tz-less `PT::DATA_TYPE` and the
`RecordBatch::try_new_with_options` validation rejects it against the
tz-carrying schema field read back from the header (`claim_C1_cex`). -/
theorem claim_C1 (b : Batch) (hwf : wfBatch b) (htz : noTzFields b.fields = true)
    (compress : Bool) :
    ∃ out size, write_batch b compress = .ok (out, size) ∧
    ∃ b' : Batch, read_batch out compress = .ok b' ∧
      b'.fields = namelessFields b.fields ∧
      b'.numRows = b.numRows ∧
      b'.columns.length = b.columns.length ∧
      ∀ i, i < b.columns.length →
        dtypeA (b'.columns.getD i (.nullA 0))
            = namelessDT (dtypeA (b.columns.getD i (.nullA 0))) ∧
        lenA (b'.columns.getD i (.nullA 0)) = lenA (b.columns.getD i (.nullA 0)) ∧
        valuesOf (b'.columns.getD i (.nullA 0))
            = valuesOf (b.columns.getD i (.nullA 0)) := by
  obtain ⟨out, size, hw, hr⟩ := read_write_batch b hwf htz compress
  refine ⟨out, size, hw, _, hr, rfl, rfl, by simp [decodeChildren_eq_map], ?_⟩
  intro i hi
  have hgd : (decodeChildren b.columns).getD i (.nullA 0)
      = decodeShape (b.columns.getD i (.nullA 0)) := by
    rw [decodeChildren_eq_map, List.getD_eq_getElem _ _ (by simpa using hi),
      List.getD_eq_getElem _ _ hi, List.getElem_map]
  obtain ⟨hlen, hwfc⟩ := wfChildren_getD b.fields b.numRows b.columns hwf i hi
  have hnt := noTzFields_getD b.fields b.numRows b.columns hwf htz i hi
  exact ⟨by rw [hgd, dtypeA_decodeShape _ hwfc, primReadDT_nameless _ hnt],
    by rw [hgd, lenA_decodeShape],
    by rw [hgd, valuesOf_decodeShape _ hwfc]⟩

/-- C1 witness: a one-column Int8 batch with a non-empty field name. -/
theorem claim_C1_witness :
    ∃ out size,
      write_batch ⟨[([72, 105], .int8T, true)], 1, [.prim .int8T .int8 1 0 none [5]]⟩
          true = .ok (out, size) ∧
    ∃ b' : Batch, read_batch out true = .ok b' ∧
      b'.fields = namelessFields [([72, 105], .int8T, true)] ∧
      b'.numRows = 1 ∧
      b'.columns.length = [PhysArray.prim .int8T .int8 1 0 none [5]].length ∧
      ∀ i, i < [PhysArray.prim .int8T .int8 1 0 none [5]].length →
        dtypeA (b'.columns.getD i (.nullA 0))
            = namelessDT (dtypeA
                ([PhysArray.prim .int8T .int8 1 0 none [5]].getD i (.nullA 0))) ∧
        lenA (b'.columns.getD i (.nullA 0))
            = lenA ([PhysArray.prim .int8T .int8 1 0 none [5]].getD i (.nullA 0)) ∧
        valuesOf (b'.columns.getD i (.nullA 0))
            = valuesOf ([PhysArray.prim .int8T .int8 1 0 none [5]].getD i (.nullA 0)) :=
  claim_C1 ⟨[([72, 105], .int8T, true)], 1, [.prim .int8T .int8 1 0 none [5]]⟩
    (by simp [wfBatch, wfChildren, wfA, dtPrimKind, decimalWF, bitmapWF, dtypeA, lenA,
      PrimKind.width])
    (by simp [noTzFields, noTz]) true

/-- C1 counterexample: a batch with a `Timestamp(Second, Some tz)` column
encodes successfully, but decoding it fails — the column is rebuilt at the
tz-less `PT::DATA_TYPE` and the batch constructor's schema/column
data-type validation rejects it — so decoding does not succeed on every
supported-type batch. -/
theorem claim_C1_cex :
    ∃ out size,
      write_batch ⟨[([], .timestampT .second (some [85]), false)], 0,
          [.prim (.timestampT .second (some [85])) .tsSecond 0 0 none []]⟩ false
        = .ok (out, size) ∧
      read_batch out false = .error .arrowError := by
  have hwf' : wfChildren [(([] : Bytes), DataType.timestampT .second (some [85]), false)] 0
      [PhysArray.prim (.timestampT .second (some [85])) .tsSecond 0 0 none []] := by
    simp [wfChildren, wfA, dtPrimKind, decimalWF, bitmapWF, dtypeA, lenA, PrimKind.width]
  obtain ⟨cols, hw, hr⟩ := (write_read_all
      (asizeList [PhysArray.prim (.timestampT .second (some [85])) .tsSecond 0 0 none []])).2
    [(([] : Bytes), DataType.timestampT .second (some [85]), false)] 0
    [PhysArray.prim (.timestampT .second (some [85])) .tsSecond 0 0 none []]
    le_rfl hwf' (by rfl) []
  rw [List.append_nil] at hr
  have hcols : readColumns
      ([(([] : Bytes), DataType.timestampT .second (some [85]), false)].map
        fun f => namelessDT f.2.1) 0 cols
      = .ok (decodeChildren
          [PhysArray.prim (.timestampT .second (some [85])) .tsSecond 0 0 none []], []) := by
    rw [readColumns_eq_readArrayList]
    exact hr
  have hparse := readBatchStream_parse
    ⟨[(([] : Bytes), DataType.timestampT .second (some [85]), false)], 0,
      [PhysArray.prim (.timestampT .second (some [85])) .tsSecond 0 0 none []]⟩
    hwf' cols hcols
  have hne : colTypesEq
      ([(([] : Bytes), DataType.timestampT .second (some [85]), false)].map
        fun f => namelessDT f.2.1)
      (decodeChildren
        [PhysArray.prim (.timestampT .second (some [85])) .tsSecond 0 0 none []])
      = false := by
    simp [decodeChildren, decodeShape, dtypeA, namelessDT, primReadDT, colTypesEq, dtEq,
      packNulls]
  rw [hne, if_neg Bool.false_ne_true] at hparse
  refine ⟨write_len [PhysArray.prim (DataType.timestampT .second (some [85]))
        .tsSecond 0 0 none []].length
      ++ write_len 0
      ++ ([(([] : Bytes), DataType.timestampT .second (some [85]), false)].map
          fun f => write_data_type f.2.1).flatten
      ++ boolsToBytes ([(([] : Bytes), DataType.timestampT .second (some [85]), false)].map
          fun f => f.2.2)
      ++ cols,
    (write_len [PhysArray.prim (DataType.timestampT .second (some [85]))
        .tsSecond 0 0 none []].length
      ++ write_len 0
      ++ ([(([] : Bytes), DataType.timestampT .second (some [85]), false)].map
          fun f => write_data_type f.2.1).flatten
      ++ boolsToBytes ([(([] : Bytes), DataType.timestampT .second (some [85]), false)].map
          fun f => f.2.2)
      ++ cols).length, ?_, ?_⟩
  · rw [write_batch, hw]
    rfl
  · rw [read_batch, if_neg Bool.false_ne_true]
    simp only [except_bind_ok]
    exact hparse

/-- C2 (amended): encoding a valid slice of a well-formed array whose type
carries no timestamp time zone below the root (the condition under which
the reader's `ArrayData::try_new` child-type validations pass) and
decoding it succeeds and yields a value equal to the logical slice, and
the slice serializes to the identical byte sequence as the canonical
freshly-built offset-0 array holding the same logical rows (`decodeShape`,
whose offsets are running sums from 0 of the per-row lengths).  Two
corrections: for a nested tz-carrying timestamp child the real
`read_array` errors (the rebuilt child is tz-less and `try_new` rejects
it), and the claim's stronger "identical bytes as any freshly-built array
holding the same logical rows" fails because the writer records whether a
validity bitmap is present (`claim_C2_cex`). -/
theorem claim_C2 (a : PhysArray) (o l : Nat) (hwf : wfA a) (ho : o + l ≤ lenA a)
    (htz : nestNoTz (dtypeA a) = true) (rest : Bytes) :
    ∃ bs, writeArray (sliceA a o l) = .ok bs ∧
      readArray (bs ++ rest) (namelessDT (dtypeA a)) l
        = .ok (decodeShape (sliceA a o l), rest) ∧
      valuesOf (decodeShape (sliceA a o l)) = valuesOf (sliceA a o l) ∧
      writeArray (decodeShape (sliceA a o l)) = writeArray (sliceA a o l) := by
  have hws := wfA_slice a hwf o l ho
  obtain ⟨bs, hw, hr⟩ := write_read_array (sliceA a o l) hws
    (by rw [dtypeA_slice]; exact htz) rest
  rw [dtypeA_slice, lenA_slice] at hr
  exact ⟨bs, hw, hr, valuesOf_decodeShape _ hws, writeArray_decodeShape _ hws⟩

/-- C2 witness: the second element of a two-row Int8 array. -/
theorem claim_C2_witness :
    ∃ bs, writeArray (sliceA (.prim .int8T .int8 2 0 none [7, 9]) 1 1) = .ok bs ∧
      readArray (bs ++ []) (namelessDT (dtypeA (.prim .int8T .int8 2 0 none [7, 9]))) 1
        = .ok (decodeShape (sliceA (.prim .int8T .int8 2 0 none [7, 9]) 1 1), []) ∧
      valuesOf (decodeShape (sliceA (.prim .int8T .int8 2 0 none [7, 9]) 1 1))
        = valuesOf (sliceA (.prim .int8T .int8 2 0 none [7, 9]) 1 1) ∧
      writeArray (decodeShape (sliceA (.prim .int8T .int8 2 0 none [7, 9]) 1 1))
        = writeArray (sliceA (.prim .int8T .int8 2 0 none [7, 9]) 1 1) :=
  claim_C2 (.prim .int8T .int8 2 0 none [7, 9]) 1 1
    (by simp [wfA, dtPrimKind, decimalWF, bitmapWF, PrimKind.width])
    (by simp [lenA]) rfl []

/-- C2 counterexample: a slice of a nulls-carrying Int8 array whose window
holds no null row is value-equal (same type, length, null positions and
values) to a freshly-built array without a validity bitmap, yet the two
serialize to different bytes, because the writer records the presence of
the null buffer. -/
theorem claim_C2_cex :
    valuesOf (sliceA (.prim .int8T .int8 2 0 (some ⟨[2], 0, 2⟩) [0, 5]) 1 1)
        = valuesOf (.prim .int8T .int8 1 0 none [5]) ∧
    dtypeA (sliceA (.prim .int8T .int8 2 0 (some ⟨[2], 0, 2⟩) [0, 5]) 1 1)
        = dtypeA (.prim .int8T .int8 1 0 none [5]) ∧
    lenA (sliceA (.prim .int8T .int8 2 0 (some ⟨[2], 0, 2⟩) [0, 5]) 1 1)
        = lenA (.prim .int8T .int8 1 0 none [5]) ∧
    wfA (sliceA (.prim .int8T .int8 2 0 (some ⟨[2], 0, 2⟩) [0, 5]) 1 1) ∧
    wfA (.prim .int8T .int8 1 0 none [5]) ∧
    writeArray (sliceA (.prim .int8T .int8 2 0 (some ⟨[2], 0, 2⟩) [0, 5]) 1 1)
        ≠ writeArray (.prim .int8T .int8 1 0 none [5]) := by
  have h0 : write_len 0 = [0] := write_len_small 0 (by omega)
  have h1 : write_len 1 = [1] := write_len_small 1 (by omega)
  refine ⟨?_, by simp [sliceA, dtypeA], by simp [sliceA, lenA], ?_, ?_, ?_⟩
  · simp [valuesOf, sliceA, lenA, rowVal, isNullAt, sliceNulls, Bitmap.sliceB, getBit,
      PrimKind.width, List.range_succ]
  · simp [sliceA, wfA, sliceNulls, Bitmap.sliceB, dtPrimKind, decimalWF, bitmapWF,
      PrimKind.width]
  · simp [wfA, dtPrimKind, decimalWF, bitmapWF, PrimKind.width]
  · simp [sliceA, writeArray, write_primitive_array, writeNulls, sliceNulls,
      Bitmap.sliceB, write_bits_buffer, packedByte, getBit, h0, h1, PrimKind.width,
      List.range_succ]

/-- C3: decoding the compressed encoding of a well-formed batch equals
decoding the uncompressed encoding of the same batch — compression is a
transparent wrapper around the identical logical byte stream. -/
theorem claim_C3 (b : Batch) (hwf : wfBatch b) :
    ∃ outT szT outF szF,
      write_batch b true = .ok (outT, szT) ∧
      write_batch b false = .ok (outF, szF) ∧
      read_batch outT true = read_batch outF false := by
  have hwf' : wfChildren b.fields b.numRows b.columns := hwf
  obtain ⟨cols, hc⟩ := writeChildren_ok b.fields b.numRows b.columns hwf'
  set L := write_len b.columns.length ++ write_len b.numRows
    ++ (b.fields.map fun f => write_data_type f.2.1).flatten
    ++ boolsToBytes (b.fields.map fun f => f.2.2) ++ cols with hL
  refine ⟨zstdCompress L, L.length, L, L.length, ?_, ?_, ?_⟩
  · rw [write_batch, hc]
    rfl
  · rw [write_batch, hc]
    rfl
  · rw [read_batch, read_batch, if_pos rfl, if_neg Bool.false_ne_true, zstd_round]

/-- C3 witness: the zero-column three-row batch. -/
theorem claim_C3_witness :
    ∃ outT szT outF szF,
      write_batch ⟨[], 3, []⟩ true = .ok (outT, szT) ∧
      write_batch ⟨[], 3, []⟩ false = .ok (outF, szF) ∧
      read_batch outT true = read_batch outF false :=
  claim_C3 ⟨[], 3, []⟩ (by simp [wfBatch, wfChildren])

/-- C4: whenever both calls succeed, the size reported with
`compress = true` equals the byte length the `compress = false` call
produces, and the size reported with `compress = false` equals the bytes
actually written (the logical stream's length in both cases). -/
theorem claim_C4 (b : Batch) (outT outF : Bytes) (szT szF : Nat)
    (hT : write_batch b true = .ok (outT, szT))
    (hF : write_batch b false = .ok (outF, szF)) :
    szT = outF.length ∧ szF = outF.length := by
  rw [write_batch] at hT hF
  cases hc : writeChildren b.columns with
  | error e =>
      rw [hc] at hT
      simp at hT
  | ok cols =>
      rw [hc] at hT hF
      injection hT with h1
      injection hF with h2
      injection h1 with h1a h1b
      injection h2 with h2a h2b
      rw [if_neg Bool.false_ne_true] at h2a
      constructor
      · rw [← h1b, ← h2a]
      · rw [← h2b, ← h2a]

/-- C4 witness: the zero-column five-row batch, whose logical stream is
`[0, 5]` (column count 0, row count 5). -/
theorem claim_C4_witness : 2 = [(0 : Nat), 5].length ∧ 2 = [(0 : Nat), 5].length :=
  claim_C4 ⟨[], 5, []⟩ [2, 0, 5] [0, 5] 2 2
    (by simp [write_batch, writeChildren, boolsToBytes, zstdCompress, write_len_small])
    (by simp [write_batch, writeChildren, boolsToBytes, write_len_small])

/-- C5: `write_data_type` emits a length prefix followed by exactly that
payload; reading its output back yields exactly the name-stripped type
(names dropped recursively, nullability and structure kept), and on an
already-nameless type the round trip is the identity. -/
theorem claim_C5 (dt : DataType) (rest : Bytes) :
    (∃ payload, write_data_type dt = write_len payload.length ++ payload) ∧
    read_data_type (write_data_type dt ++ rest) = .ok (namelessDT dt, rest) ∧
    read_data_type (write_data_type (namelessDT dt) ++ rest)
      = .ok (namelessDT dt, rest) := by
  refine ⟨⟨dtEncode (namelessDT dt), rfl⟩, read_write_data_type dt rest, ?_⟩
  rw [read_write_data_type, namelessDT_idem]

/-- C6: unsupported data types (fixed-size binary and intervals standing
for the rejected family, and the unsupported `ScalarValue` variants) fail
with `UnsupportedType` immediately — the array writer, array reader,
scalar writer and scalar reader all return the error without writing or
consuming any bytes for the value. -/
theorem claim_C6 :
    (∀ (dt : DataType) (len : Nat),
      writeArray (.unsupp dt len) = .error .unsupportedType) ∧
    (∀ (input : Bytes) (w n : Nat),
      readArray input (.fixedSizeBinaryT w) n = .error .unsupportedType) ∧
    (∀ (input : Bytes) (t n : Nat),
      readArray input (.intervalT t) n = .error .unsupportedType) ∧
    (∀ dt : DataType, write_scalar (.unsuppS dt) = .error .unsupportedType) ∧
    (∀ (input : Bytes) (w : Nat),
      read_scalar input (.fixedSizeBinaryT w) = .error .unsupportedType) ∧
    (∀ (input : Bytes) (t : Nat),
      read_scalar input (.intervalT t) = .error .unsupportedType) :=
  ⟨fun _ _ => by simp [writeArray], fun _ _ _ => by simp [readArray],
    fun _ _ _ => by simp [readArray], fun _ => by simp [write_scalar],
    fun _ _ => by simp [read_scalar], fun _ _ => by simp [read_scalar]⟩

/-- C7: the bitmap pack produces exactly `⌈len/8⌉` bytes whose bit `i`
equals the source's bit `off + i` for every `i < len`; it has no error
conditions (it is a total function), a zero-length input yields a
zero-length output, and unpacking the packed bytes with the same length
returns them unchanged (their bits below `len` being the packed bits from
offset 0). -/
theorem claim_C7 (buf : Bytes) (off len : Nat) (rest : Bytes) :
    (write_bits_buffer buf off len).length = (len + 7) / 8 ∧
    (∀ i, i < len → getBit (write_bits_buffer buf off len) i = getBit buf (off + i)) ∧
    write_bits_buffer buf off 0 = [] ∧
    read_bits_buffer (write_bits_buffer buf off len ++ rest) len
      = .ok (write_bits_buffer buf off len, rest) := by
  refine ⟨write_bits_buffer_length buf off len,
    fun i hi => getBit_write_bits_buffer buf off len i hi,
    write_bits_buffer_nil buf off, ?_⟩
  rw [read_bits_buffer, ← write_bits_buffer_length buf off len, read_bytes_slice_round]

/-- C8: a Map scalar's encoding is exactly the single recursive encoding
of its inner entry-list scalar (the `sorted` flag is not serialized);
reading a Map data type reads exactly one scalar of the entry field's type
and takes `sorted` from the data type; and when the inner value conforms
to the entry field's type and the flags agree, the Map scalar round-trips
exactly. -/
theorem claim_C8 (inner : Scalar) (sorted : Bool) (nm : Bytes) (fdt : DataType)
    (fb : Bool) (input rest : Bytes) :
    write_scalar (.mapS inner sorted) = write_scalar inner ∧
    read_scalar input (.mapT nm fdt fb sorted)
      = (read_scalar input fdt).map (fun vr => (.mapS vr.1 sorted, vr.2)) ∧
    (conformsTo inner fdt →
      ∃ bs, write_scalar (.mapS inner sorted) = .ok bs ∧
        read_scalar (bs ++ rest) (.mapT nm fdt fb sorted)
          = .ok (.mapS inner sorted, rest)) := by
  refine ⟨by simp only [write_scalar], ?_, ?_⟩
  · simp only [read_scalar]
    cases h : read_scalar input fdt with
    | ok p => rfl
    | error e => rfl
  · intro hc
    have hcm : conformsTo (.mapS inner sorted) (.mapT nm fdt fb sorted) := by
      rw [conformsTo.eq_def]
      exact ⟨rfl, hc⟩
    exact (scalar_round_all (sizeOf (Scalar.mapS inner sorted))).1 _ _ le_rfl hcm rest

/-- C9 (amended): neither decoder honours "always MalformedData, never a
panic, never another kind".  For `read_scalar`, on every scalar-supported
data type a failure reports either `MalformedData` (declared lengths
inconsistent with the available bytes) or a panic — the Struct branch's
`fields[i]` indexing panics when the declared child count exceeds the
type's field count (`claim_C9_cex`).  For `read_batch`, structural
inconsistencies can likewise surface as panics rather than
`MalformedData`: the second conjunct exhibits a complete batch stream
(one column, zero rows, a recorded Map type whose entries field is
`Int8`, not a Struct) on which `read_batch` hits `read_map_array`'s
`unreachable!()` entries match and panics; a corrupt type payload
additionally surfaces as `DeserializeError` and a schema/column type
mismatch as the propagated arrow validation error. -/
theorem claim_C9 (dt : DataType) (input : Bytes) (e : SerdeErr)
    (hsup : scalarSupported dt = true) (herr : read_scalar input dt = .error e) :
    (e = .malformedData ∨ e = .panicked) ∧
    read_batch (write_len 1 ++ write_len 0
        ++ write_data_type (.mapT [] .int8T false false) ++ [0] ++ [0]) false
      = .error .panicked := by
  refine ⟨(readScalar_error_kinds (dtSize dt)).1 dt input e le_rfl hsup herr, ?_⟩
  have hra : readArray [0] (DataType.mapT [] .int8T false false) 0 = .error .panicked := by
    simp [readArray, readNulls, readOffsetsLoop, read_len, read_len_aux]
  rw [read_batch, if_neg Bool.false_ne_true]
  simp only [except_bind_ok]
  rw [readBatchStream]
  simp only [List.append_assoc]
  rw [read_len_round]
  simp only [except_bind_ok]
  rw [read_len_round]
  simp only [except_bind_ok]
  rw [show write_data_type (.mapT [] .int8T false false) ++ ([0] ++ [0])
      = ([(([] : Bytes), DataType.mapT [] .int8T false false, false)].map
          fun f => write_data_type f.2.1).flatten ++ ([0] ++ [0]) from by simp]
  rw [show (1 : Nat)
      = [((([] : Bytes), DataType.mapT [] .int8T false false, false) : FieldT)].length
    from rfl]
  rw [readDataTypes_spec]
  simp only [except_bind_ok]
  rw [show ([((([] : Bytes), DataType.mapT [] .int8T false false, false) : FieldT)].length
        + 7) / 8
      = [(0 : Nat)].length from rfl]
  rw [show ([0] ++ [0] : Bytes) = [(0 : Nat)] ++ [0] from rfl, read_bytes_slice_round]
  simp only [except_bind_ok]
  simp only [List.map_cons, List.map_nil]
  rw [show namelessDT (.mapT [] .int8T false false) = .mapT [] .int8T false false from by
    simp [namelessDT]]
  rw [readColumns, hra]
  rfl

/-- C9 witness: the empty-struct type on input `[2]` (declared child
count 1). -/
theorem claim_C9_witness :
    (SerdeErr.panicked = .malformedData ∨ SerdeErr.panicked = .panicked) ∧
    read_batch (write_len 1 ++ write_len 0
        ++ write_data_type (.mapT [] .int8T false false) ++ [0] ++ [0]) false
      = .error .panicked :=
  claim_C9 (.structT []) [2] .panicked
    (by simp [scalarSupported, fieldsScalarSupported])
    (by simp [read_scalar, read_len, read_len_aux, readStructScalars])

/-- C9 counterexample: a structurally inconsistent input (declared struct
child count exceeding the field count) makes `read_scalar` panic rather
than report `MalformedData`. -/
theorem claim_C9_cex :
    read_scalar [2] (.structT []) = .error .panicked ∧
    SerdeErr.panicked ≠ SerdeErr.malformedData := by
  constructor
  · simp [read_scalar, read_len, read_len_aux, readStructScalars]
  · decide

/-- C10: for every row count, the zero-column batch round-trips through
`write_batch`/`read_batch` to a zero-column batch with exactly that row
count: the row count is an explicit header value imposed on the rebuilt
batch, not derived from the empty column list. -/
theorem claim_C10 (n : Nat) (compress : Bool) :
    ∃ out size, write_batch ⟨[], n, []⟩ compress = .ok (out, size) ∧
      read_batch out compress = .ok ⟨[], n, []⟩ := by
  obtain ⟨out, size, hw, hr⟩ := read_write_batch ⟨[], n, []⟩
    (by simp [wfBatch, wfChildren]) (by rw [noTzFields]) compress
  refine ⟨out, size, hw, ?_⟩
  rw [hr]
  simp [namelessFields, decodeChildren]

end BatchSerde
